import Mathlib

/-!
# sc::vector and MyForwardIterator (include/vector.h)

A shallow embedding of the dynamic-array container of `include/vector.h`.

* `size_type` is `unsigned long`: a natural number below `2 ^ 64`, every
  arithmetic step on it is reduced modulo `2 ^ 64` (`wrap`, `to_size`).
* `difference_type` is `std::ptrdiff_t`: an integer.  Inside the array a handle
  points into, handle arithmetic is integer arithmetic on slot offsets (`add`,
  `sub`, `diff`); `add_in`, `sub_in`, `diff_in` and `ptrdiff_add` carry the
  range in which the pointer arithmetic of the source is defined.
* `m_storage` is the array obtained from `new T[n]`: a list of `n` slots.  A
  read or write of `m_storage[i]` outside that array is undefined behaviour and
  is reported as `Fault.out_of_bounds i`.
* An iterator is a slot address; addresses are counted in slots from the
  first slot of the array the handle points into, so `begin()` is address `0`.
* `new T[n]` itself is taken to succeed.  What its slots hold before the first
  write is `Element.fresh`; for a scalar type that is an indeterminate value.
* A member that throws (`pop_back`, `at`, `front`, `back`) returns the vector
  after the call together with its outcome, so that the state left behind by a
  throw can be stated.
* For the claims about two vectors not sharing storage, a second embedding
  (`Store`, `vector_obj`) keeps `m_storage` as an address into a store of arrays.
  There a `const_reference` argument is an address too, so that a call such as
  `v.push_back(v[0])` can be stated; the members of `vector` that take a value
  are those calls with the argument held outside the vector's array.
-/

namespace sc

/-- Element types.  `init` is the value-initialised object `T{}`; `fresh n i`
stands for what slot `i` of the array returned by `new T[n]` holds before the
first write to it: a default-constructed object for a class type, and for a
scalar type an indeterminate value, of which nothing is known and which a
program must not read.  The embedding does not track which slots are
indeterminate; statements about the container speak of the slots that have
been written. -/
class Element (T : Type) where
  init : T
  fresh : Nat → Nat → T

/-- Ways an operation can end without returning: the two exceptions the
container throws, an access outside the allocated array, an iterator pair that
is not a range, a loop that has used up its iteration bound, an `int` counter
incremented past `INT_MAX`, and an access through a pointer to a released
array. -/
inductive Fault where
  | length_error
  | out_of_range
  | out_of_bounds (index : Int)
  | bad_range
  | timeout
  | int_overflow
  | dangling (address : Nat)
  deriving DecidableEq, Repr

deriving instance DecidableEq for Except

/-- Modulus of `unsigned long` arithmetic. -/
def SIZE_MOD : Nat := 2 ^ 64

/-- Result of an `unsigned long` operation whose mathematical value is `n`. -/
def wrap (n : Nat) : Nat := n % SIZE_MOD

/-- Conversion of a signed value to `unsigned long`. -/
def to_size (z : Int) : Nat := (z % (SIZE_MOD : Int)).toNat

/-- The array `new T[n]`: `n` slots, each holding what `Element.fresh` stands
for (for a scalar `T`, an indeterminate value). -/
def new_array (T : Type) [Element T] (n : Nat) : List T :=
  (List.range n).map (Element.fresh n)

/-- Read of `a[i]` for an unsigned index. -/
def load {T : Type} (a : List T) (i : Nat) : Except Fault T :=
  match a[i]? with
  | some x => .ok x
  | none => .error (.out_of_bounds i)

/-- Write `a[i] = x` for an unsigned index. -/
def store {T : Type} (a : List T) (i : Nat) (x : T) : Except Fault (List T) :=
  if i < a.length then .ok (a.set i x) else .error (.out_of_bounds i)

/-- Read of `a[i]` for a signed index. -/
def loadI {T : Type} (a : List T) (i : Int) : Except Fault T :=
  if 0 ≤ i then load a i.toNat else .error (.out_of_bounds i)

/-- Write `a[i] = x` for a signed index. -/
def storeI {T : Type} (a : List T) (i : Int) (x : T) : Except Fault (List T) :=
  if 0 ≤ i then store a i.toNat x else .error (.out_of_bounds i)

/-- Library `std::swap(a[i], a[j])` on two slots of one array. -/
def swap_slots {T : Type} (a : List T) (i j : Int) : Except Fault (List T) := do
  let x ← loadI a i
  let y ← loadI a j
  let a1 ← storeI a i y
  storeI a1 j x

/-- Library `std::copy(first, last, d_first)`: `src` lists the elements of the
input range, they are written to `dst[d_first]`, `dst[d_first + 1]`, ... -/
def std_copy {T : Type} : List T → List T → Nat → Except Fault (List T)
  | [], dst, _ => .ok dst
  | x :: rest, dst, d_first => do
    let dst1 ← store dst d_first x
    std_copy rest dst1 (d_first + 1)

/-- Library `std::fill(a + first, a + last, x)`. -/
def std_fill {T : Type} (a : List T) (first last : Nat) (x : T) : Except Fault (List T) :=
  if first ≤ last ∧ last ≤ a.length then
    .ok (a.take first ++ List.replicate (last - first) x ++ a.drop last)
  else .error (.out_of_bounds last)

/-! ## MyForwardIterator -/

/-- The iterator: a raw pointer to a slot. -/
structure MyForwardIterator where
  m_ptr : Int
  deriving DecidableEq, Repr

namespace MyForwardIterator

/-- Member `operator++()`: returns the moved handle (and leaves `this` moved). -/
def pre_inc (it : MyForwardIterator) : MyForwardIterator × MyForwardIterator :=
  let moved : MyForwardIterator := ⟨it.m_ptr + 1⟩
  (moved, moved)

/-- Member `operator++(int)`: the first component is the returned copy, the
second the handle after the call. -/
def post_inc (it : MyForwardIterator) : MyForwardIterator × MyForwardIterator :=
  let retval := it
  (retval, ⟨it.m_ptr + 1⟩)

/-- Member `operator--()`. -/
def pre_dec (it : MyForwardIterator) : MyForwardIterator × MyForwardIterator :=
  let moved : MyForwardIterator := ⟨it.m_ptr - 1⟩
  (moved, moved)

/-- Member `operator--(int)`. -/
def post_dec (it : MyForwardIterator) : MyForwardIterator × MyForwardIterator :=
  let retval := it
  (retval, ⟨it.m_ptr - 1⟩)

/-- Member `operator-(self_type it)`: `m_ptr - it.m_ptr`, as the difference of
the two slot offsets.  It is the value the source computes when both handles
point into (or one past the end of) the same array; `diff_in` carries that
condition. -/
def diff (self it : MyForwardIterator) : Int := self.m_ptr - it.m_ptr

/-- Friend `operator+(difference_type n, self_type it)`, as a sum of offsets; see
`add` for its range. -/
def add_left (n : Int) (it : MyForwardIterator) : MyForwardIterator := ⟨n + it.m_ptr⟩

/-- Friend `operator+(self_type it, difference_type n)`, as a sum of offsets.  It
is the handle the source computes when `it.m_ptr + n` stays inside the array
(one past the end included), which is how the container members use it;
`add_in` carries that condition and faults outside it. -/
def add (it : MyForwardIterator) (n : Int) : MyForwardIterator := ⟨it.m_ptr + n⟩

/-- Friend `operator-(self_type it, difference_type n)`, as a difference of
offsets; see `add` for its range. -/
def sub (it : MyForwardIterator) (n : Int) : MyForwardIterator := ⟨it.m_ptr - n⟩

/-- Member `operator==`. -/
def eq (self other : MyForwardIterator) : Bool := decide (self.m_ptr = other.m_ptr)

/-- Member `operator!=`. -/
def ne (self other : MyForwardIterator) : Bool := !(decide (self.m_ptr = other.m_ptr))

/-- Friend `operator+(self_type it, difference_type n)` on a handle into an array
of `len` elements: `it.m_ptr + n` is pointer arithmetic on `T*`, defined only
when the result is one of the offsets `0 … len` of that array (`len` is one
past the last element). -/
def add_in (len : Nat) (it : MyForwardIterator) (n : Int) : Except Fault MyForwardIterator :=
  if 0 ≤ it.m_ptr + n ∧ it.m_ptr + n ≤ len then .ok ⟨it.m_ptr + n⟩
  else .error (.out_of_bounds (it.m_ptr + n))

/-- Friend `operator+(difference_type n, self_type it)` on a handle into an array
of `len` elements. -/
def add_left_in (len : Nat) (n : Int) (it : MyForwardIterator) :
    Except Fault MyForwardIterator :=
  if 0 ≤ n + it.m_ptr ∧ n + it.m_ptr ≤ len then .ok ⟨n + it.m_ptr⟩
  else .error (.out_of_bounds (n + it.m_ptr))

/-- Friend `operator-(self_type it, difference_type n)` on a handle into an array
of `len` elements. -/
def sub_in (len : Nat) (it : MyForwardIterator) (n : Int) : Except Fault MyForwardIterator :=
  if 0 ≤ it.m_ptr - n ∧ it.m_ptr - n ≤ len then .ok ⟨it.m_ptr - n⟩
  else .error (.out_of_bounds (it.m_ptr - n))

/-- Member `operator-(self_type it)` on two handles into one array of `len`
elements: the pointer difference is defined only between offsets `0 … len` of
the same array. -/
def diff_in (len : Nat) (self it : MyForwardIterator) : Except Fault Int :=
  if ¬ (0 ≤ self.m_ptr ∧ self.m_ptr ≤ len) then .error (.out_of_bounds self.m_ptr)
  else if ¬ (0 ≤ it.m_ptr ∧ it.m_ptr ≤ len) then .error (.out_of_bounds it.m_ptr)
  else .ok (self.m_ptr - it.m_ptr)

/-- The sum `n + m` of two `difference_type` (`std::ptrdiff_t`, 64-bit signed)
values, as a caller computes it for `it + (n + m)`. -/
def ptrdiff_add (n m : Int) : Except Fault Int :=
  if -(2 ^ 63) ≤ n + m ∧ n + m < 2 ^ 63 then .ok (n + m) else .error .int_overflow

end MyForwardIterator

/-- Library `std::distance(first, last)` for a bidirectional iterator: the
number of increments that take `first` to `last`. -/
def std_distance (first last : MyForwardIterator) : Except Fault Int :=
  if first.m_ptr ≤ last.m_ptr then .ok (last.m_ptr - first.m_ptr) else .error .bad_range

/-! ## vector -/

/-- The three data members of `sc::vector<T>`. -/
structure vector (T : Type) where
  m_end : Nat
  m_capacity : Nat
  m_storage : List T
  deriving DecidableEq, Repr

namespace vector

variable {T : Type}

/-- Constructor `vector(size_type new_cap = 0)`. -/
def mk_sized [Element T] (new_cap : Nat) : Except Fault (vector T) := do
  let m_capacity := new_cap
  let m_end := new_cap
  let m_storage := new_array T m_capacity
  let filled ← std_fill m_storage 0 m_capacity Element.init
  pure { m_end := m_end, m_capacity := m_capacity, m_storage := filled }

/-- Constructor `vector(const std::initializer_list<T>&)`. -/
def mk_ilist [Element T] (il : List T) : Except Fault (vector T) := do
  let m_capacity := il.length
  let m_end := il.length
  let m_storage := new_array T m_capacity
  let copied ← std_copy il m_storage 0
  pure { m_end := m_end, m_capacity := m_capacity, m_storage := copied }

/-- Member `begin()`. -/
def begin (_v : vector T) : MyForwardIterator := ⟨0⟩

/-- Member `end()`. -/
def «end» (v : vector T) : MyForwardIterator := ⟨v.m_end⟩

/-- Member `size()`. -/
def size (v : vector T) : Nat := v.m_end

/-- Member `capacity()`. -/
def capacity (v : vector T) : Nat := v.m_capacity

/-- Member `empty()`. -/
def empty (v : vector T) : Bool := decide (v.m_end = 0)

/-- Private member `full()`. -/
def full (v : vector T) : Bool := decide (v.m_end = v.m_capacity)

/-- Elements of the range `[begin(), end())`, read in order. -/
def read_live (v : vector T) : Except Fault (List T) :=
  if v.m_end ≤ v.m_storage.length then .ok (v.m_storage.take v.m_end)
  else .error (.out_of_bounds v.m_storage.length)

/-- Member `reserve(cap_)`. -/
def reserve [Element T] (v : vector T) (cap_ : Nat) : Except Fault (vector T) :=
  if cap_ > v.m_capacity then do
    let newVec := new_array T cap_
    let src ← v.read_live
    let newVec1 ← std_copy src newVec 0
    pure { v with m_storage := newVec1, m_capacity := cap_ }
  else pure v

/-- Member `push_back(value)` for an argument that refers to an object outside
this vector's array: `value` is that object.  The member takes a
`const_reference` and reads it after `reserve`; the call with any reference,
also one to an element of the vector itself, is `vector_obj.push_back`. -/
def push_back [Element T] (v : vector T) (value : T) : Except Fault (vector T) := do
  let v1 ←
    if v.full then
      let new_capacity := v.m_capacity
      let new_capacity := if v.m_capacity = 0 then wrap (new_capacity + 1) else wrap (new_capacity * 2)
      v.reserve new_capacity
    else pure v
  let a ← store v1.m_storage v1.m_end value
  pure { v1 with m_storage := a, m_end := wrap (v1.m_end + 1) }

/-- The backward shift loop of the `insert` overloads:
`while (old_element >= position) { m_storage[new_element] = m_storage[old_element];
if (old_element != 0) { new_element--; old_element--; } else break; }`
with `old_element`, `new_element` of type `unsigned long` and `position`
already converted to `unsigned long` for the comparison. -/
def shift_loop (position : Nat) : Nat → Nat → List T → Except Fault (List T)
  | 0, new_element, a =>
    if 0 ≥ position then do
      let x ← load a 0
      let a1 ← store a new_element x
      pure a1
    else pure a
  | old_element + 1, new_element, a =>
    if old_element + 1 ≥ position then do
      let x ← load a (old_element + 1)
      let a1 ← store a new_element x
      shift_loop position old_element (to_size ((new_element : Int) - 1)) a1
    else pure a

/-- The loop of `shift_loop` together with a record of the executions of its
body: one pair `(new_element, old_element)` for each time the assignment
`m_storage[new_element] = m_storage[old_element]` is reached, in order, the
last one being the assignment that left the array if one did.  The second
component is the outcome of `shift_loop`. -/
def shift_loop_steps (position : Nat) :
    Nat → Nat → List T → List (Nat × Nat) × Except Fault (List T)
  | 0, new_element, a =>
    if 0 ≥ position then
      ([(new_element, 0)], do
        let x ← load a 0
        let a1 ← store a new_element x
        pure a1)
    else ([], pure a)
  | old_element + 1, new_element, a =>
    if old_element + 1 ≥ position then
      match (do
        let x ← load a (old_element + 1)
        let a1 ← store a new_element x
        pure a1 : Except Fault (List T)) with
      | .ok a1 =>
        let rest := shift_loop_steps position old_element (to_size ((new_element : Int) - 1)) a1
        ((new_element, old_element + 1) :: rest.1, rest.2)
      | .error e => ([(new_element, old_element + 1)], .error e)
    else ([], pure a)

/-- Member `insert(iterator pos_, const_reference value_)` for an argument that
refers to an object outside this vector's array: `value_` is that object.  The
overload taking a `const_iterator` has the same body.  The member reads the
reference after the shift loop; the call with any reference, also one to an
element of the vector itself, is `vector_obj.insert`. -/
def insert [Element T] (v : vector T) (pos_ : MyForwardIterator) (value_ : T) :
    Except Fault (vector T × MyForwardIterator) := do
  let position : Int := pos_.diff v.begin
  let v1 ←
    if v.full then
      let new_capacity := v.m_capacity
      let new_capacity := if v.m_capacity = 0 then wrap (new_capacity + 1) else wrap (new_capacity * 2)
      v.reserve new_capacity
    else pure v
  let old_m_end := v1.m_end
  let m_end := wrap (v1.m_end + 1)
  let old_element := to_size ((old_m_end : Int) - 1)
  let new_element := to_size ((m_end : Int) - 1)
  let a ← shift_loop (to_size position) old_element new_element v1.m_storage
  let a1 ← storeI a position value_
  let v2 : vector T := { m_end := m_end, m_capacity := v1.m_capacity, m_storage := a1 }
  pure (v2, v2.begin.add position)

/-- The write loop of `insert(pos_, first_, last_)`:
`for (auto i{position}; i < (position + size_range); i++) { m_storage[i] = *first_; first_++; }`
with signed `i`; `stop` is `position + size_range` and the list holds the
elements from `first_` on. -/
def write_range (stop : Int) : Int → List T → List T → Except Fault (List T)
  | i, [], a => if i < stop then .error .bad_range else .ok a
  | i, x :: rest, a =>
    if i < stop then do
      let a1 ← storeI a i x
      write_range stop (i + 1) rest a1
    else .ok a

/-- The write loop of `insert(pos_, ilist_)`: as `write_range`, but the bound
`position + size_list` is `unsigned long` and `i` is converted for the test. -/
def write_ilist (stop : Nat) : Int → List T → List T → Except Fault (List T)
  | i, [], a => if to_size i < stop then .error .bad_range else .ok a
  | i, x :: rest, a =>
    if to_size i < stop then do
      let a1 ← storeI a i x
      write_ilist stop (i + 1) rest a1
    else .ok a

/-- Member `insert(iterator pos_, InputItr first_, InputItr last_)`; `block` lists
the elements of `[first_, last_)`, so `last_ - first_` is its length.  The
overload taking a `const_iterator` has the same body. -/
def insert_range [Element T] (v : vector T) (pos_ : MyForwardIterator) (block : List T) :
    Except Fault (vector T × MyForwardIterator) := do
  let size_range : Int := block.length
  let position : Int := pos_.diff v.begin
  let v1 ←
    if to_size ((v.capacity : Int) + size_range) > v.m_capacity then
      let new_capacity := to_size ((v.m_capacity : Int) + size_range)
      let new_capacity := wrap (new_capacity * 2)
      v.reserve new_capacity
    else pure v
  let old_m_end := v1.m_end
  let m_end := to_size ((v1.m_end : Int) + size_range)
  let old_element := to_size ((old_m_end : Int) - 1)
  let new_element := to_size ((m_end : Int) - 1)
  let a ← shift_loop (to_size position) old_element new_element v1.m_storage
  let a1 ← write_range (position + size_range) position block a
  let v2 : vector T := { m_end := m_end, m_capacity := v1.m_capacity, m_storage := a1 }
  pure (v2, v2.begin.add position)

/-- Member `insert(iterator pos_, const std::initializer_list<value_type>& ilist_)`;
the overload taking a `const_iterator` has the same body. -/
def insert_ilist [Element T] (v : vector T) (pos_ : MyForwardIterator) (ilist_ : List T) :
    Except Fault (vector T × MyForwardIterator) := do
  let size_list : Nat := ilist_.length
  let position : Int := pos_.diff v.begin
  let v1 ←
    if wrap (v.capacity + size_list) > v.m_capacity then
      let new_capacity := wrap (v.m_capacity + size_list)
      let new_capacity := wrap (new_capacity * 2)
      v.reserve new_capacity
    else pure v
  let old_m_end := v1.m_end
  let m_end := wrap (v1.m_end + size_list)
  let old_element := to_size ((old_m_end : Int) - 1)
  let new_element := to_size ((m_end : Int) - 1)
  let a ← shift_loop (to_size position) old_element new_element v1.m_storage
  let a1 ← write_ilist (wrap (to_size position + size_list)) position ilist_ a
  let v2 : vector T := { m_end := m_end, m_capacity := v1.m_capacity, m_storage := a1 }
  pure (v2, v2.begin.add position)

/-- The loop of `erase(first, last)`:
`while (old_pos != end()) { std::swap(*new_pos, *old_pos); old_pos++; new_pos++; }`.
The first argument bounds the number of iterations. -/
def erase_range_loop (stop : MyForwardIterator) :
    Nat → MyForwardIterator → MyForwardIterator → List T → Except Fault (List T)
  | fuel, old_pos, new_pos, a =>
    if old_pos.ne stop then
      match fuel with
      | 0 => .error .timeout
      | fuel + 1 => do
        let a1 ← swap_slots a new_pos.m_ptr old_pos.m_ptr
        erase_range_loop stop fuel old_pos.post_inc.2 new_pos.post_inc.2 a1
    else .ok a

/-- Member `erase(iterator first, iterator last)`; the overload taking
`const_iterator`s has the same body.  Every iteration of its loop dereferences
`old_pos` and moves it one slot up, so the loop is over (with a result or a
fault) within `m_storage.length + 1` iterations (`erase_range_no_timeout`). -/
def erase_range (v : vector T) (first last : MyForwardIterator) :
    Except Fault (vector T × MyForwardIterator) := do
  let old_pos := last
  let new_pos := first
  let a ← erase_range_loop v.«end» (v.m_storage.length + 1) old_pos new_pos v.m_storage
  let d ← std_distance first last
  pure ({ v with m_storage := a, m_end := to_size ((v.m_end : Int) - d) }, first)

/-- The loop of `erase(pos)`:
`while (i != end()-1) { std::swap(*i, *(i+1)); i++; }`.
The first argument bounds the number of iterations. -/
def erase_loop (stop : MyForwardIterator) :
    Nat → MyForwardIterator → List T → Except Fault (List T)
  | fuel, i, a =>
    if i.ne stop then
      match fuel with
      | 0 => .error .timeout
      | fuel + 1 => do
        let a1 ← swap_slots a i.m_ptr (i.add 1).m_ptr
        erase_loop stop fuel i.post_inc.2 a1
    else .ok a

/-- Member `erase(iterator pos)`; the overload taking a `const_iterator` has the
same body.  Every iteration of its loop dereferences `i + 1` and moves `i` one
slot up, so the loop is over within `m_storage.length + 1` iterations
(`erase_no_timeout`). -/
def erase (v : vector T) (pos : MyForwardIterator) :
    Except Fault (vector T × MyForwardIterator) := do
  let i := pos
  let a ← erase_loop (v.«end».sub 1) (v.m_storage.length + 1) i v.m_storage
  pure ({ v with m_storage := a, m_end := to_size ((v.m_end : Int) - 1) }, pos)

/-- Iteration loop of `driver_vector.cpp`:
`auto it = A.begin(); while (it != A.end()) { std::cout << *it << " "; it++; }`;
the result lists the values printed.  The first argument bounds the number
of iterations. -/
def iterate (v : vector T) : Nat → MyForwardIterator → Except Fault (List T)
  | fuel, it =>
    if it.ne v.«end» then
      match fuel with
      | 0 => .error .timeout
      | fuel + 1 => do
        let x ← loadI v.m_storage it.m_ptr
        let rest ← iterate v fuel it.post_inc.2
        pure (x :: rest)
    else .ok []

/-- Member `clear()`. -/
def clear (v : vector T) : vector T := { v with m_end := 0 }

/-- Member `pop_back()`.  The first component is the vector after the call, also
when the call throws. -/
def pop_back (v : vector T) : vector T × Except Fault Unit :=
  if v.empty then (v, .error .length_error)
  else ({ v with m_end := to_size ((v.m_end : Int) - 1) }, .ok ())

/-- Members `at(pos)`; the `const` and the non-`const` overload have the same
body.  `pos` is `unsigned long`, so `pos < 0` is a comparison of naturals. -/
def «at» (v : vector T) (pos : Nat) : vector T × Except Fault T :=
  if pos < 0 ∨ pos ≥ v.m_end then (v, .error .out_of_range)
  else (v, load v.m_storage pos)

/-- Member `back() const`. -/
def back_const (v : vector T) : vector T × Except Fault T :=
  if v.empty then (v, .error .length_error)
  else (v, load v.m_storage (to_size ((v.m_end : Int) - 1)))

/-- Member `front() const`. -/
def front_const (v : vector T) : vector T × Except Fault T :=
  if v.empty then (v, .error .length_error)
  else (v, load v.m_storage 0)

/-- Member `back()` (non-`const`): `return m_storage[m_end - 1];`. -/
def back (v : vector T) : vector T × Except Fault T :=
  (v, load v.m_storage (to_size ((v.m_end : Int) - 1)))

/-- Member `front()` (non-`const`): `return m_storage[0];`. -/
def front (v : vector T) : vector T × Except Fault T :=
  (v, load v.m_storage 0)

/-- Member `operator[](pos)` used to read. -/
def index (v : vector T) (pos : Nat) : Except Fault T := load v.m_storage pos

/-- Member `operator[](pos)` used to write: `v[pos] = x`. -/
def index_set (v : vector T) (pos : Nat) (x : T) : Except Fault (vector T) := do
  let a ← store v.m_storage pos x
  pure { v with m_storage := a }

/-- Member `shrink_to_fit()`. -/
def shrink_to_fit [Element T] (v : vector T) : Except Fault (vector T) :=
  if v.m_end < v.m_capacity then do
    let newVec := new_array T v.m_end
    let src ← v.read_live
    let newVec1 ← std_copy src newVec 0
    pure { v with m_storage := newVec1, m_capacity := v.m_end }
  else pure v

/-- Member `assign(size_type count_, const_reference value_)` for an argument
that refers to an object outside this vector's array: `value_` is that object.
The member reads the reference in `std::fill`, after `delete[] m_storage`; the
call with any reference is `vector_obj.assign_fill`. -/
def assign_fill [Element T] (v : vector T) (count_ : Nat) (value_ : T) :
    Except Fault (vector T) := do
  let v1 : vector T :=
    if v.m_capacity < count_ then
      { v with m_storage := new_array T count_, m_capacity := count_ }
    else v
  let v2 : vector T := { v1 with m_end := count_ }
  let a ← std_fill v2.m_storage 0 v2.m_end value_
  pure { v2 with m_storage := a }

/-- Member `assign(const std::initializer_list<T>& il)`. -/
def assign_ilist [Element T] (v : vector T) (il : List T) : Except Fault (vector T) := do
  let v1 : vector T :=
    if v.m_capacity < il.length then
      { v with m_storage := new_array T il.length, m_capacity := il.length }
    else v
  let a ← std_copy il v1.m_storage 0
  pure { v1 with m_storage := a, m_end := il.length }

/-- Member `assign(InputItr first, InputItr last)`; `block` lists the elements of
`[first, last)`, so `last - first` is its length. -/
def assign_range [Element T] (v : vector T) (block : List T) : Except Fault (vector T) := do
  let sz : Nat := to_size (block.length : Int)
  let v1 : vector T :=
    if v.m_capacity < sz then
      { v with m_storage := new_array T sz, m_capacity := sz }
    else v
  let a ← std_copy block v1.m_storage 0
  pure { v1 with m_storage := a, m_end := sz }

/-- Constructor `vector(InputItr first, InputItr last)`; `block` lists the elements
of `[first, last)`. -/
def mk_range [Element T] (block : List T) : Except Fault (vector T) := do
  let sz : Nat := to_size (block.length : Int)
  let m_capacity := sz
  let m_end := sz
  let m_storage := new_array T m_capacity
  let copied ← std_copy block m_storage 0
  pure { m_end := m_end, m_capacity := m_capacity, m_storage := copied }

/-- Copy constructor `vector(const vector& other)`. -/
def mk_copy [Element T] (other : vector T) : Except Fault (vector T) := do
  let m_capacity := other.m_capacity
  let m_end := other.m_end
  let m_storage := new_array T m_capacity
  let src ← other.read_live
  let copied ← std_copy src m_storage 0
  pure { m_end := m_end, m_capacity := m_capacity, m_storage := copied }

/-- Member `operator=(const vector& other)`.  `this_is_other` is the outcome of
the test `this == &other`; when it is `true`, `other` is the object itself. -/
def copy_assign [Element T] (self other : vector T) (this_is_other : Bool) :
    Except Fault (vector T) := do
  let m_storage ←
    if !this_is_other then do
      let m_storage := if self.m_capacity < other.m_end then new_array T other.m_end
        else self.m_storage
      let src ← other.read_live
      std_copy src m_storage 0
    else pure self.m_storage
  pure { m_end := other.m_end, m_capacity := other.m_end, m_storage := m_storage }

/-- Member `operator=(std::initializer_list<T> il)`. -/
def ilist_assign [Element T] (self : vector T) (il : List T) : Except Fault (vector T) := do
  let m_storage := if self.m_capacity < il.length then new_array T il.length
    else self.m_storage
  let a ← std_copy il m_storage 0
  pure { m_end := il.length, m_capacity := il.length, m_storage := a }

/-- Largest value of `int`. -/
def INT_MAX : Int := 2 ^ 31 - 1

/-- The loop of `operator==`:
`for (int i{0}; i < lhs.size(); i++) if (lhs[i] != rhs[i]) return false;`
followed by `return true;`.  `i` is converted to `unsigned long` for the test
and for `operator[]`.  The first argument bounds the number of iterations. -/
def op_eq_loop [DecidableEq T] (lhs rhs : vector T) : Nat → Int → Except Fault Bool
  | fuel, i =>
    if to_size i < lhs.size then
      match fuel with
      | 0 => .error .timeout
      | fuel + 1 => do
        let x ← lhs.index (to_size i)
        let y ← rhs.index (to_size i)
        if x ≠ y then pure false
        else if i = INT_MAX then .error .int_overflow
        else op_eq_loop lhs rhs fuel (i + 1)
    else pure true

/-- Function `operator==(lhs, rhs)`; the element type's `!=` is taken to be the
negation of equality.  The loop counts `i` up from `0` one step per iteration
and stops at `lhs.size()`, so `lhs.size()` iterations are enough
(`op_eq_no_timeout`). -/
def op_eq [DecidableEq T] (lhs rhs : vector T) : Except Fault Bool :=
  if lhs.size ≠ rhs.size then pure false
  else op_eq_loop lhs rhs lhs.size 0

/-- Function `operator!=(lhs, rhs)`. -/
def op_ne [DecidableEq T] (lhs rhs : vector T) : Except Fault Bool := do
  let e ← op_eq lhs rhs
  if !e then pure true else pure false

/-- Elements at the indices `[0, size())`. -/
def live (v : vector T) : List T := v.m_storage.take v.m_end

/-- States a running program can hold: `m_storage` is an array of at least
`m_capacity` slots (exactly `m_capacity` except after a copy assignment that
kept a larger array), `m_end` does not exceed `m_capacity`, and `m_capacity` is
a value of `unsigned long`. -/
def wf (v : vector T) : Prop :=
  v.m_capacity ≤ v.m_storage.length ∧ v.m_end ≤ v.m_capacity ∧ v.m_capacity < 2 ^ 64

instance (v : vector T) : Decidable v.wf := by
  unfold wf; infer_instance

/-- States of a vector reached from a constructor by calls of its members that
return.  Counts and capacities are representable in `unsigned long`; positions
are inside the live range (`p ≤ size` on a non-empty vector for the `insert`
forms, `p < size` for `erase` and `operator[]`, `f ≤ l ≤ size` for the range
`erase`). -/
inductive reachable [Element T] : vector T → Prop
  | of_sized (n : Nat) (w : vector T) : n < 2 ^ 64 → mk_sized n = .ok w → reachable w
  | of_range (block : List T) (w : vector T) : block.length < 2 ^ 64 →
      mk_range block = .ok w → reachable w
  | of_copy (s w : vector T) : reachable s → mk_copy s = .ok w → reachable w
  | of_ilist (il : List T) (w : vector T) : il.length < 2 ^ 64 →
      mk_ilist il = .ok w → reachable w
  | by_push_back (v w : vector T) (x : T) : reachable v → v.size < 2 ^ 63 →
      v.push_back x = .ok w → reachable w
  | by_pop_back (v : vector T) : reachable v → reachable v.pop_back.1
  | by_insert (v w : vector T) (p : Nat) (x : T) (it : MyForwardIterator) : reachable v →
      1 ≤ v.size → p ≤ v.size → v.size < 2 ^ 63 →
      v.insert ⟨(p : Int)⟩ x = .ok (w, it) → reachable w
  | by_insert_range (v w : vector T) (p : Nat) (block : List T) (it : MyForwardIterator) :
      reachable v → 1 ≤ v.size → p ≤ v.size → 2 * (v.capacity + block.length) < 2 ^ 64 →
      v.insert_range ⟨(p : Int)⟩ block = .ok (w, it) → reachable w
  | by_insert_ilist (v w : vector T) (p : Nat) (il : List T) (it : MyForwardIterator) :
      reachable v → 1 ≤ v.size → p ≤ v.size → 2 * (v.capacity + il.length) < 2 ^ 64 →
      v.insert_ilist ⟨(p : Int)⟩ il = .ok (w, it) → reachable w
  | by_erase (v w : vector T) (p : Nat) (it : MyForwardIterator) : reachable v → p < v.size →
      v.erase ⟨(p : Int)⟩ = .ok (w, it) → reachable w
  | by_erase_range (v w : vector T) (f l : Nat) (it : MyForwardIterator) : reachable v →
      f ≤ l → l ≤ v.size → v.erase_range ⟨(f : Int)⟩ ⟨(l : Int)⟩ = .ok (w, it) → reachable w
  | by_clear (v : vector T) : reachable v → reachable v.clear
  | by_reserve (v w : vector T) (n : Nat) : reachable v → n < 2 ^ 64 →
      v.reserve n = .ok w → reachable w
  | by_shrink_to_fit (v w : vector T) : reachable v → v.shrink_to_fit = .ok w → reachable w
  | by_assign_fill (v w : vector T) (n : Nat) (x : T) : reachable v → n < 2 ^ 64 →
      v.assign_fill n x = .ok w → reachable w
  | by_assign_ilist (v w : vector T) (il : List T) : reachable v → il.length < 2 ^ 64 →
      v.assign_ilist il = .ok w → reachable w
  | by_assign_range (v w : vector T) (block : List T) : reachable v →
      block.length < 2 ^ 64 → v.assign_range block = .ok w → reachable w
  | by_copy_assign (v s w : vector T) : reachable v → reachable s →
      copy_assign v s false = .ok w → reachable w
  | by_self_assign (v w : vector T) : reachable v → copy_assign v v true = .ok w → reachable w
  | by_ilist_assign (v w : vector T) (il : List T) : reachable v → il.length < 2 ^ 64 →
      ilist_assign v il = .ok w → reachable w
  | by_index_set (v w : vector T) (pos : Nat) (x : T) : reachable v → pos < v.size →
      v.index_set pos x = .ok w → reachable w

end vector

/-! ## Vectors with their storage pointer -/

/-- The free store: the arrays handed out by `new T[n]`, by address; `none`
marks an array released by `delete[]`. -/
structure Store (T : Type) where
  arrays : List (Option (List T))
  deriving DecidableEq

/-- An argument of type `const T&` (`const_reference`): the object at index
`m_index` of the array at address `m_array`.  An element `v[i]` of a vector is
slot `i` of the vector's array; an object that is no element of a vector (a
local variable, a temporary) is the only slot of an array of its own. -/
structure const_reference where
  m_array : Nat
  m_index : Nat
  deriving DecidableEq, Repr

namespace Store

variable {T : Type}


/-- Expression `new T[n]`: the store with the new array, and its address. -/
def new_arr [Element T] (st : Store T) (n : Nat) : Store T × Nat :=
  (⟨st.arrays ++ [some (new_array T n)]⟩, st.arrays.length)

/-- Statement `delete[] p`. -/
def delete_arr (st : Store T) (p : Nat) : Store T := ⟨st.arrays.set p none⟩

/-- The array a pointer refers to. -/
def read (st : Store T) (p : Nat) : Except Fault (List T) :=
  match st.arrays[p]? with
  | some (some a) => .ok a
  | _ => .error (.dangling p)

/-- Replace the contents of the array at `p`. -/
def write (st : Store T) (p : Nat) (a : List T) : Store T := ⟨st.arrays.set p (some a)⟩

/-- Read through a reference; the array it points into may have been released. -/
def deref (st : Store T) (r : const_reference) : Except Fault T := do
  let a ← st.read r.m_array
  load a r.m_index

end Store

/-- A `sc::vector<T>` object as it lies in memory: `m_storage` is the address of
its array. -/
structure vector_obj where
  m_end : Nat
  m_capacity : Nat
  m_storage : Nat
  deriving DecidableEq, Repr

namespace vector_obj

variable {T : Type}

/-- The vector value an object denotes in a store. -/
def view (st : Store T) (o : vector_obj) : Except Fault (vector T) := do
  let a ← st.read o.m_storage
  pure { m_end := o.m_end, m_capacity := o.m_capacity, m_storage := a }

/-- Copy constructor `vector(const vector& other)`, with the store. -/
def mk_copy [Element T] (st : Store T) (other : vector_obj) :
    Except Fault (Store T × vector_obj) := do
  let m_capacity := other.m_capacity
  let m_end := other.m_end
  let (st1, m_storage) := st.new_arr m_capacity
  let o ← other.view st1
  let src ← o.read_live
  let dst ← st1.read m_storage
  let dst1 ← std_copy src dst 0
  pure (st1.write m_storage dst1,
    { m_end := m_end, m_capacity := m_capacity, m_storage := m_storage })

/-- Member `operator=(const vector& other)`, with the store.  `this_is_other`
is the outcome of the test `this == &other`. -/
def copy_assign [Element T] (st : Store T) (self other : vector_obj) (this_is_other : Bool) :
    Except Fault (Store T × vector_obj) := do
  let (st2, m_storage) ←
    if !this_is_other then do
      let (st1, m_storage) :=
        if self.m_capacity < other.m_end then
          (st.delete_arr self.m_storage).new_arr other.m_end
        else (st, self.m_storage)
      let o ← other.view st1
      let src ← o.read_live
      let dst ← st1.read m_storage
      let dst1 ← std_copy src dst 0
      pure (st1.write m_storage dst1, m_storage)
    else pure (st, self.m_storage)
  pure (st2, { m_end := other.m_end, m_capacity := other.m_end, m_storage := m_storage })

/-- Member `operator[](pos)` used to write, with the store: `v[pos] = x`. -/
def index_set (st : Store T) (v : vector_obj) (pos : Nat) (x : T) :
    Except Fault (Store T) := do
  let a ← st.read v.m_storage
  let a1 ← store a pos x
  pure (st.write v.m_storage a1)

/-- Member `reserve(cap_)`, with the store: the new array is allocated and
filled, then the old one is released by `delete[] m_storage`. -/
def reserve [Element T] (st : Store T) (self : vector_obj) (cap_ : Nat) :
    Except Fault (Store T × vector_obj) :=
  if cap_ > self.m_capacity then do
    let (st1, newVec) := st.new_arr cap_
    let o ← self.view st1
    let src ← o.read_live
    let dst ← st1.read newVec
    let dst1 ← std_copy src dst 0
    let st2 := (st1.write newVec dst1).delete_arr self.m_storage
    pure (st2, { self with m_storage := newVec, m_capacity := cap_ })
  else pure (st, self)

/-- Member `push_back(const_reference value)`, with the store: `value` is read
by the assignment `m_storage[m_end] = value`, after the call of `reserve`. -/
def push_back [Element T] (st : Store T) (self : vector_obj) (value : const_reference) :
    Except Fault (Store T × vector_obj) := do
  let (st1, v1) ←
    if self.m_end = self.m_capacity then
      let new_capacity := self.m_capacity
      let new_capacity :=
        if self.m_capacity = 0 then wrap (new_capacity + 1) else wrap (new_capacity * 2)
      reserve st self new_capacity
    else pure (st, self)
  let x ← st1.deref value
  let a ← st1.read v1.m_storage
  let a1 ← store a v1.m_end x
  pure (st1.write v1.m_storage a1, { v1 with m_end := wrap (v1.m_end + 1) })

/-- Member `insert(iterator pos_, const_reference value_)`, with the store:
`value_` is read by the assignment `m_storage[position] = value_`, after the
call of `reserve` and after the shift loop. -/
def insert [Element T] (st : Store T) (self : vector_obj) (pos_ : MyForwardIterator)
    (value_ : const_reference) : Except Fault (Store T × vector_obj × MyForwardIterator) := do
  let position : Int := pos_.diff ⟨0⟩
  let (st1, v1) ←
    if self.m_end = self.m_capacity then
      let new_capacity := self.m_capacity
      let new_capacity :=
        if self.m_capacity = 0 then wrap (new_capacity + 1) else wrap (new_capacity * 2)
      reserve st self new_capacity
    else pure (st, self)
  let old_m_end := v1.m_end
  let m_end := wrap (v1.m_end + 1)
  let old_element := to_size ((old_m_end : Int) - 1)
  let new_element := to_size ((m_end : Int) - 1)
  let a ← st1.read v1.m_storage
  let b ← vector.shift_loop (to_size position) old_element new_element a
  let st2 := st1.write v1.m_storage b
  let x ← st2.deref value_
  let a1 ← storeI b position x
  pure (st2.write v1.m_storage a1,
    { m_end := m_end, m_capacity := v1.m_capacity, m_storage := v1.m_storage },
    (⟨0⟩ : MyForwardIterator).add position)

/-- Library `std::fill(first, last, value)` on `n` slots of the array at `p`,
from slot `i` on: each step evaluates `*first = value`, reading `value` anew. -/
def fill_loop (p : Nat) (value : const_reference) : Nat → Nat → Store T → Except Fault (Store T)
  | 0, _, st => .ok st
  | n + 1, i, st => do
    let x ← st.deref value
    let a ← st.read p
    let a1 ← store a i x
    fill_loop p value n (i + 1) (st.write p a1)

/-- Member `assign(size_type count_, const_reference value_)`, with the store:
`value_` is read by `std::fill`, after `delete[] m_storage`. -/
def assign_fill [Element T] (st : Store T) (self : vector_obj) (count_ : Nat)
    (value_ : const_reference) : Except Fault (Store T × vector_obj) := do
  let (st1, v1) : Store T × vector_obj :=
    if self.m_capacity < count_ then
      let (s1, newVec) := st.new_arr count_
      (s1.delete_arr self.m_storage, { self with m_storage := newVec, m_capacity := count_ })
    else (st, self)
  let v2 : vector_obj := { v1 with m_end := count_ }
  let st2 ← fill_loop v2.m_storage value_ v2.m_end 0 st1
  pure (st2, v2)

end vector_obj

/-- Elements of type `int`: `int{}` is 0.  For the slots `new int[n]` leaves
indeterminate the examples write 0. -/
instance : Element Int := ⟨0, fun _ _ => 0⟩

/-! ## Arithmetic and array lemmas -/

variable {T : Type}

theorem wrap_of_lt {n : Nat} (h : n < 2 ^ 64) : wrap n = n := by
  unfold wrap SIZE_MOD; exact Nat.mod_eq_of_lt h

theorem to_size_of_lt {n : Nat} (h : n < 2 ^ 64) : to_size (n : Int) = n := by
  unfold to_size SIZE_MOD; omega

theorem to_size_pred {n : Nat} (h0 : 0 < n) (h : n ≤ 2 ^ 64) : to_size ((n : Int) - 1) = n - 1 := by
  unfold to_size SIZE_MOD; omega

theorem load_ok {a : List T} {i : Nat} (h : i < a.length) : load a i = .ok (a.get ⟨i, h⟩) := by
  simp [load, List.getElem?_eq_getElem h]

theorem store_ok {a : List T} {i : Nat} (x : T) (h : i < a.length) :
    store a i x = .ok (a.set i x) := by
  simp [store, h]

theorem loadI_natCast (a : List T) (i : Nat) : loadI a (i : Int) = load a i := by
  simp [loadI]

theorem storeI_natCast (a : List T) (i : Nat) (x : T) : storeI a (i : Int) x = store a i x := by
  simp [storeI]

theorem new_array_length [Element T] (n : Nat) : (new_array T n).length = n := by
  simp [new_array]

theorem std_copy_ok : ∀ (src dst : List T) (d : Nat), d + src.length ≤ dst.length →
    std_copy src dst d = .ok (dst.take d ++ src ++ dst.drop (d + src.length))
  | [], dst, d, _ => by simp [std_copy]
  | x :: rest, dst, d, h => by
    have hd : d < dst.length := by simp at h; omega
    have hlen : (d + 1) + rest.length ≤ (dst.set d x).length := by simp at h ⊢; omega
    simp only [std_copy, store_ok x hd, bind, Except.bind, std_copy_ok rest _ _ hlen]
    congr 1
    apply List.ext_getElem?
    intro i
    simp only [List.getElem?_append, List.getElem?_take, List.getElem?_drop, List.getElem?_set,
      List.length_take, List.length_set, List.length_append, List.length_cons, List.getElem?_cons]
    simp only [List.length_cons] at h
    split_ifs <;> first | rfl | omega | (congr 1; omega)

namespace vector

theorem live_length (v : vector T) (hwf : v.wf) : v.live.length = v.m_end := by
  unfold live; rw [List.length_take]; have := hwf.1; have := hwf.2.1; omega

theorem reserve_grow [Element T] (v : vector T) (cap_ : Nat) (hwf : v.wf)
    (h : v.m_capacity < cap_) :
    v.reserve cap_ = .ok ⟨v.m_end, cap_, v.live ++ (new_array T cap_).drop v.m_end⟩ := by
  have h1 := hwf.1
  have h2 := hwf.2.1
  have hl := live_length v hwf
  unfold live at hl
  have hc : 0 + (List.take v.m_end v.m_storage).length ≤ (new_array T cap_).length := by
    rw [new_array_length, hl]; omega
  have h3 : v.m_end ≤ v.m_storage.length := by omega
  simp only [reserve, gt_iff_lt, h, if_true, read_live, h3, bind, Except.bind,
    std_copy_ok _ _ 0 hc, pure, Except.pure, live, hl]
  simp

theorem reserve_noop [Element T] (v : vector T) (cap_ : Nat) (h : cap_ ≤ v.m_capacity) :
    v.reserve cap_ = .ok v := by
  have : ¬ cap_ > v.m_capacity := by omega
  simp [reserve, this, pure, Except.pure]

/-- Growth step shared by `push_back` and the single-element `insert`. -/
theorem grow_wf [Element T] (v : vector T) (c : Nat) (hwf : v.wf) (h : v.m_capacity < c)
    (hc : c < 2 ^ 64) :
    (⟨v.m_end, c, v.live ++ (new_array T c).drop v.m_end⟩ : vector T).wf := by
  have h1 := hwf.1
  have h2 := hwf.2.1
  have hl := live_length v hwf
  refine ⟨?_, ?_, hc⟩
  · simp only [List.length_append, List.length_drop, new_array_length, hl]; omega
  · show v.m_end ≤ c; omega

/-- Capacity chosen by the growth policy of `push_back` and `insert`. -/
theorem grow_capacity (c : Nat) (hcap : c < 2 ^ 63) :
    (if c = 0 then wrap (c + 1) else wrap (c * 2)) = max 1 (2 * c) := by
  split_ifs with h0
  · rw [wrap_of_lt (by omega)]; omega
  · rw [wrap_of_lt (by omega)]; omega

theorem live_set_end (a : List T) (n : Nat) (x : T) (h : n < a.length) :
    (a.set n x).take (n + 1) = a.take n ++ [x] := by
  apply List.ext_getElem?
  intro i
  simp only [List.getElem?_append, List.getElem?_take, List.getElem?_set,
    List.length_take, List.getElem?_cons]
  split_ifs <;> first | rfl | omega

theorem push_back_result [Element T] (v : vector T) (x : T) (hwf : v.wf)
    (hsz : v.m_end < 2 ^ 63) :
    ∃ w : vector T, v.push_back x = .ok w ∧ w.wf ∧ w.m_end = v.m_end + 1 ∧
      w.live = v.live ++ [x] ∧
      (v.m_end < v.m_capacity → w.m_capacity = v.m_capacity) ∧
      (v.m_end = v.m_capacity → w.m_capacity = max 1 (2 * v.m_capacity)) := by
  have h1 := hwf.1
  have h2 := hwf.2.1
  have hl := live_length v hwf
  have hw : wrap (v.m_end + 1) = v.m_end + 1 := wrap_of_lt (by omega)
  by_cases hfull : v.m_end = v.m_capacity
  · -- the buffer is full: reserve the doubled capacity
    have hc2 := grow_capacity v.m_capacity (by omega)
    have hc : v.m_capacity < max 1 (2 * v.m_capacity) := by omega
    have hst : v.m_end < (v.live ++ (new_array T (max 1 (2 * v.m_capacity))).drop v.m_end).length := by
      simp only [List.length_append, List.length_drop, new_array_length, hl]; omega
    refine ⟨⟨v.m_end + 1, max 1 (2 * v.m_capacity),
      (v.live ++ (new_array T (max 1 (2 * v.m_capacity))).drop v.m_end).set v.m_end x⟩,
      ?_, ?_, ?_, ?_, ?_, ?_⟩
    · have hf : v.full = true := by simp [full, hfull]
      simp only [push_back, hf, if_true, hc2, reserve_grow v _ hwf hc,
        bind, Except.bind, store_ok x hst, pure, Except.pure, hw]
    · refine ⟨?_, ?_, ?_⟩
      · simp only [List.length_set, List.length_append, List.length_drop, new_array_length, hl]
        omega
      · show v.m_end + 1 ≤ max 1 (2 * v.m_capacity); omega
      · show max 1 (2 * v.m_capacity) < 2 ^ 64; omega
    · rfl
    · show List.take (v.m_end + 1) _ = _
      rw [live_set_end _ _ _ hst, List.take_append_of_le_length (by omega), List.take_of_length_le (by omega)]
    · intro h; exact absurd hfull (Nat.ne_of_lt h)
    · intro _; rfl
  · have hlt : v.m_end < v.m_storage.length := by omega
    refine ⟨⟨v.m_end + 1, v.m_capacity, v.m_storage.set v.m_end x⟩, ?_, ?_, ?_, ?_, ?_, ?_⟩
    · have hf : v.full = false := by simp [full, hfull]
      simp only [push_back, hf, bind, Except.bind, pure, Except.pure, store_ok x hlt, hw]
      simp
    · refine ⟨?_, ?_, hwf.2.2⟩
      · simp only [List.length_set]; exact h1
      · show v.m_end + 1 ≤ v.m_capacity; omega
    · rfl
    · exact live_set_end _ _ _ hlt
    · intro _; rfl
    · intro h; exact absurd h hfull

theorem mk_sized_ok [Element T] (n : Nat) :
    (mk_sized n : Except Fault (vector T)) = .ok ⟨n, n, List.replicate n Element.init⟩ := by
  have h : 0 ≤ n ∧ n ≤ (new_array T n).length := by rw [new_array_length]; omega
  simp only [mk_sized, std_fill, h, and_self, if_true, bind, Except.bind, pure, Except.pure]
  congr 2
  rw [List.drop_of_length_le (by rw [new_array_length])]
  simp

end vector
end sc

/-! ## Claims -/

namespace sc
namespace vector
variable {T : Type}

/-- For an `x` that is no element of the vector itself (the argument of the
by-value `push_back`), on a vector holding fewer than `2 ^ 63` elements:
`push_back(x)` returns normally; the size grows by one, the old live elements
keep their places and `x` sits at index old size; the capacity is unchanged
when old size < old capacity and is `max(1, 2 * old capacity)` when old size =
old capacity. -/
theorem push_back_value [Element T] (v : vector T) (x : T) (hwf : v.wf) (hsz : v.size < 2 ^ 63) :
    ∃ w : vector T, v.push_back x = .ok w ∧ w.size = v.size + 1 ∧
      w.live = v.live ++ [x] ∧
      (∀ i, i < v.size → w.m_storage[i]? = v.m_storage[i]?) ∧
      w.m_storage[v.size]? = some x ∧
      (v.size < v.capacity → w.capacity = v.capacity) ∧
      (v.size = v.capacity → w.capacity = max 1 (2 * v.capacity)) := by
  obtain ⟨w, hw, hwf1, he, hl, hc1, hc2⟩ := push_back_result v x hwf hsz
  have hlen := live_length v hwf
  have hget : ∀ i, i < w.m_end → w.m_storage[i]? = (v.live ++ [x])[i]? := by
    intro i hi
    rw [← hl]; unfold live; rw [List.getElem?_take, if_pos hi]
  refine ⟨w, hw, he, hl, ?_, ?_, hc1, hc2⟩
  · intro i hi
    have hi1 : i < v.m_end := hi
    rw [hget i (by omega), List.getElem?_append_left (by omega)]
    unfold live; rw [List.getElem?_take, if_pos hi1]
  · show w.m_storage[v.m_end]? = some x
    rw [hget _ (by omega), List.getElem?_append_right (by omega), hlen]
    simp

/-- C4: `vector(n)` returns a vector of capacity `n` and size `n` whose `n` live
elements all equal `T{}`; for `n = 0` (the default constructor) the vector is
empty with capacity `0`. -/
theorem C4_sized_constructor [Element T] (n : Nat) :
    (∃ w : vector T, mk_sized n = .ok w ∧ w.capacity = n ∧ w.size = n ∧
      w.live = List.replicate n Element.init ∧
      ∀ i, i < n → w.m_storage[i]? = some Element.init) ∧
    (∃ w0 : vector T, mk_sized 0 = .ok w0 ∧ w0.empty = true ∧ w0.size = 0 ∧
      w0.capacity = 0 ∧ w0.live = []) := by
  refine ⟨⟨_, mk_sized_ok n, rfl, rfl, ?_, ?_⟩, ⟨_, mk_sized_ok 0, rfl, rfl, rfl, rfl⟩⟩
  · simp [live]
  · intro i hi
    simp [List.getElem?_replicate, hi]

theorem mk_ilist_ok [Element T] (il : List T) :
    (mk_ilist il : Except Fault (vector T)) = .ok ⟨il.length, il.length, il⟩ := by
  have h : 0 + il.length ≤ (new_array T il.length).length := by rw [new_array_length]; omega
  simp only [mk_ilist, std_copy_ok il _ 0 h, bind, Except.bind, pure, Except.pure]
  congr 2
  rw [List.drop_of_length_le (by rw [new_array_length]; omega)]
  simp

theorem iterate_ok (v : vector T) (hle : v.m_end ≤ v.m_storage.length) :
    ∀ (fuel i : Nat), i ≤ v.m_end → v.m_end - i ≤ fuel →
      iterate v fuel ⟨(i : Int)⟩ = .ok (v.live.drop i) := by
  intro fuel
  induction fuel with
  | zero =>
    intro i hi hf
    have : i = v.m_end := by omega
    subst this
    unfold iterate
    simp [MyForwardIterator.ne, vector.«end», live]
  | succ fuel ih =>
    intro i hi hf
    unfold iterate
    by_cases hlast : i = v.m_end
    · subst hlast
      simp [MyForwardIterator.ne, vector.«end», live]
    · have hlt : i < v.m_storage.length := by omega
      have hne : (⟨(i : Int)⟩ : MyForwardIterator).ne v.«end» = true := by
        simp only [MyForwardIterator.ne, vector.«end», Bool.not_eq_true', decide_eq_false_iff_not]
        omega
      have hnext : (⟨(i : Int)⟩ : MyForwardIterator).post_inc.2 = ⟨((i + 1 : Nat) : Int)⟩ := by
        simp [MyForwardIterator.post_inc]
      have hlive : i < v.live.length := by
        unfold live; rw [List.length_take]; omega
      simp only [hne, if_true, loadI_natCast, load_ok hlt, bind, Except.bind, hnext,
        ih (i + 1) (by omega) (by omega), pure, Except.pure]
      congr 1
      rw [List.drop_eq_getElem_cons hlive]
      congr 1
      simp [live, List.getElem_take]

/-- C5: the vector built from the list `L` by the initializer-list constructor
has size = capacity = length of `L`, and walking an iterator from `begin()` with
`++` until it equals `end()` reads exactly the elements of `L`, in order (one per
visited slot, so `length L` slots), whenever the walk is allowed at least
`length L` iterations. -/
theorem C5_ilist_roundtrip [Element T] (L : List T) (fuel : Nat) (hfuel : L.length ≤ fuel) :
    ∃ v : vector T, mk_ilist L = .ok v ∧ v.size = L.length ∧ v.capacity = L.length ∧
      ∃ out : List T, iterate v fuel v.begin = .ok out ∧ out = L ∧ out.length = L.length := by
  refine ⟨_, mk_ilist_ok L, rfl, rfl, L, ?_, rfl, rfl⟩
  have h := iterate_ok (⟨L.length, L.length, L⟩ : vector T) (Nat.le_refl _) fuel 0
    (Nat.zero_le _) (by simpa using hfuel)
  simpa [live, begin] using h

/-- C5 at the list `1, 2, 3, 4, 5` of `driver_vector.cpp`. -/
theorem C5_ilist_roundtrip_witness :
    ([1, 2, 3, 4, 5] : List Int).length ≤ 5 ∧
    ∃ v : vector Int, mk_ilist [1, 2, 3, 4, 5] = .ok v ∧
      v.size = ([1, 2, 3, 4, 5] : List Int).length ∧
      v.capacity = ([1, 2, 3, 4, 5] : List Int).length ∧
      ∃ out : List Int, iterate v 5 v.begin = .ok out ∧ out = [1, 2, 3, 4, 5] ∧
        out.length = ([1, 2, 3, 4, 5] : List Int).length :=
  ⟨by decide, C5_ilist_roundtrip [1, 2, 3, 4, 5] 5 (by decide)⟩

theorem load_some {a : List T} {i : Nat} {x : T} (h : a[i]? = some x) : load a i = .ok x := by
  simp [load, h]

theorem some_get_eq {a : List T} {i j : Nat} (h : j < a.length) (e : i = j) :
    some (a.get ⟨j, h⟩) = a[i]? := by
  subst e; simp [List.getElem?_eq_getElem h]

theorem shift_loop_ok (p k : Nat) : ∀ (o : Nat) (a : List T), p ≤ o + 1 →
    o + k < a.length → o + k < 2 ^ 64 →
    ∃ b : List T, shift_loop p o (o + k) a = .ok b ∧ b.length = a.length ∧
      ∀ i, b[i]? = if p + k ≤ i ∧ i ≤ o + k then a[i - k]? else a[i]?
  | 0, a, hp, hlen, _ => by
    by_cases h0 : p = 0
    · subst h0
      have hl0 : 0 < a.length := by omega
      refine ⟨a.set (0 + k) (a.get ⟨0, hl0⟩), ?_, by simp, ?_⟩
      · simp only [shift_loop, ge_iff_le, Nat.le_refl, if_true, load_ok hl0, bind, Except.bind,
          store_ok _ hlen, pure, Except.pure]
      · intro i
        simp only [List.getElem?_set]
        split_ifs <;> first | rfl | omega | exact some_get_eq hl0 (by omega)
    · refine ⟨a, ?_, rfl, ?_⟩
      · have : ¬ (0 ≥ p) := by omega
        simp only [shift_loop, this, if_false, pure, Except.pure]
      · intro i
        split_ifs <;> first | rfl | omega
  | o + 1, a, hp, hlen, hmax => by
    by_cases hlast : p = o + 2
    · refine ⟨a, ?_, rfl, ?_⟩
      · have : ¬ (o + 1 ≥ p) := by omega
        simp only [shift_loop, this, if_false, pure, Except.pure]
      · intro i
        split_ifs <;> first | rfl | omega
    · have hge : o + 1 ≥ p := by omega
      have hl : o + 1 < a.length := by omega
      have hdec : to_size (((o + 1 + k : Nat) : Int) - 1) = o + k := by
        rw [to_size_pred (by omega) (by omega)]; omega
      obtain ⟨b, hb, hbl, hbi⟩ := shift_loop_ok p k o (a.set (o + 1 + k) (a.get ⟨o + 1, hl⟩))
        (by omega) (by simp; omega) (by omega)
      refine ⟨b, ?_, by simpa using hbl, ?_⟩
      · simp only [shift_loop, hge, if_true, load_ok hl, bind, Except.bind, store_ok _ hlen,
          hdec, hb]
      · intro i
        rw [hbi i]
        simp only [List.getElem?_set]
        split_ifs <;> first | rfl | omega | exact some_get_eq hl (by omega)

/-- Layout after the two loops of an `insert`: `b` is `a` with the slots
`[p, n)` moved up by `k`, `d` is `b` with `block` written from slot `p` on. -/
theorem insert_layout (a b d block : List T) (n p k : Nat) (hn : 1 ≤ n) (hp : p ≤ n)
    (hlen : n + k ≤ a.length)
    (hk : block.length = k)
    (hbi : ∀ i, b[i]? = if p + k ≤ i ∧ i ≤ n - 1 + k then a[i - k]? else a[i]?)
    (hdi : ∀ i, d[i]? = if p ≤ i ∧ i < p + k then block[i - p]? else b[i]?) :
    d.take (n + k) = (a.take n).take p ++ block ++ (a.take n).drop p := by
  apply List.ext_getElem?
  intro i
  simp only [List.getElem?_append, List.getElem?_take, List.getElem?_drop,
    List.length_take, List.length_append, hdi i, hbi i, hk]
  split_ifs <;> first | rfl | omega | (congr 1; omega)

theorem to_size_natCast_pred_succ (n : Nat) (h : n < 2 ^ 64) :
    to_size (((n + 1 : Nat) : Int) - 1) = n := by
  unfold to_size SIZE_MOD; omega

/-- Growth step at the head of `push_back` and of the single-element `insert`. -/
theorem grow_if_full [Element T] (v : vector T) (hwf : v.wf) (hsz : v.m_end < 2 ^ 63) :
    ∃ v1 : vector T,
      (v.full = true → v.reserve
        (if v.m_capacity = 0 then wrap (v.m_capacity + 1) else wrap (v.m_capacity * 2)) = .ok v1) ∧
      (¬ v.full = true → v1 = v) ∧
      v1.wf ∧ v1.m_end = v.m_end ∧ v1.live = v.live ∧ v1.m_end < v1.m_capacity ∧
      (v.m_end < v.m_capacity → v1.m_capacity = v.m_capacity) ∧
      (v.m_end = v.m_capacity → v1.m_capacity = max 1 (2 * v.m_capacity)) := by
  have h1 := hwf.1
  have h2 := hwf.2.1
  have hl := live_length v hwf
  by_cases hfull : v.m_end = v.m_capacity
  · have hc2 := grow_capacity v.m_capacity (by omega)
    have hc : v.m_capacity < max 1 (2 * v.m_capacity) := by omega
    have hf : v.full = true := by simp [full, hfull]
    refine ⟨_, ?_, fun h => absurd hf h, grow_wf v _ hwf hc (by omega), rfl, ?_, ?_, ?_, ?_⟩
    · intro _; simp only [hc2, reserve_grow v _ hwf hc]
    · show List.take v.m_end _ = _
      rw [List.take_append_of_le_length (by omega), List.take_of_length_le (by omega)]
    · show v.m_end < max 1 (2 * v.m_capacity); omega
    · intro h; omega
    · intro _; rfl
  · have hf : v.full = false := by simp [full, hfull]
    refine ⟨v, ?_, fun _ => rfl, hwf, rfl, rfl, by omega, fun _ => rfl, fun h => absurd h hfull⟩
    intro h; rw [hf] at h; exact absurd h (by decide)

theorem insert_result [Element T] (v : vector T) (p : Nat) (x : T) (hwf : v.wf)
    (hne : 1 ≤ v.m_end) (hp : p ≤ v.m_end) (hsz : v.m_end < 2 ^ 63) :
    ∃ w : vector T, v.insert ⟨(p : Int)⟩ x = .ok (w, ⟨(p : Int)⟩) ∧ w.wf ∧
      w.m_end = v.m_end + 1 ∧ w.live = v.live.take p ++ [x] ++ v.live.drop p ∧
      w.m_storage[p]? = some x ∧
      (v.m_end < v.m_capacity → w.m_capacity = v.m_capacity) ∧
      (v.m_end = v.m_capacity → w.m_capacity = max 1 (2 * v.m_capacity)) := by
  obtain ⟨v1, hres, hsame, hwf1, he1, hl1, hroom, hc1, hc2⟩ := grow_if_full v hwf hsz
  have h1 := hwf1.1
  have hw : wrap (v1.m_end + 1) = v1.m_end + 1 := wrap_of_lt (by omega)
  have hold : to_size ((v1.m_end : Int) - 1) = v1.m_end - 1 :=
    to_size_pred (by omega) (by omega)
  have hnew : to_size (((v1.m_end + 1 : Nat) : Int) - 1) = v1.m_end - 1 + 1 := by
    rw [to_size_natCast_pred_succ _ (by omega)]; omega
  have hpos : (⟨(p : Int)⟩ : MyForwardIterator).diff v.begin = (p : Int) := by
    simp [MyForwardIterator.diff, begin]
  have hps : to_size (p : Int) = p := to_size_of_lt (by omega)
  obtain ⟨b, hb, hbl, hbi⟩ := shift_loop_ok p 1 (v1.m_end - 1) v1.m_storage (by omega)
    (by omega) (by omega)
  have hst : p < b.length := by omega
  refine ⟨⟨v1.m_end + 1, v1.m_capacity, b.set p x⟩, ?_, ?_, ?_, ?_, ?_, hc1, hc2⟩
  · unfold insert
    simp only [hpos]
    by_cases hf : v.full = true
    · rw [if_pos hf, hres hf]
      simp only [bind, Except.bind, hw, hold, hnew, hps, hb, storeI_natCast,
        store_ok x hst, pure, Except.pure, MyForwardIterator.add, begin]
      simp
    · rw [if_neg hf, ← hsame hf]
      simp only [bind, Except.bind, hw, hold, hnew, hps, hb, storeI_natCast,
        store_ok x hst, pure, Except.pure, MyForwardIterator.add, begin]
      simp
  · exact ⟨by simp only [List.length_set]; omega, by show v1.m_end + 1 ≤ v1.m_capacity; omega,
      hwf1.2.2⟩
  · show v1.m_end + 1 = v.m_end + 1; omega
  · rw [← hl1]
    show List.take (v1.m_end + 1) (b.set p x) = _
    have hk : ([x] : List T).length = 1 := rfl
    refine insert_layout v1.m_storage b (b.set p x) [x] v1.m_end p 1 (by omega) (by omega)
      (by omega) hk hbi ?_
    intro i
    simp only [List.getElem?_set]
    split_ifs with e1 e2 <;> first | rfl | omega | skip
    have e3 : i - p = 0 := by omega
    rw [e3]; rfl
  · show (b.set p x)[p]? = some x
    simp [List.getElem?_set, hst]

theorem write_range_ok : ∀ (block : List T) (i : Nat) (z stop : Int) (a : List T),
    z = (i : Int) → stop = (i : Int) + (block.length : Int) → i + block.length ≤ a.length →
    ∃ d : List T, write_range stop z block a = .ok d ∧ d.length = a.length ∧
      ∀ j, d[j]? = if i ≤ j ∧ j < i + block.length then block[j - i]? else a[j]?
  | [], i, z, stop, a, hz, hstop, _ => by
    refine ⟨a, ?_, rfl, ?_⟩
    · have : ¬ z < stop := by simp at hstop; omega
      simp only [write_range, this, if_false]
    · intro j
      simp only [List.length_nil]
      split_ifs <;> first | rfl | omega
  | x :: rest, i, z, stop, a, hz, hstop, hlen => by
    simp only [List.length_cons] at hlen hstop
    have hi : i < a.length := by omega
    have hlt : z < stop := by omega
    obtain ⟨d, hd, hdl, hdi⟩ := write_range_ok rest (i + 1) (z + 1) stop (a.set i x)
      (by omega) (by omega) (by simp only [List.length_set]; omega)
    refine ⟨d, ?_, by simpa using hdl, ?_⟩
    · subst hz
      simp only [write_range, hlt, if_true, storeI_natCast, store_ok x hi, bind, Except.bind, hd]
    · intro j
      rw [hdi j]
      simp only [List.getElem?_set, List.length_cons, List.getElem?_cons]
      split_ifs <;> first | rfl | omega

theorem write_ilist_ok : ∀ (block : List T) (i : Nat) (z : Int) (stop : Nat) (a : List T),
    z = (i : Int) → stop = i + block.length → i + block.length ≤ a.length →
    i + block.length < 2 ^ 64 →
    ∃ d : List T, write_ilist stop z block a = .ok d ∧ d.length = a.length ∧
      ∀ j, d[j]? = if i ≤ j ∧ j < i + block.length then block[j - i]? else a[j]?
  | [], i, z, stop, a, hz, hstop, _, hmax => by
    refine ⟨a, ?_, rfl, ?_⟩
    · have : ¬ to_size z < stop := by
        subst hz; rw [to_size_of_lt (by omega)]; simp at hstop; omega
      simp only [write_ilist, this, if_false]
    · intro j
      simp only [List.length_nil]
      split_ifs <;> first | rfl | omega
  | x :: rest, i, z, stop, a, hz, hstop, hlen, hmax => by
    simp only [List.length_cons] at hlen hstop hmax
    have hi : i < a.length := by omega
    have hlt : to_size z < stop := by
      subst hz; rw [to_size_of_lt (by omega)]; omega
    obtain ⟨d, hd, hdl, hdi⟩ := write_ilist_ok rest (i + 1) (z + 1) stop (a.set i x)
      (by omega) (by omega) (by simp only [List.length_set]; omega) (by omega)
    refine ⟨d, ?_, by simpa using hdl, ?_⟩
    · subst hz
      simp only [write_ilist, hlt, if_true, storeI_natCast, store_ok x hi, bind, Except.bind, hd]
    · intro j
      rw [hdi j]
      simp only [List.getElem?_set, List.length_cons, List.getElem?_cons]
      split_ifs <;> first | rfl | omega

/-- Growth step at the head of the block forms of `insert`, for a block of `k` elements. -/
theorem block_grow [Element T] (v : vector T) (k : Nat) (hwf : v.wf)
    (hsz : 2 * (v.m_capacity + k) < 2 ^ 64) :
    ∃ v1 : vector T,
      (0 < k → v.reserve (2 * (v.m_capacity + k)) = .ok v1) ∧
      (k = 0 → v1 = v) ∧
      v1.wf ∧ v1.m_end = v.m_end ∧ v1.live = v.live ∧ v.m_end + k ≤ v1.m_capacity ∧
      (0 < k → v1.m_capacity = 2 * (v.m_capacity + k)) ∧
      (k = 0 → v1.m_capacity = v.m_capacity) := by
  have h1 := hwf.1
  have h2 := hwf.2.1
  have hl := live_length v hwf
  by_cases hk : k = 0
  · exact ⟨v, fun h => by omega, fun _ => rfl, hwf, rfl, rfl, by omega, fun h => by omega,
      fun _ => rfl⟩
  · have hc : v.m_capacity < 2 * (v.m_capacity + k) := by omega
    refine ⟨_, fun _ => reserve_grow v _ hwf hc, fun h => absurd h hk, grow_wf v _ hwf hc hsz, rfl,
      ?_, ?_, fun _ => rfl, fun h => absurd h hk⟩
    · show List.take v.m_end _ = _
      rw [List.take_append_of_le_length (by omega), List.take_of_length_le (by omega)]
    · show v.m_end + k ≤ 2 * (v.m_capacity + k); omega

theorem to_size_add (a b : Nat) (h : a + b < 2 ^ 64) : to_size ((a : Int) + (b : Int)) = a + b := by
  unfold to_size SIZE_MOD; omega

theorem insert_range_result [Element T] (v : vector T) (p : Nat) (block : List T) (hwf : v.wf)
    (hne : 1 ≤ v.m_end) (hp : p ≤ v.m_end)
    (hsz : 2 * (v.m_capacity + block.length) < 2 ^ 64) :
    ∃ w : vector T, v.insert_range ⟨(p : Int)⟩ block = .ok (w, ⟨(p : Int)⟩) ∧ w.wf ∧
      w.m_end = v.m_end + block.length ∧
      w.live = v.live.take p ++ block ++ v.live.drop p ∧
      (0 < block.length → w.m_capacity = 2 * (v.m_capacity + block.length)) ∧
      (block.length = 0 → w.m_capacity = v.m_capacity) := by
  obtain ⟨v1, hres, hsame, hwf1, he1, hl1, hroom, hc1, hc2⟩ := block_grow v block.length hwf hsz
  have h1 := hwf1.1
  have h2 := hwf.2.1
  have hcapk1 : to_size ((v.m_capacity : Int) + ((block.length : Nat) : Int))
      = v.m_capacity + block.length := to_size_add _ _ (by omega)
  have hcapk : to_size ((v.capacity : Int) + ((block.length : Nat) : Int))
      = v.m_capacity + block.length := hcapk1
  have hnewcap : wrap ((v.m_capacity + block.length) * 2) = 2 * (v.m_capacity + block.length) := by
    rw [wrap_of_lt (by omega)]; omega
  have hend : to_size ((v1.m_end : Int) + ((block.length : Nat) : Int))
      = v1.m_end + block.length := to_size_add _ _ (by omega)
  have hold : to_size ((v1.m_end : Int) - 1) = v1.m_end - 1 :=
    to_size_pred (by omega) (by omega)
  have hnew : to_size (((v1.m_end + block.length : Nat) : Int) - 1)
      = v1.m_end - 1 + block.length := by
    rw [to_size_pred (by omega) (by omega)]; omega
  have hpos : (⟨(p : Int)⟩ : MyForwardIterator).diff v.begin = (p : Int) := by
    simp [MyForwardIterator.diff, begin]
  have hps : to_size (p : Int) = p := to_size_of_lt (by omega)
  obtain ⟨b, hb, hbl, hbi⟩ := shift_loop_ok p block.length (v1.m_end - 1) v1.m_storage
    (by omega) (by omega) (by omega)
  obtain ⟨d, hd, hdl, hdi⟩ := write_range_ok block p (p : Int)
    ((p : Int) + ((block.length : Nat) : Int)) b rfl rfl (by omega)
  refine ⟨⟨v1.m_end + block.length, v1.m_capacity, d⟩, ?_, ?_, ?_, ?_, hc1, hc2⟩
  · unfold insert_range
    simp only [hpos, hcapk, hcapk1, hnewcap]
    by_cases hk : 0 < block.length
    · have hcond : v.m_capacity + block.length > v.m_capacity := by omega
      rw [if_pos hcond, hres hk]
      simp only [bind, Except.bind, hend, hold, hnew, hps, hb, hd, pure, Except.pure,
        MyForwardIterator.add, begin]
      simp
    · have hcond : ¬ (v.m_capacity + block.length > v.m_capacity) := by omega
      rw [if_neg hcond, ← hsame (by omega)]
      simp only [bind, Except.bind, hend, hold, hnew, hps, hb, hd, pure, Except.pure,
        MyForwardIterator.add, begin]
      simp
  · exact ⟨by show v1.m_capacity ≤ d.length; omega,
      by show v1.m_end + block.length ≤ v1.m_capacity; omega, hwf1.2.2⟩
  · show v1.m_end + block.length = v.m_end + block.length; omega
  · rw [← hl1]
    show List.take (v1.m_end + block.length) d = _
    exact insert_layout v1.m_storage b d block v1.m_end p block.length (by omega) (by omega)
      (by omega) rfl hbi hdi

theorem insert_ilist_result [Element T] (v : vector T) (p : Nat) (ilist_ : List T) (hwf : v.wf)
    (hne : 1 ≤ v.m_end) (hp : p ≤ v.m_end)
    (hsz : 2 * (v.m_capacity + ilist_.length) < 2 ^ 64) :
    ∃ w : vector T, v.insert_ilist ⟨(p : Int)⟩ ilist_ = .ok (w, ⟨(p : Int)⟩) ∧ w.wf ∧
      w.m_end = v.m_end + ilist_.length ∧
      w.live = v.live.take p ++ ilist_ ++ v.live.drop p ∧
      (0 < ilist_.length → w.m_capacity = 2 * (v.m_capacity + ilist_.length)) ∧
      (ilist_.length = 0 → w.m_capacity = v.m_capacity) := by
  obtain ⟨v1, hres, hsame, hwf1, he1, hl1, hroom, hc1, hc2⟩ := block_grow v ilist_.length hwf hsz
  have h1 := hwf1.1
  have h2 := hwf.2.1
  have hcapk : wrap (v.capacity + ilist_.length) = v.m_capacity + ilist_.length :=
    wrap_of_lt (by show v.m_capacity + _ < _; omega)
  have hcapk1 : wrap (v.m_capacity + ilist_.length) = v.m_capacity + ilist_.length :=
    wrap_of_lt (by omega)
  have hnewcap : wrap ((v.m_capacity + ilist_.length) * 2)
      = 2 * (v.m_capacity + ilist_.length) := by
    rw [wrap_of_lt (by omega)]; omega
  have hend : wrap (v1.m_end + ilist_.length) = v1.m_end + ilist_.length :=
    wrap_of_lt (by omega)
  have hold : to_size ((v1.m_end : Int) - 1) = v1.m_end - 1 :=
    to_size_pred (by omega) (by omega)
  have hnew : to_size (((v1.m_end + ilist_.length : Nat) : Int) - 1)
      = v1.m_end - 1 + ilist_.length := by
    rw [to_size_pred (by omega) (by omega)]; omega
  have hpos : (⟨(p : Int)⟩ : MyForwardIterator).diff v.begin = (p : Int) := by
    simp [MyForwardIterator.diff, begin]
  have hps : to_size (p : Int) = p := to_size_of_lt (by omega)
  have hstop : wrap (p + ilist_.length) = p + ilist_.length := wrap_of_lt (by omega)
  obtain ⟨b, hb, hbl, hbi⟩ := shift_loop_ok p ilist_.length (v1.m_end - 1) v1.m_storage
    (by omega) (by omega) (by omega)
  obtain ⟨d, hd, hdl, hdi⟩ := write_ilist_ok ilist_ p (p : Int) (p + ilist_.length) b rfl rfl
    (by omega) (by omega)
  refine ⟨⟨v1.m_end + ilist_.length, v1.m_capacity, d⟩, ?_, ?_, ?_, ?_, hc1, hc2⟩
  · unfold insert_ilist
    simp only [hpos, hcapk, hcapk1, hnewcap]
    by_cases hk : 0 < ilist_.length
    · have hcond : v.m_capacity + ilist_.length > v.m_capacity := by omega
      rw [if_pos hcond, hres hk]
      simp only [bind, Except.bind, hend, hold, hnew, hps, hstop, hb, hd, pure, Except.pure,
        MyForwardIterator.add, begin]
      simp
    · have hcond : ¬ (v.m_capacity + ilist_.length > v.m_capacity) := by omega
      rw [if_neg hcond, ← hsame (by omega)]
      simp only [bind, Except.bind, hend, hold, hnew, hps, hstop, hb, hd, pure, Except.pure,
        MyForwardIterator.add, begin]
      simp
  · exact ⟨by show v1.m_capacity ≤ d.length; omega,
      by show v1.m_end + ilist_.length ≤ v1.m_capacity; omega, hwf1.2.2⟩
  · show v1.m_end + ilist_.length = v.m_end + ilist_.length; omega
  · rw [← hl1]
    show List.take (v1.m_end + ilist_.length) d = _
    exact insert_layout v1.m_storage b d ilist_ v1.m_end p ilist_.length (by omega) (by omega)
      (by omega) rfl hbi hdi

theorem begin_add (v : vector T) (p : Nat) : v.begin.add (p : Int) = ⟨(p : Int)⟩ := by
  simp [begin, MyForwardIterator.add]

/-- C6 (failing input): `insert(begin(), 7)` on a default-constructed vector, and
on an empty vector with capacity 4, does not return `{7}`: `old_m_end - 1`
wraps to `2 ^ 64 - 1`, the loop guard holds and the first iteration reads
`m_storage[2 ^ 64 - 1]`, outside the array. -/
theorem C6_insert_into_empty :
    ((mk_sized 0 : Except Fault (vector Int)) >>= fun v => v.insert v.begin 7)
      = .error (.out_of_bounds (2 ^ 64 - 1)) ∧
    (⟨0, 4, [0, 0, 0, 0]⟩ : vector Int).insert (⟨0, 4, [0, 0, 0, 0]⟩ : vector Int).begin 7
      = .error (.out_of_bounds (2 ^ 64 - 1)) := by
  constructor <;> decide

/-- For an `x` that is no element of the vector itself (the argument of the
by-value `insert`), on a vector with at least one live element (and fewer than
`2 ^ 63`): `insert(begin() + p, x)` with `0 ≤ p ≤ size` returns normally; the
live elements become `take p ++ [x] ++ drop p` of the old ones, the size grows
by one, the capacity is `max(1, 2 * old capacity)` if the vector was full and
unchanged otherwise. -/
theorem insert_value [Element T] (v : vector T) (p : Nat) (x : T) (hwf : v.wf)
    (hne : 1 ≤ v.size) (hp : p ≤ v.size) (hsz : v.size < 2 ^ 63) :
    ∃ (w : vector T) (it : MyForwardIterator), v.insert (v.begin.add (p : Int)) x = .ok (w, it) ∧
      w.live = v.live.take p ++ [x] ++ v.live.drop p ∧
      w.size = v.size + 1 ∧
      (v.size = v.capacity → w.capacity = max 1 (2 * v.capacity)) ∧
      (v.size < v.capacity → w.capacity = v.capacity) := by
  obtain ⟨w, hw, _, he, hl, _, hc1, hc2⟩ := insert_result v p x hwf hne hp hsz
  exact ⟨w, _, by rw [begin_add]; exact hw, hl, he, hc2, hc1⟩

/-- C8: on a vector with at least one live element, for `0 ≤ p ≤ size` and a
block `B` of `k ≥ 0` elements held outside the vector (with `2 * (capacity + k)`
representable in `unsigned long`), both `insert(begin() + p, first, last)` and
`insert(begin() + p, initializer-list)` return normally with live elements
`take p ++ B ++ drop p` of the old ones, size = old size + `k`, and an iterator
at index `p` of the resulting vector. -/
theorem C8_insert_block [Element T] (v : vector T) (p : Nat) (B : List T) (hwf : v.wf)
    (hne : 1 ≤ v.size) (hp : p ≤ v.size) (hsz : 2 * (v.capacity + B.length) < 2 ^ 64) :
    (∃ w : vector T, v.insert_range (v.begin.add (p : Int)) B = .ok (w, w.begin.add (p : Int)) ∧
      w.live = v.live.take p ++ B ++ v.live.drop p ∧ w.size = v.size + B.length) ∧
    (∃ w : vector T, v.insert_ilist (v.begin.add (p : Int)) B = .ok (w, w.begin.add (p : Int)) ∧
      w.live = v.live.take p ++ B ++ v.live.drop p ∧ w.size = v.size + B.length) := by
  obtain ⟨w, hw, _, he, hl, _, _⟩ := insert_range_result v p B hwf hne hp hsz
  obtain ⟨u, hu, _, hue, hul, _, _⟩ := insert_ilist_result v p B hwf hne hp hsz
  exact ⟨⟨w, by rw [begin_add, begin_add]; exact hw, hl, he⟩,
    ⟨u, by rw [begin_add, begin_add]; exact hu, hul, hue⟩⟩

/-- C8 at `{1,2,3}`, `p = 1`, `B = {7,8}`: both forms give `{1,7,8,2,3}`. -/
theorem C8_insert_block_witness :
    (⟨3, 3, [1, 2, 3]⟩ : vector Int).wf ∧ 1 ≤ (⟨3, 3, [1, 2, 3]⟩ : vector Int).size ∧
    1 ≤ (⟨3, 3, [1, 2, 3]⟩ : vector Int).size ∧
    2 * ((⟨3, 3, [1, 2, 3]⟩ : vector Int).capacity + ([7, 8] : List Int).length) < 2 ^ 64 ∧
    ((∃ w : vector Int, (⟨3, 3, [1, 2, 3]⟩ : vector Int).insert_range
        ((⟨3, 3, [1, 2, 3]⟩ : vector Int).begin.add ((1 : Nat) : Int)) [7, 8]
          = .ok (w, w.begin.add ((1 : Nat) : Int)) ∧
      w.live = (⟨3, 3, [1, 2, 3]⟩ : vector Int).live.take 1 ++ [7, 8]
        ++ (⟨3, 3, [1, 2, 3]⟩ : vector Int).live.drop 1 ∧
      w.size = (⟨3, 3, [1, 2, 3]⟩ : vector Int).size + ([7, 8] : List Int).length) ∧
    (∃ w : vector Int, (⟨3, 3, [1, 2, 3]⟩ : vector Int).insert_ilist
        ((⟨3, 3, [1, 2, 3]⟩ : vector Int).begin.add ((1 : Nat) : Int)) [7, 8]
          = .ok (w, w.begin.add ((1 : Nat) : Int)) ∧
      w.live = (⟨3, 3, [1, 2, 3]⟩ : vector Int).live.take 1 ++ [7, 8]
        ++ (⟨3, 3, [1, 2, 3]⟩ : vector Int).live.drop 1 ∧
      w.size = (⟨3, 3, [1, 2, 3]⟩ : vector Int).size + ([7, 8] : List Int).length)) :=
  ⟨by decide, by decide, by decide, by decide,
    C8_insert_block ⟨3, 3, [1, 2, 3]⟩ 1 [7, 8] (by decide) (by decide) (by decide) (by decide)⟩

theorem swap_slots_ok (a : List T) (i j : Nat) (hi : i < a.length) (hj : j < a.length) :
    swap_slots a (i : Int) (j : Int)
      = .ok ((a.set i (a.get ⟨j, hj⟩)).set j (a.get ⟨i, hi⟩)) := by
  have hj1 : j < (a.set i (a.get ⟨j, hj⟩)).length := by simpa using hj
  simp only [swap_slots, loadI_natCast, load_ok hi, load_ok hj, bind, Except.bind,
    storeI_natCast, store_ok _ hi, store_ok _ hj1]

theorem erase_loop_ok (n : Nat) (hn : 1 ≤ n) : ∀ (fuel i : Nat) (a : List T),
    i ≤ n - 1 → n ≤ a.length → n - 1 - i ≤ fuel →
    ∃ b : List T, erase_loop ⟨((n - 1 : Nat) : Int)⟩ fuel ⟨(i : Int)⟩ a = .ok b ∧
      b.length = a.length ∧
      ∀ j, b[j]? = if i ≤ j ∧ j < n - 1 then a[j + 1]? else if j = n - 1 then a[i]? else a[j]? := by
  intro fuel
  induction fuel with
  | zero =>
    intro i a hi hlen hf
    have hin : i = n - 1 := by omega
    refine ⟨a, ?_, rfl, ?_⟩
    · subst hin
      unfold erase_loop
      simp [MyForwardIterator.ne]
    · intro j
      split_ifs <;> first | rfl | omega | (congr 1; omega)
  | succ fuel ih =>
    intro i a hi hlen hf
    by_cases hin : i = n - 1
    · refine ⟨a, ?_, rfl, ?_⟩
      · subst hin
        unfold erase_loop
        simp [MyForwardIterator.ne]
      · intro j
        split_ifs <;> first | rfl | omega | (congr 1; omega)
    · have hi0 : i < a.length := by omega
      have hi1 : i + 1 < a.length := by omega
      have hne : (⟨(i : Int)⟩ : MyForwardIterator).ne ⟨((n - 1 : Nat) : Int)⟩ = true := by
        simp only [MyForwardIterator.ne, Bool.not_eq_true', decide_eq_false_iff_not]
        omega
      have hnext : (⟨(i : Int)⟩ : MyForwardIterator).post_inc.2 = ⟨((i + 1 : Nat) : Int)⟩ := by
        simp [MyForwardIterator.post_inc]
      have hadd : ((⟨(i : Int)⟩ : MyForwardIterator).add 1).m_ptr = ((i + 1 : Nat) : Int) := by
        simp [MyForwardIterator.add]
      obtain ⟨b, hb, hbl, hbi⟩ := ih (i + 1)
        ((a.set i (a.get ⟨i + 1, hi1⟩)).set (i + 1) (a.get ⟨i, hi0⟩))
        (by omega) (by simpa using hlen) (by omega)
      refine ⟨b, ?_, by simpa using hbl, ?_⟩
      · unfold erase_loop
        simp only [hne, if_true, hadd, swap_slots_ok a i (i + 1) hi0 hi1, bind, Except.bind,
          hnext, hb]
      · intro j
        rw [hbi j]
        simp only [List.getElem?_set, List.length_set]
        split_ifs <;>
          first | rfl | omega | exact some_get_eq hi0 (by omega) |
            exact some_get_eq hi1 (by omega)

theorem erase_result (v : vector T) (p : Nat) (hwf : v.wf) (hp : p < v.m_end) :
    ∃ w : vector T, v.erase ⟨(p : Int)⟩ = .ok (w, ⟨(p : Int)⟩) ∧ w.wf ∧
      w.m_end = v.m_end - 1 ∧ w.m_capacity = v.m_capacity ∧
      w.live = v.live.eraseIdx p ∧ w.m_storage[v.m_end - 1]? = v.m_storage[p]? := by
  have h1 := hwf.1
  have h2 := hwf.2.1
  have h3 := hwf.2.2
  have hstop : v.«end».sub 1 = ⟨((v.m_end - 1 : Nat) : Int)⟩ := by
    simp only [vector.«end», MyForwardIterator.sub, MyForwardIterator.mk.injEq]; omega
  have hend : to_size ((v.m_end : Int) - 1) = v.m_end - 1 :=
    to_size_pred (by omega) (by omega)
  obtain ⟨b, hb, hbl, hbi⟩ := erase_loop_ok v.m_end (by omega) (v.m_storage.length + 1) p
    v.m_storage (by omega) (by omega) (by omega)
  refine ⟨⟨v.m_end - 1, v.m_capacity, b⟩, ?_, ?_, rfl, rfl, ?_, ?_⟩
  · simp only [erase, hstop, hb, bind, Except.bind, hend, pure, Except.pure]
  · exact ⟨by show v.m_capacity ≤ b.length; omega, by show v.m_end - 1 ≤ v.m_capacity; omega, h3⟩
  · show List.take (v.m_end - 1) b = (List.take v.m_end v.m_storage).eraseIdx p
    apply List.ext_getElem?
    intro j
    simp only [List.getElem?_take, List.getElem?_eraseIdx, hbi j]
    split_ifs <;> first | rfl | omega
  · show b[v.m_end - 1]? = _
    rw [hbi]
    split_ifs <;> first | rfl | omega

theorem erase_range_loop_ok (n : Nat) : ∀ (fuel f l : Nat) (a : List T),
    f ≤ l → l ≤ n → n ≤ a.length → n - l ≤ fuel →
    ∃ b : List T, erase_range_loop ⟨(n : Int)⟩ fuel ⟨(l : Int)⟩ ⟨(f : Int)⟩ a = .ok b ∧
      b.length = a.length ∧
      (∀ j, j < f → b[j]? = a[j]?) ∧
      (∀ t, t < n - l → b[f + t]? = a[l + t]?) ∧
      (∀ j, n ≤ j → b[j]? = a[j]?) := by
  intro fuel
  induction fuel with
  | zero =>
    intro f l a hfl hln hlen hf
    have hl : l = n := by omega
    refine ⟨a, ?_, rfl, fun _ _ => rfl, fun t ht => by omega, fun _ _ => rfl⟩
    subst hl
    unfold erase_range_loop
    simp [MyForwardIterator.ne]
  | succ fuel ih =>
    intro f l a hfl hln hlen hf
    by_cases hl : l = n
    · refine ⟨a, ?_, rfl, fun _ _ => rfl, fun t ht => by omega, fun _ _ => rfl⟩
      subst hl
      unfold erase_range_loop
      simp [MyForwardIterator.ne]
    · have hf0 : f < a.length := by omega
      have hl0 : l < a.length := by omega
      have hne : (⟨(l : Int)⟩ : MyForwardIterator).ne ⟨(n : Int)⟩ = true := by
        simp only [MyForwardIterator.ne, Bool.not_eq_true', decide_eq_false_iff_not]
        omega
      have hnl : (⟨(l : Int)⟩ : MyForwardIterator).post_inc.2 = ⟨((l + 1 : Nat) : Int)⟩ := by
        simp [MyForwardIterator.post_inc]
      have hnf : (⟨(f : Int)⟩ : MyForwardIterator).post_inc.2 = ⟨((f + 1 : Nat) : Int)⟩ := by
        simp [MyForwardIterator.post_inc]
      obtain ⟨b, hb, hbl, hb1, hb2, hb3⟩ := ih (f + 1) (l + 1)
        ((a.set f (a.get ⟨l, hl0⟩)).set l (a.get ⟨f, hf0⟩))
        (by omega) (by omega) (by simpa using hlen) (by omega)
      refine ⟨b, ?_, by simpa using hbl, ?_, ?_, ?_⟩
      · unfold erase_range_loop
        simp only [hne, if_true, swap_slots_ok a f l hf0 hl0, bind, Except.bind, hnl, hnf, hb]
      · intro j hj
        rw [hb1 j (by omega)]
        simp only [List.getElem?_set, List.length_set]
        split_ifs <;> first | rfl | omega
      · intro t ht
        by_cases ht0 : t = 0
        · subst ht0
          rw [hb1 (f + 0) (by omega)]
          simp only [List.getElem?_set, List.length_set]
          split_ifs <;> first | rfl | omega | exact some_get_eq hl0 (by omega) |
            exact some_get_eq hf0 (by omega)
        · have e1 : f + t = f + 1 + (t - 1) := by omega
          have e2 : l + t = l + 1 + (t - 1) := by omega
          rw [e1, hb2 (t - 1) (by omega), ← e2]
          simp only [List.getElem?_set, List.length_set]
          split_ifs <;> first | rfl | omega
      · intro j hj
        rw [hb3 j hj]
        simp only [List.getElem?_set, List.length_set]
        split_ifs <;> first | rfl | omega

theorem erase_range_result (v : vector T) (f l : Nat) (hwf : v.wf) (hfl : f ≤ l)
    (hl : l ≤ v.m_end) :
    ∃ w : vector T, v.erase_range ⟨(f : Int)⟩ ⟨(l : Int)⟩ = .ok (w, ⟨(f : Int)⟩) ∧ w.wf ∧
      w.m_end = v.m_end - (l - f) ∧ w.m_capacity = v.m_capacity ∧
      w.live = v.live.take f ++ v.live.drop l := by
  have h1 := hwf.1
  have h2 := hwf.2.1
  have h3 := hwf.2.2
  have hdist : std_distance ⟨(f : Int)⟩ ⟨(l : Int)⟩ = .ok ((l : Int) - (f : Int)) := by
    have : (f : Int) ≤ (l : Int) := by omega
    simp only [std_distance, this, if_true]
  have hend : to_size ((v.m_end : Int) - ((l : Int) - (f : Int))) = v.m_end - (l - f) := by
    unfold to_size SIZE_MOD; omega
  obtain ⟨b, hb, hbl, hb1, hb2, _⟩ := erase_range_loop_ok v.m_end (v.m_storage.length + 1) f l
    v.m_storage hfl hl (by omega) (by omega)
  refine ⟨⟨v.m_end - (l - f), v.m_capacity, b⟩, ?_, ?_, rfl, rfl, ?_⟩
  · simp only [erase_range, vector.«end», hb, hdist, bind, Except.bind, hend, pure, Except.pure]
  · exact ⟨by show v.m_capacity ≤ b.length; omega,
      by show v.m_end - (l - f) ≤ v.m_capacity; omega, h3⟩
  · show List.take (v.m_end - (l - f)) b
      = (List.take v.m_end v.m_storage).take f ++ (List.take v.m_end v.m_storage).drop l
    apply List.ext_getElem?
    intro j
    by_cases hj : j < f
    · rw [List.getElem?_take, if_pos (by omega), hb1 j hj, List.getElem?_append_left
        (by simp only [List.length_take]; omega)]
      simp only [List.getElem?_take]
      split_ifs <;> first | rfl | omega
    · by_cases hj2 : j < v.m_end - (l - f)
      · have e1 : j = f + (j - f) := by omega
        rw [List.getElem?_take, if_pos hj2, List.getElem?_append_right
          (by simp only [List.length_take]; omega)]
        rw [e1, hb2 (j - f) (by omega)]
        simp only [List.getElem?_drop, List.getElem?_take, List.length_take]
        split_ifs <;> first | rfl | omega | (congr 1; omega)
      · rw [List.getElem?_take, if_neg hj2, List.getElem?_append_right
          (by simp only [List.length_take]; omega)]
        simp only [List.getElem?_drop, List.getElem?_take, List.length_take]
        split_ifs <;> first | rfl | omega

/-- C9: for `0 ≤ p < size`, `erase(begin() + p)` returns normally (its loop ends);
the live elements are the old ones with the element at index `p` removed and
the others in their old order, the size drops by one, the capacity is
unchanged, and the returned iterator is at index `p`. -/
theorem C9_erase_position (v : vector T) (p : Nat) (hwf : v.wf) (hp : p < v.size) :
    ∃ w : vector T, v.erase (v.begin.add (p : Int)) = .ok (w, w.begin.add (p : Int)) ∧
      w.live = v.live.eraseIdx p ∧
      (∀ j, j < p → w.live[j]? = v.live[j]?) ∧
      (∀ j, p ≤ j → w.live[j]? = v.live[j + 1]?) ∧
      w.size = v.size - 1 ∧ w.capacity = v.capacity := by
  obtain ⟨w, hw, _, he, hc, hl, _⟩ := erase_result v p hwf hp
  refine ⟨w, by rw [begin_add, begin_add]; exact hw, hl, ?_, ?_, he, hc⟩
  · intro j hj
    rw [hl, List.getElem?_eraseIdx, if_pos hj]
  · intro j hj
    rw [hl, List.getElem?_eraseIdx, if_neg (by omega)]

/-- C9 at `{1,2,3,4,5}` and `p = 1`. -/
theorem C9_erase_position_witness :
    (⟨5, 5, [1, 2, 3, 4, 5]⟩ : vector Int).wf ∧ 1 < (⟨5, 5, [1, 2, 3, 4, 5]⟩ : vector Int).size ∧
    ∃ w : vector Int, (⟨5, 5, [1, 2, 3, 4, 5]⟩ : vector Int).erase
        ((⟨5, 5, [1, 2, 3, 4, 5]⟩ : vector Int).begin.add ((1 : Nat) : Int))
          = .ok (w, w.begin.add ((1 : Nat) : Int)) ∧
      w.live = (⟨5, 5, [1, 2, 3, 4, 5]⟩ : vector Int).live.eraseIdx 1 ∧
      (∀ j, j < 1 → w.live[j]? = (⟨5, 5, [1, 2, 3, 4, 5]⟩ : vector Int).live[j]?) ∧
      (∀ j, 1 ≤ j → w.live[j]? = (⟨5, 5, [1, 2, 3, 4, 5]⟩ : vector Int).live[j + 1]?) ∧
      w.size = (⟨5, 5, [1, 2, 3, 4, 5]⟩ : vector Int).size - 1 ∧
      w.capacity = (⟨5, 5, [1, 2, 3, 4, 5]⟩ : vector Int).capacity :=
  ⟨by decide, by decide, C9_erase_position ⟨5, 5, [1, 2, 3, 4, 5]⟩ 1 (by decide) (by decide)⟩

/-- C10: for `0 ≤ f ≤ l ≤ size`, `erase(begin() + f, begin() + l)` returns
normally (its loop ends); the live elements are `take f ++ drop l` of the old
ones, the size drops by `l - f`, the capacity is unchanged, and the returned
iterator is at index `f`.  Nothing is assumed on how the length of the tail
`[l, size)` compares with the gap `l - f`. -/
theorem C10_erase_range (v : vector T) (f l : Nat) (hwf : v.wf) (hfl : f ≤ l)
    (hl : l ≤ v.size) :
    ∃ w : vector T,
      v.erase_range (v.begin.add (f : Int)) (v.begin.add (l : Int))
        = .ok (w, w.begin.add (f : Int)) ∧
      w.live = v.live.take f ++ v.live.drop l ∧
      w.size = v.size - (l - f) ∧ w.capacity = v.capacity := by
  obtain ⟨w, hw, _, he, hc, hlive⟩ := erase_range_result v f l hwf hfl hl
  exact ⟨w, by rw [begin_add, begin_add, begin_add]; exact hw, hlive, he, hc⟩

/-- C10 at `{1,2,3,4,5}`, `f = 1`, `l = 3` (tail as long as the gap), with the
evaluation `{1,4,5}`, size 3, and at `f = 0`, `l = 1` (tail longer than the
gap) and `f = 1`, `l = 4` (tail shorter than the gap). -/
theorem C10_erase_range_witness :
    (⟨5, 5, [1, 2, 3, 4, 5]⟩ : vector Int).wf ∧ 1 ≤ 3 ∧
    3 ≤ (⟨5, 5, [1, 2, 3, 4, 5]⟩ : vector Int).size ∧
    (∃ w : vector Int,
      (⟨5, 5, [1, 2, 3, 4, 5]⟩ : vector Int).erase_range
        ((⟨5, 5, [1, 2, 3, 4, 5]⟩ : vector Int).begin.add ((1 : Nat) : Int))
        ((⟨5, 5, [1, 2, 3, 4, 5]⟩ : vector Int).begin.add ((3 : Nat) : Int))
        = .ok (w, w.begin.add ((1 : Nat) : Int)) ∧
      w.live = (⟨5, 5, [1, 2, 3, 4, 5]⟩ : vector Int).live.take 1
        ++ (⟨5, 5, [1, 2, 3, 4, 5]⟩ : vector Int).live.drop 3 ∧
      w.size = (⟨5, 5, [1, 2, 3, 4, 5]⟩ : vector Int).size - (3 - 1) ∧
      w.capacity = (⟨5, 5, [1, 2, 3, 4, 5]⟩ : vector Int).capacity) ∧
    (⟨5, 5, [1, 2, 3, 4, 5]⟩ : vector Int).erase_range ⟨1⟩ ⟨3⟩
      = .ok (⟨3, 5, [1, 4, 5, 2, 3]⟩, ⟨1⟩) ∧
    (⟨5, 5, [1, 2, 3, 4, 5]⟩ : vector Int).erase_range ⟨0⟩ ⟨1⟩
      = .ok (⟨4, 5, [2, 3, 4, 5, 1]⟩, ⟨0⟩) ∧
    (⟨5, 5, [1, 2, 3, 4, 5]⟩ : vector Int).erase_range ⟨1⟩ ⟨4⟩
      = .ok (⟨2, 5, [1, 5, 3, 4, 2]⟩, ⟨1⟩) :=
  ⟨by decide, by decide, by decide,
    C10_erase_range ⟨5, 5, [1, 2, 3, 4, 5]⟩ 1 3 (by decide) (by decide) (by decide),
    by decide, by decide, by decide⟩

theorem bind_no_timeout {α β : Type} (m : Except Fault α) (k : α → Except Fault β)
    (hm : m ≠ .error .timeout) (hk : ∀ x, m = .ok x → k x ≠ .error .timeout) :
    (m >>= k) ≠ .error .timeout := by
  cases m with
  | error e =>
    intro h
    apply hm
    simpa [bind, Except.bind] using h
  | ok x => exact hk x rfl

theorem bind_ok_inv {α β : Type} {m : Except Fault α} {k : α → Except Fault β} {y : β}
    (h : (m >>= k) = .ok y) : ∃ x, m = .ok x ∧ k x = .ok y := by
  cases m with
  | error e => simp [bind, Except.bind] at h
  | ok x => exact ⟨x, rfl, h⟩

theorem loadI_inv {a : List T} {i : Int} {x : T} (h : loadI a i = .ok x) :
    0 ≤ i ∧ i < a.length := by
  unfold loadI load at h
  by_cases hi : 0 ≤ i
  · by_cases hi1 : i.toNat < a.length
    · exact ⟨hi, by omega⟩
    · simp [hi, List.getElem?_eq_none (Nat.le_of_not_lt hi1)] at h
  · simp [hi] at h

theorem loadI_no_timeout (a : List T) (i : Int) : loadI a i ≠ .error .timeout := by
  unfold loadI load
  split
  · split <;> simp
  · simp

theorem storeI_no_timeout (a : List T) (i : Int) (x : T) : storeI a i x ≠ .error .timeout := by
  unfold storeI store
  split
  · split <;> simp
  · simp

theorem storeI_length {a a1 : List T} {i : Int} {x : T} (h : storeI a i x = .ok a1) :
    a1.length = a.length := by
  unfold storeI store at h
  split at h
  · split at h
    · injection h with h; subst h; simp
    · simp at h
  · simp at h

theorem swap_slots_inv {a a1 : List T} {i j : Int} (h : swap_slots a i j = .ok a1) :
    0 ≤ i ∧ i < a.length ∧ 0 ≤ j ∧ j < a.length ∧ a1.length = a.length := by
  unfold swap_slots at h
  obtain ⟨x, h1, h⟩ := bind_ok_inv h
  obtain ⟨y, h2, h⟩ := bind_ok_inv h
  obtain ⟨a2, h3, h⟩ := bind_ok_inv h
  have l1 := storeI_length h3
  have l2 := storeI_length h
  exact ⟨(loadI_inv h1).1, (loadI_inv h1).2, (loadI_inv h2).1, (loadI_inv h2).2, by omega⟩

theorem swap_slots_no_timeout (a : List T) (i j : Int) :
    swap_slots a i j ≠ .error .timeout := by
  unfold swap_slots
  refine bind_no_timeout _ _ (loadI_no_timeout a i) (fun x _ => ?_)
  refine bind_no_timeout _ _ (loadI_no_timeout a j) (fun y _ => ?_)
  exact bind_no_timeout _ _ (storeI_no_timeout a i y) (fun a2 _ => storeI_no_timeout a2 j x)

/-- The iteration bound of the loop of `erase(pos)` is never the reason it stops. -/
theorem erase_loop_no_timeout (stop : MyForwardIterator) : ∀ (fuel : Nat) (i : MyForwardIterator)
    (a : List T), 1 ≤ fuel → (0 ≤ i.m_ptr → (a.length : Int) - i.m_ptr < fuel) →
    erase_loop stop fuel i a ≠ .error .timeout := by
  intro fuel
  induction fuel with
  | zero => intro i a h; omega
  | succ fuel ih =>
    intro i a _ hb
    unfold erase_loop
    split
    · refine bind_no_timeout _ _ (swap_slots_no_timeout _ _ _) (fun a1 hs => ?_)
      obtain ⟨h0, _, _, h3, hl⟩ := swap_slots_inv hs
      have h4 : (i.add 1).m_ptr = i.m_ptr + 1 := rfl
      have h5 : i.post_inc.2.m_ptr = i.m_ptr + 1 := rfl
      have := hb h0
      exact ih _ _ (by omega) (fun _ => by rw [h5, hl]; omega)
    · simp

/-- The iteration bound of the loop of `erase(first, last)` is never the reason it stops. -/
theorem erase_range_loop_no_timeout (stop : MyForwardIterator) : ∀ (fuel : Nat)
    (old_pos new_pos : MyForwardIterator) (a : List T), 1 ≤ fuel →
    (0 ≤ old_pos.m_ptr → (a.length : Int) - old_pos.m_ptr < fuel) →
    erase_range_loop stop fuel old_pos new_pos a ≠ .error .timeout := by
  intro fuel
  induction fuel with
  | zero => intro i j a h; omega
  | succ fuel ih =>
    intro old_pos new_pos a _ hb
    unfold erase_range_loop
    split
    · refine bind_no_timeout _ _ (swap_slots_no_timeout _ _ _) (fun a1 hs => ?_)
      obtain ⟨_, _, h0, h3, hl⟩ := swap_slots_inv hs
      have h5 : old_pos.post_inc.2.m_ptr = old_pos.m_ptr + 1 := rfl
      have := hb h0
      exact ih _ _ _ (by omega) (fun _ => by rw [h5, hl]; omega)
    · simp

/-- Adequacy of the iteration bound in `erase`: for every state and position,
`erase(pos)` ends with a result or with an access outside the array. -/
theorem erase_no_timeout (v : vector T) (pos : MyForwardIterator) :
    v.erase pos ≠ .error .timeout := by
  unfold erase
  refine bind_no_timeout _ _ ?_ (fun a _ => by simp [pure, Except.pure])
  exact erase_loop_no_timeout _ _ _ _ (Nat.le_add_left 1 _)
    (fun h => by push_cast; omega)

/-- Adequacy of the iteration bound in `erase_range`. -/
theorem erase_range_no_timeout (v : vector T) (first last : MyForwardIterator) :
    v.erase_range first last ≠ .error .timeout := by
  unfold erase_range
  refine bind_no_timeout _ _ ?_ (fun a _ => ?_)
  · exact erase_range_loop_no_timeout _ _ _ _ _ (Nat.le_add_left 1 _)
      (fun h => by push_cast; omega)
  · refine bind_no_timeout _ _ ?_ (fun d _ => by simp [pure, Except.pure])
    unfold std_distance
    split <;> simp

theorem live_getElem? (v : vector T) (i : Nat) (hi : i < v.m_end) :
    v.live[i]? = v.m_storage[i]? := by
  unfold live; rw [List.getElem?_take, if_pos hi]

theorem at_result (v : vector T) (pos : Nat) (hwf : v.wf) :
    (v.«at» pos).1 = v ∧
    (pos ≥ v.m_end → (v.«at» pos).2 = .error .out_of_range) ∧
    (pos < v.m_end → ∃ x : T, (v.«at» pos).2 = .ok x ∧ v.live[pos]? = some x) := by
  have h1 := hwf.1
  have h2 := hwf.2.1
  refine ⟨?_, ?_, ?_⟩
  · unfold vector.«at»; split <;> rfl
  · intro h
    have hc : pos < 0 ∨ pos ≥ v.m_end := Or.inr h
    simp only [vector.«at», hc, if_true]
  · intro h
    have hc : ¬ (pos < 0 ∨ pos ≥ v.m_end) := by omega
    have hl : pos < v.m_storage.length := by omega
    refine ⟨v.m_storage.get ⟨pos, hl⟩, ?_, ?_⟩
    · simp only [vector.«at», hc, if_false, load_ok hl]
    · rw [live_getElem? v pos h]; exact (some_get_eq hl rfl).symm

/-- C12: `at(pos)` throws `std::out_of_range` exactly when `pos ≥ size`; for
`pos < size` it returns the live element at index `pos` (so `at(size - 1)`
succeeds on a non-empty vector and `at(size)` throws); the vector is the same
after the call, in particular when the call throws. -/
theorem C12_at (v : vector T) (pos : Nat) (hwf : v.wf) :
    ((v.«at» pos).2 = .error .out_of_range ↔ pos ≥ v.size) ∧
    (pos < v.size → ∃ x : T, (v.«at» pos).2 = .ok x ∧ v.live[pos]? = some x) ∧
    (1 ≤ v.size → ∃ x : T, (v.«at» (v.size - 1)).2 = .ok x ∧ v.live[v.size - 1]? = some x) ∧
    (v.«at» v.size).2 = .error .out_of_range ∧
    (v.«at» pos).1 = v := by
  obtain ⟨hs, hge, hlt⟩ := at_result v pos hwf
  refine ⟨⟨?_, hge⟩, hlt, ?_, ?_, hs⟩
  · intro h
    by_contra hc
    obtain ⟨x, hx, _⟩ := hlt (by show pos < v.m_end; unfold size at hc; omega)
    rw [hx] at h
    cases h
  · intro h1
    exact (at_result v (v.size - 1) hwf).2.2 (by show v.m_end - 1 < v.m_end; unfold size at h1; omega)
  · exact (at_result v v.size hwf).2.1 (Nat.le_refl _)

/-- C12 at `{1,2,3}` and `pos = 1`. -/
theorem C12_at_witness :
    (⟨3, 3, [1, 2, 3]⟩ : vector Int).wf ∧
    (((⟨3, 3, [1, 2, 3]⟩ : vector Int).«at» 1).2 = .error .out_of_range
      ↔ 1 ≥ (⟨3, 3, [1, 2, 3]⟩ : vector Int).size) ∧
    (1 < (⟨3, 3, [1, 2, 3]⟩ : vector Int).size →
      ∃ x : Int, ((⟨3, 3, [1, 2, 3]⟩ : vector Int).«at» 1).2 = .ok x ∧
        (⟨3, 3, [1, 2, 3]⟩ : vector Int).live[1]? = some x) ∧
    (1 ≤ (⟨3, 3, [1, 2, 3]⟩ : vector Int).size →
      ∃ x : Int, ((⟨3, 3, [1, 2, 3]⟩ : vector Int).«at»
          ((⟨3, 3, [1, 2, 3]⟩ : vector Int).size - 1)).2 = .ok x ∧
        (⟨3, 3, [1, 2, 3]⟩ : vector Int).live[(⟨3, 3, [1, 2, 3]⟩ : vector Int).size - 1]?
          = some x) ∧
    ((⟨3, 3, [1, 2, 3]⟩ : vector Int).«at» (⟨3, 3, [1, 2, 3]⟩ : vector Int).size).2
      = .error .out_of_range ∧
    ((⟨3, 3, [1, 2, 3]⟩ : vector Int).«at» 1).1 = ⟨3, 3, [1, 2, 3]⟩ :=
  ⟨by decide, C12_at ⟨3, 3, [1, 2, 3]⟩ 1 (by decide)⟩

theorem pop_back_result (v : vector T) (hwf : v.wf) :
    (v.m_end = 0 → v.pop_back = (v, .error .length_error)) ∧
    (v.m_end ≠ 0 → v.pop_back = (⟨v.m_end - 1, v.m_capacity, v.m_storage⟩, .ok ())) := by
  have h2 := hwf.2.1
  have h3 := hwf.2.2
  constructor
  · intro h
    have he : v.empty = true := by simp [empty, h]
    simp only [pop_back, he, if_true]
  · intro h
    have he : v.empty = false := by simp [empty, h]
    have hd : to_size ((v.m_end : Int) - 1) = v.m_end - 1 := to_size_pred (by omega) (by omega)
    simp only [pop_back, he, hd]
    simp

/-- C13: `pop_back()` throws `std::length_error` exactly when `size = 0`, and
then leaves size, capacity and buffer as they were; otherwise it returns
normally, the size drops by one, the capacity and the whole buffer are
unchanged (so the first `size - 1` live elements are), and the removed value is
still in the buffer at the index equal to the new size. -/
theorem C13_pop_back (v : vector T) (hwf : v.wf) :
    (v.pop_back.2 = .error .length_error ↔ v.size = 0) ∧
    (v.size = 0 → v.pop_back.1 = v) ∧
    (v.size ≠ 0 → v.pop_back.2 = .ok () ∧ v.pop_back.1.size = v.size - 1 ∧
      v.pop_back.1.capacity = v.capacity ∧ v.pop_back.1.m_storage = v.m_storage ∧
      v.pop_back.1.live = v.live.take (v.size - 1) ∧
      v.pop_back.1.m_storage[v.pop_back.1.size]? = v.live[v.size - 1]?) := by
  obtain ⟨h0, h1⟩ := pop_back_result v hwf
  refine ⟨⟨?_, fun h => by rw [h0 h]⟩, fun h => by rw [h0 h], ?_⟩
  · intro h
    by_contra hc
    rw [h1 hc] at h
    cases h
  · intro hc
    have hc1 : v.m_end ≠ 0 := hc
    rw [h1 hc]
    refine ⟨rfl, rfl, rfl, rfl, ?_, ?_⟩
    · show List.take (v.m_end - 1) v.m_storage = List.take (v.m_end - 1) (List.take v.m_end v.m_storage)
      rw [List.take_take]
      congr 1
      omega
    · show v.m_storage[v.m_end - 1]? = v.live[v.m_end - 1]?
      rw [live_getElem? v _ (by omega)]

/-- C13 at `{1,2,3}`. -/
theorem C13_pop_back_witness :
    (⟨3, 3, [1, 2, 3]⟩ : vector Int).wf ∧
    (((⟨3, 3, [1, 2, 3]⟩ : vector Int).pop_back.2 = .error .length_error
      ↔ (⟨3, 3, [1, 2, 3]⟩ : vector Int).size = 0) ∧
    ((⟨3, 3, [1, 2, 3]⟩ : vector Int).size = 0 →
      (⟨3, 3, [1, 2, 3]⟩ : vector Int).pop_back.1 = ⟨3, 3, [1, 2, 3]⟩) ∧
    ((⟨3, 3, [1, 2, 3]⟩ : vector Int).size ≠ 0 →
      (⟨3, 3, [1, 2, 3]⟩ : vector Int).pop_back.2 = .ok () ∧
      (⟨3, 3, [1, 2, 3]⟩ : vector Int).pop_back.1.size
        = (⟨3, 3, [1, 2, 3]⟩ : vector Int).size - 1 ∧
      (⟨3, 3, [1, 2, 3]⟩ : vector Int).pop_back.1.capacity
        = (⟨3, 3, [1, 2, 3]⟩ : vector Int).capacity ∧
      (⟨3, 3, [1, 2, 3]⟩ : vector Int).pop_back.1.m_storage
        = (⟨3, 3, [1, 2, 3]⟩ : vector Int).m_storage ∧
      (⟨3, 3, [1, 2, 3]⟩ : vector Int).pop_back.1.live
        = (⟨3, 3, [1, 2, 3]⟩ : vector Int).live.take ((⟨3, 3, [1, 2, 3]⟩ : vector Int).size - 1) ∧
      (⟨3, 3, [1, 2, 3]⟩ : vector Int).pop_back.1.m_storage[
          (⟨3, 3, [1, 2, 3]⟩ : vector Int).pop_back.1.size]?
        = (⟨3, 3, [1, 2, 3]⟩ : vector Int).live[(⟨3, 3, [1, 2, 3]⟩ : vector Int).size - 1]?)) :=
  ⟨by decide, C13_pop_back ⟨3, 3, [1, 2, 3]⟩ (by decide)⟩

/-- What the four accessors do on a non-empty vector, and what the two `const`
ones do on an empty one. -/
theorem front_back_result (v : vector T) (hwf : v.wf) :
    (v.m_end = 0 → v.front_const = (v, .error .length_error) ∧
      v.back_const = (v, .error .length_error)) ∧
    (1 ≤ v.m_end → ∃ x y : T, v.live[0]? = some x ∧ v.live[v.m_end - 1]? = some y ∧
      v.front_const = (v, .ok x) ∧ v.front = (v, .ok x) ∧
      v.back_const = (v, .ok y) ∧ v.back = (v, .ok y)) := by
  have h1 := hwf.1
  have h2 := hwf.2.1
  have h3 := hwf.2.2
  constructor
  · intro h
    have he : v.empty = true := by simp [empty, h]
    simp only [front_const, back_const, he, if_true, and_self]
  · intro h
    have he : v.empty = false := by simp [empty]; omega
    have hd : to_size ((v.m_end : Int) - 1) = v.m_end - 1 := to_size_pred (by omega) (by omega)
    have hl0 : 0 < v.m_storage.length := by omega
    have hl1 : v.m_end - 1 < v.m_storage.length := by omega
    refine ⟨v.m_storage.get ⟨0, hl0⟩, v.m_storage.get ⟨v.m_end - 1, hl1⟩, ?_, ?_, ?_, ?_, ?_, ?_⟩
    · rw [live_getElem? v 0 (by omega)]; exact (some_get_eq hl0 rfl).symm
    · rw [live_getElem? v _ (by omega)]; exact (some_get_eq hl1 rfl).symm
    · simp only [front_const, he, load_ok hl0]; simp
    · simp only [front, load_ok hl0]
    · simp only [back_const, he, hd, load_ok hl1]; simp
    · simp only [back, hd, load_ok hl1]

/-- C14 (failing input): on a default-constructed vector the non-`const`
`back()` and `front()` do not throw `std::length_error`: `back()` reads
`m_storage[2 ^ 64 - 1]` and `front()` reads `m_storage[0]` of an array of no
slots; on an emptied vector that still has capacity, `front()` returns the
stale value of slot `0`.  The `const` overloads throw in all these states. -/
theorem C14_nonconst_on_empty :
    (mk_sized 0 : Except Fault (vector Int)) = .ok ⟨0, 0, []⟩ ∧
    (⟨0, 0, []⟩ : vector Int).back.2 = .error (.out_of_bounds (2 ^ 64 - 1)) ∧
    (⟨0, 0, []⟩ : vector Int).front.2 = .error (.out_of_bounds 0) ∧
    (clear (⟨4, 4, [9, 8, 7, 6]⟩ : vector Int)).front.2 = .ok 9 ∧
    (clear (⟨4, 4, [9, 8, 7, 6]⟩ : vector Int)).back.2 = .error (.out_of_bounds (2 ^ 64 - 1)) ∧
    (⟨0, 0, []⟩ : vector Int).back_const.2 = .error .length_error ∧
    (⟨0, 0, []⟩ : vector Int).front_const.2 = .error .length_error ∧
    (clear (⟨4, 4, [9, 8, 7, 6]⟩ : vector Int)).front_const.2 = .error .length_error ∧
    (clear (⟨4, 4, [9, 8, 7, 6]⟩ : vector Int)).back_const.2 = .error .length_error := by
  decide

theorem reserve_result [Element T] (v : vector T) (n : Nat) (hwf : v.wf) :
    ∃ w : vector T, v.reserve n = .ok w ∧ w.m_end = v.m_end ∧ w.live = v.live ∧
      (v.m_capacity < n → w.m_capacity = n ∧ w.m_storage.length = n) ∧
      (n ≤ v.m_capacity → w = v) := by
  have h1 := hwf.1
  have h2 := hwf.2.1
  have hl := live_length v hwf
  by_cases h : v.m_capacity < n
  · refine ⟨_, reserve_grow v n hwf h, rfl, ?_, fun _ => ⟨rfl, ?_⟩, fun h' => by omega⟩
    · show List.take v.m_end _ = _
      rw [List.take_append_of_le_length (by omega), List.take_of_length_le (by omega)]
    · show (v.live ++ List.drop v.m_end (new_array T n)).length = n
      simp only [List.length_append, List.length_drop, new_array_length, hl]; omega
  · exact ⟨v, reserve_noop v n (by omega), rfl, rfl, fun h' => absurd h' h, fun _ => rfl⟩

/-- C15: `reserve(n)` returns normally and leaves the size and the live elements
unchanged; the capacity becomes exactly `n` when `n` exceeds the old capacity,
and the vector is left as it was when `n ≤` old capacity; so the capacity
never goes down. -/
theorem C15_reserve [Element T] (v : vector T) (n : Nat) (hwf : v.wf) :
    ∃ w : vector T, v.reserve n = .ok w ∧ w.size = v.size ∧ w.live = v.live ∧
      (n > v.capacity → w.capacity = n) ∧
      (n ≤ v.capacity → w = v) ∧
      v.capacity ≤ w.capacity := by
  obtain ⟨w, hw, he, hl, hg, hs⟩ := reserve_result v n hwf
  refine ⟨w, hw, he, hl, fun h => (hg h).1, hs, ?_⟩
  by_cases h : v.m_capacity < n
  · show v.m_capacity ≤ w.m_capacity
    rw [(hg h).1]; omega
  · rw [hs (by omega)]

/-- C15 at the vector `{1,2}` with capacity 2 and `n = 5`. -/
theorem C15_reserve_witness :
    (⟨2, 2, [1, 2]⟩ : vector Int).wf ∧
    ∃ w : vector Int, (⟨2, 2, [1, 2]⟩ : vector Int).reserve 5 = .ok w ∧
      w.size = (⟨2, 2, [1, 2]⟩ : vector Int).size ∧
      w.live = (⟨2, 2, [1, 2]⟩ : vector Int).live ∧
      (5 > (⟨2, 2, [1, 2]⟩ : vector Int).capacity → w.capacity = 5) ∧
      (5 ≤ (⟨2, 2, [1, 2]⟩ : vector Int).capacity → w = ⟨2, 2, [1, 2]⟩) ∧
      (⟨2, 2, [1, 2]⟩ : vector Int).capacity ≤ w.capacity :=
  ⟨by decide, C15_reserve ⟨2, 2, [1, 2]⟩ 5 (by decide)⟩

theorem shrink_to_fit_result [Element T] (v : vector T) (hwf : v.wf) :
    ∃ w : vector T, v.shrink_to_fit = .ok w ∧ w.wf ∧ w.m_end = v.m_end ∧
      w.m_capacity = v.m_end ∧ w.live = v.live ∧ (v.m_end = v.m_capacity → w = v) := by
  have h1 := hwf.1
  have h2 := hwf.2.1
  have h3 := hwf.2.2
  have hl := live_length v hwf
  by_cases h : v.m_end < v.m_capacity
  · have hle : v.m_end ≤ v.m_storage.length := by omega
    have hc : 0 + (List.take v.m_end v.m_storage).length ≤ (new_array T v.m_end).length := by
      rw [new_array_length, List.length_take]; omega
    refine ⟨⟨v.m_end, v.m_end, v.live⟩, ?_, ?_, rfl, rfl, ?_, fun h' => by omega⟩
    · simp only [shrink_to_fit, h, if_true, read_live, hle, bind, Except.bind,
        std_copy_ok _ _ 0 hc, pure, Except.pure, live]
      simp [new_array_length, hle]
    · exact ⟨by show v.m_end ≤ v.live.length; omega, Nat.le_refl _, by show v.m_end < 2 ^ 64; omega⟩
    · show List.take v.m_end v.live = v.live
      exact List.take_of_length_le (by omega)
  · have he : v.m_end = v.m_capacity := by omega
    refine ⟨v, ?_, hwf, rfl, he.symm, rfl, fun _ => rfl⟩
    simp only [shrink_to_fit, h, if_false, pure, Except.pure]

/-- C16: `shrink_to_fit()` returns normally with capacity = size, the size and
the live elements unchanged; a second `shrink_to_fit()` returns the very state
the first one returned. -/
theorem C16_shrink_to_fit [Element T] (v : vector T) (hwf : v.wf) :
    ∃ w : vector T, v.shrink_to_fit = .ok w ∧ w.capacity = w.size ∧ w.size = v.size ∧
      w.live = v.live ∧ w.shrink_to_fit = .ok w ∧
      (v.shrink_to_fit >>= fun u => u.shrink_to_fit) = v.shrink_to_fit := by
  obtain ⟨w, hw, hwwf, he, hc, hl, _⟩ := shrink_to_fit_result v hwf
  obtain ⟨u, hu, _, _, _, _, hsame⟩ := shrink_to_fit_result w hwwf
  have huw : u = w := hsame (by rw [hc, he])
  rw [huw] at hu
  refine ⟨w, hw, by show w.m_capacity = w.m_end; rw [hc, he], he, hl, hu, ?_⟩
  rw [hw]
  exact hu

/-- C16 at the vector `{9,8}` with capacity 4. -/
theorem C16_shrink_to_fit_witness :
    (⟨2, 4, [9, 8, 7, 6]⟩ : vector Int).wf ∧
    ∃ w : vector Int, (⟨2, 4, [9, 8, 7, 6]⟩ : vector Int).shrink_to_fit = .ok w ∧
      w.capacity = w.size ∧ w.size = (⟨2, 4, [9, 8, 7, 6]⟩ : vector Int).size ∧
      w.live = (⟨2, 4, [9, 8, 7, 6]⟩ : vector Int).live ∧ w.shrink_to_fit = .ok w ∧
      ((⟨2, 4, [9, 8, 7, 6]⟩ : vector Int).shrink_to_fit >>= fun u => u.shrink_to_fit)
        = (⟨2, 4, [9, 8, 7, 6]⟩ : vector Int).shrink_to_fit :=
  ⟨by decide, C16_shrink_to_fit ⟨2, 4, [9, 8, 7, 6]⟩ (by decide)⟩

theorem std_copy_front (src dst : List T) (h : src.length ≤ dst.length) :
    std_copy src dst 0 = .ok (src ++ dst.drop src.length) := by
  rw [std_copy_ok src dst 0 (by omega)]
  simp

theorem take_copy_front (src dst : List T) :
    (src ++ dst.drop src.length).take src.length = src := by
  rw [List.take_append_of_le_length (Nat.le_refl _), List.take_of_length_le (Nat.le_refl _)]

theorem assign_fill_result [Element T] (v : vector T) (n : Nat) (x : T) (hwf : v.wf) :
    ∃ w : vector T, v.assign_fill n x = .ok w ∧ w.m_end = n ∧ w.live = List.replicate n x ∧
      w.m_capacity = max v.m_capacity n ∧ w.m_capacity ≤ w.m_storage.length := by
  have h1 := hwf.1
  by_cases h : v.m_capacity < n
  · have hc : 0 ≤ n ∧ n ≤ (new_array T n).length := by rw [new_array_length]; omega
    refine ⟨⟨n, n, List.take 0 (new_array T n) ++ List.replicate (n - 0) x
      ++ List.drop n (new_array T n)⟩, ?_, rfl, ?_, ?_, ?_⟩
    · simp only [assign_fill, h, if_true, std_fill, hc, and_self, bind, Except.bind, pure,
        Except.pure]
    · show List.take n _ = _
      simp
    · show n = max v.m_capacity n; omega
    · show n ≤ _
      simp [new_array_length]
  · have hc : 0 ≤ n ∧ n ≤ v.m_storage.length := by omega
    refine ⟨⟨n, v.m_capacity, List.take 0 v.m_storage ++ List.replicate (n - 0) x
      ++ List.drop n v.m_storage⟩, ?_, rfl, ?_, ?_, ?_⟩
    · simp only [assign_fill, h, if_false, std_fill, hc, and_self, if_true, bind, Except.bind,
        pure, Except.pure]
    · show List.take n _ = _
      simp
    · show v.m_capacity = max v.m_capacity n; omega
    · show v.m_capacity ≤ _
      simp; omega

theorem assign_ilist_result [Element T] (v : vector T) (il : List T) (hwf : v.wf) :
    ∃ w : vector T, v.assign_ilist il = .ok w ∧ w.m_end = il.length ∧ w.live = il ∧
      w.m_capacity = max v.m_capacity il.length ∧ w.m_capacity ≤ w.m_storage.length := by
  have h1 := hwf.1
  by_cases h : v.m_capacity < il.length
  · have hc : il.length ≤ (new_array T il.length).length := by rw [new_array_length]
    refine ⟨⟨il.length, il.length, il ++ (new_array T il.length).drop il.length⟩,
      ?_, rfl, take_copy_front _ _, ?_, ?_⟩
    · simp only [assign_ilist, h, if_true, std_copy_front _ _ hc, bind, Except.bind, pure,
        Except.pure]
    · show il.length = max v.m_capacity il.length; omega
    · show il.length ≤ _
      simp
  · have hc : il.length ≤ v.m_storage.length := by omega
    refine ⟨⟨il.length, v.m_capacity, il ++ v.m_storage.drop il.length⟩,
      ?_, rfl, take_copy_front _ _, ?_, ?_⟩
    · simp only [assign_ilist, h, if_false, std_copy_front _ _ hc, bind, Except.bind, pure,
        Except.pure]
    · show v.m_capacity = max v.m_capacity il.length; omega
    · show v.m_capacity ≤ _
      simp; omega

theorem assign_range_result [Element T] (v : vector T) (block : List T) (hwf : v.wf)
    (hlen : block.length < 2 ^ 64) :
    ∃ w : vector T, v.assign_range block = .ok w ∧ w.m_end = block.length ∧ w.live = block ∧
      w.m_capacity = max v.m_capacity block.length ∧ w.m_capacity ≤ w.m_storage.length := by
  have h1 := hwf.1
  have hsz : to_size (block.length : Int) = block.length := to_size_of_lt hlen
  by_cases h : v.m_capacity < block.length
  · have hc : block.length ≤ (new_array T block.length).length := by rw [new_array_length]
    refine ⟨⟨block.length, block.length, block ++ (new_array T block.length).drop block.length⟩,
      ?_, rfl, take_copy_front _ _, ?_, ?_⟩
    · simp only [assign_range, hsz, h, if_true, std_copy_front _ _ hc, bind, Except.bind, pure,
        Except.pure]
    · show block.length = max v.m_capacity block.length; omega
    · show block.length ≤ _
      simp
  · have hc : block.length ≤ v.m_storage.length := by omega
    refine ⟨⟨block.length, v.m_capacity, block ++ v.m_storage.drop block.length⟩,
      ?_, rfl, take_copy_front _ _, ?_, ?_⟩
    · simp only [assign_range, hsz, h, if_false, std_copy_front _ _ hc, bind, Except.bind, pure,
        Except.pure]
    · show v.m_capacity = max v.m_capacity block.length; omega
    · show v.m_capacity ≤ _
      simp; omega

/-- For a `value` that is no element of the vector itself, and a list or block
held outside it: each of `assign(count, value)`, `assign(initializer-list)` and
`assign(first, last)` returns normally and replaces the whole live content: the
size is the incoming count `n`, the live elements are `n` copies of `value`
(first form) or the incoming elements in order (list and range forms), and the
capacity is `max(old capacity, n)`. -/
theorem assign_value [Element T] (v : vector T) (n : Nat) (x : T) (L : List T) (hwf : v.wf)
    (hL : L.length < 2 ^ 64) :
    (∃ w : vector T, v.assign_fill n x = .ok w ∧ w.size = n ∧ w.live = List.replicate n x ∧
      w.capacity = max v.capacity n) ∧
    (∃ w : vector T, v.assign_ilist L = .ok w ∧ w.size = L.length ∧ w.live = L ∧
      w.capacity = max v.capacity L.length) ∧
    (∃ w : vector T, v.assign_range L = .ok w ∧ w.size = L.length ∧ w.live = L ∧
      w.capacity = max v.capacity L.length) := by
  obtain ⟨w1, h1, e1, l1, c1, _⟩ := assign_fill_result v n x hwf
  obtain ⟨w2, h2, e2, l2, c2, _⟩ := assign_ilist_result v L hwf
  obtain ⟨w3, h3, e3, l3, c3, _⟩ := assign_range_result v L hwf hL
  exact ⟨⟨w1, h1, e1, l1, c1⟩, ⟨w2, h2, e2, l2, c2⟩, ⟨w3, h3, e3, l3, c3⟩⟩

end vector

namespace vector
variable {T : Type}

theorem read_live_ok (v : vector T) (hwf : v.wf) : v.read_live = .ok v.live := by
  have h : v.m_end ≤ v.m_storage.length := by have := hwf.1; have := hwf.2.1; omega
  simp only [read_live, h, if_true, live]

theorem copy_assign_result [Element T] (d s : vector T) (hd : d.wf) (hs : s.wf) :
    ∃ w : vector T, copy_assign d s false = .ok w ∧ w.wf ∧ w.m_end = s.m_end ∧
      w.m_capacity = s.m_end ∧ w.live = s.live ∧
      w.m_storage = s.live ++
        (if d.m_capacity < s.m_end then new_array T s.m_end else d.m_storage).drop s.m_end := by
  have h1 := hd.1
  have hl := live_length s hs
  have hs3 := hs.2.2
  have hs2 := hs.2.1
  have hlen : s.live.length ≤
      (if d.m_capacity < s.m_end then new_array T s.m_end else d.m_storage).length := by
    split_ifs with h
    · rw [new_array_length, hl]
    · rw [hl]; omega
  refine ⟨⟨s.m_end, s.m_end, s.live ++
    (if d.m_capacity < s.m_end then new_array T s.m_end else d.m_storage).drop s.live.length⟩,
    ?_, ?_, rfl, rfl, ?_, by rw [hl]⟩
  · simp only [copy_assign, Bool.not_false, if_true, read_live_ok s hs, bind, Except.bind,
      std_copy_front _ _ hlen, pure, Except.pure]
  · refine ⟨?_, Nat.le_refl _, by show s.m_end < 2 ^ 64; omega⟩
    show s.m_end ≤ _
    simp only [List.length_append, hl]; omega
  · show List.take s.m_end _ = _
    rw [← hl]; exact take_copy_front _ _

theorem self_assign_result [Element T] (d : vector T) :
    copy_assign d d true = .ok ⟨d.m_end, d.m_end, d.m_storage⟩ := by
  simp only [copy_assign, Bool.not_true, bind, Except.bind, pure, Except.pure]
  rfl

theorem ilist_assign_result [Element T] (d : vector T) (il : List T) (hd : d.wf) :
    ∃ w : vector T, ilist_assign d il = .ok w ∧ w.m_end = il.length ∧
      w.m_capacity = il.length ∧ w.live = il ∧ w.m_capacity ≤ w.m_storage.length := by
  have h1 := hd.1
  have hlen : il.length ≤
      (if d.m_capacity < il.length then new_array T il.length else d.m_storage).length := by
    split_ifs with h
    · rw [new_array_length]
    · omega
  refine ⟨⟨il.length, il.length, il ++
    (if d.m_capacity < il.length then new_array T il.length else d.m_storage).drop il.length⟩,
    ?_, rfl, rfl, take_copy_front _ _, ?_⟩
  · simp only [ilist_assign, std_copy_front _ _ hlen, bind, Except.bind, pure, Except.pure]
  · show il.length ≤ _
    simp

theorem mk_copy_result [Element T] (s : vector T) (hs : s.wf) :
    ∃ w : vector T, mk_copy s = .ok w ∧ w.wf ∧ w.m_end = s.m_end ∧
      w.m_capacity = s.m_capacity ∧ w.live = s.live ∧
      w.m_storage = s.live ++ (new_array T s.m_capacity).drop s.m_end := by
  have hl := live_length s hs
  have hs2 := hs.2.1
  have hlen : s.live.length ≤ (new_array T s.m_capacity).length := by
    rw [new_array_length, hl]; exact hs2
  refine ⟨⟨s.m_end, s.m_capacity, s.live ++ (new_array T s.m_capacity).drop s.live.length⟩,
    ?_, ?_, rfl, rfl, ?_, by rw [hl]⟩
  · simp only [mk_copy, read_live_ok s hs, bind, Except.bind, std_copy_front _ _ hlen, pure,
      Except.pure]
  · refine ⟨?_, hs2, hs.2.2⟩
    show s.m_capacity ≤ _
    simp only [List.length_append, List.length_drop, new_array_length, hl]; omega
  · show List.take s.m_end _ = _
    rw [← hl]; exact take_copy_front _ _

end vector

namespace Store
variable {T : Type}

theorem read_ok_iff (st : Store T) (p : Nat) (a : List T) :
    st.read p = .ok a ↔ st.arrays[p]? = some (some a) := by
  unfold read
  split
  · rename_i b hb
    rw [hb]
    constructor
    · intro h; injection h with h; rw [h]
    · intro h; injection h with h; injection h with h; rw [h]
  · rename_i hn
    constructor
    · intro h; cases h
    · intro h; exact absurd h (hn a)

theorem read_lt {st : Store T} {p : Nat} {a : List T} (h : st.read p = .ok a) :
    p < st.arrays.length := by
  rw [read_ok_iff] at h
  by_contra hc
  rw [List.getElem?_eq_none (by omega)] at h
  cases h

theorem read_write_same (st : Store T) (p : Nat) (a : List T) (h : p < st.arrays.length) :
    (st.write p a).read p = .ok a := by
  rw [read_ok_iff]
  simp [write, List.getElem?_set, h]

theorem read_write_ne (st : Store T) (p q : Nat) (a : List T) (h : p ≠ q) :
    (st.write p a).read q = st.read q := by
  unfold read write
  simp only [List.getElem?_set_ne h]

theorem read_delete_ne (st : Store T) (p q : Nat) (h : p ≠ q) :
    (st.delete_arr p).read q = st.read q := by
  unfold read delete_arr
  simp only [List.getElem?_set_ne h]

theorem read_new_old [Element T] (st : Store T) (n q : Nat) (a : List T)
    (h : st.read q = .ok a) : (st.new_arr n).1.read q = .ok a := by
  have hq := read_lt h
  rw [read_ok_iff] at h ⊢
  simp only [new_arr]
  rw [List.getElem?_append_left hq]
  exact h

theorem read_new_fresh [Element T] (st : Store T) (n : Nat) :
    (st.new_arr n).1.read (st.new_arr n).2 = .ok (new_array T n) := by
  rw [read_ok_iff]
  simp [new_arr]

theorem length_delete (st : Store T) (p : Nat) :
    (st.delete_arr p).arrays.length = st.arrays.length := by
  simp [delete_arr]

end Store

namespace vector_obj
variable {T : Type}

theorem view_of_read {st : Store T} {o : vector_obj} {A : List T}
    (h : st.read o.m_storage = .ok A) :
    o.view st = .ok ⟨o.m_end, o.m_capacity, A⟩ := by
  simp only [view, h, bind, Except.bind, pure, Except.pure]

theorem obj_copy_assign_result [Element T] (st : Store T) (a b : vector_obj) (A B : List T)
    (hA : st.read a.m_storage = .ok A) (hB : st.read b.m_storage = .ok B)
    (hne : a.m_storage ≠ b.m_storage)
    (wfA : (⟨a.m_end, a.m_capacity, A⟩ : vector T).wf)
    (wfB : (⟨b.m_end, b.m_capacity, B⟩ : vector T).wf) :
    ∃ (st1 : Store T) (b1 : vector_obj) (B1 : List T),
      copy_assign st b a false = .ok (st1, b1) ∧
      st1.read a.m_storage = .ok A ∧ st1.read b1.m_storage = .ok B1 ∧
      b1.m_storage ≠ a.m_storage ∧
      vector.copy_assign ⟨b.m_end, b.m_capacity, B⟩ ⟨a.m_end, a.m_capacity, A⟩ false
        = .ok ⟨b1.m_end, b1.m_capacity, B1⟩ := by
  obtain ⟨w, hw, _, hwe, hwc, _, hws⟩ := vector.copy_assign_result _ _ wfB wfA
  have hla : (⟨a.m_end, a.m_capacity, A⟩ : vector T).live.length = a.m_end :=
    vector.live_length _ wfA
  have hwval : w = ⟨a.m_end, a.m_end, w.m_storage⟩ := by
    cases w; simp only at hwe hwc; subst hwe; subst hwc; rfl
  have halt := Store.read_lt hA
  have hblt := Store.read_lt hB
  have hb1 : b.m_capacity ≤ B.length := wfB.1
  have ha2 : a.m_end ≤ a.m_capacity := wfA.2.1
  by_cases h : b.m_capacity < a.m_end
  · -- the array of `b` is released and a new one allocated
    have hA1 : ((st.delete_arr b.m_storage).new_arr a.m_end).1.read a.m_storage = .ok A :=
      Store.read_new_old _ _ _ _ (by rw [Store.read_delete_ne _ _ _ (Ne.symm hne)]; exact hA)
    have hp : ((st.delete_arr b.m_storage).new_arr a.m_end).2 = st.arrays.length := by
      simp [Store.new_arr, Store.length_delete]
    have hlen : (⟨a.m_end, a.m_capacity, A⟩ : vector T).live.length
        ≤ (new_array T a.m_end).length := by rw [new_array_length, hla]
    have hws1 : w.m_storage = (⟨a.m_end, a.m_capacity, A⟩ : vector T).live ++
        (new_array T a.m_end).drop (⟨a.m_end, a.m_capacity, A⟩ : vector T).live.length := by
      rw [hws, hla]; simp only [h, if_true]
    refine ⟨(((st.delete_arr b.m_storage).new_arr a.m_end).1.write
        ((st.delete_arr b.m_storage).new_arr a.m_end).2 w.m_storage),
      ⟨a.m_end, a.m_end, ((st.delete_arr b.m_storage).new_arr a.m_end).2⟩, w.m_storage,
      ?_, ?_, ?_, ?_, ?_⟩
    · simp only [copy_assign, Bool.not_false, if_true, h, view_of_read hA1,
        vector.read_live_ok _ wfA, Store.read_new_fresh, vector.std_copy_front _ _ hlen,
        bind, Except.bind, pure, Except.pure, hws1]
    · rw [Store.read_write_ne _ _ _ _ (by rw [hp]; omega)]; exact hA1
    · apply Store.read_write_same
      rw [hp]; simp [Store.new_arr, Store.length_delete]
    · show ((st.delete_arr b.m_storage).new_arr a.m_end).2 ≠ a.m_storage
      rw [hp]; omega
    · rw [hw]; exact congrArg _ hwval
  · have hlen : (⟨a.m_end, a.m_capacity, A⟩ : vector T).live.length ≤ B.length := by
      rw [hla]; omega
    have hws1 : w.m_storage = (⟨a.m_end, a.m_capacity, A⟩ : vector T).live ++
        B.drop (⟨a.m_end, a.m_capacity, A⟩ : vector T).live.length := by
      rw [hws, hla]; simp only [h, if_false]
    refine ⟨st.write b.m_storage w.m_storage, ⟨a.m_end, a.m_end, b.m_storage⟩, w.m_storage,
      ?_, ?_, ?_, ?_, ?_⟩
    · simp only [copy_assign, Bool.not_false, if_true, h, if_false, view_of_read hA,
        vector.read_live_ok _ wfA, hB, vector.std_copy_front _ _ hlen,
        bind, Except.bind, pure, Except.pure, hws1]
    · rw [Store.read_write_ne _ _ _ _ (Ne.symm hne)]; exact hA
    · exact Store.read_write_same _ _ _ hblt
    · exact Ne.symm hne
    · rw [hw]; exact congrArg _ hwval

theorem obj_mk_copy_result [Element T] (st : Store T) (a : vector_obj) (A : List T)
    (hA : st.read a.m_storage = .ok A)
    (wfA : (⟨a.m_end, a.m_capacity, A⟩ : vector T).wf) :
    ∃ (st1 : Store T) (b1 : vector_obj) (B1 : List T),
      mk_copy st a = .ok (st1, b1) ∧
      st1.read a.m_storage = .ok A ∧ st1.read b1.m_storage = .ok B1 ∧
      b1.m_storage ≠ a.m_storage ∧
      vector.mk_copy ⟨a.m_end, a.m_capacity, A⟩ = .ok ⟨b1.m_end, b1.m_capacity, B1⟩ := by
  obtain ⟨w, hw, _, hwe, hwc, _, hws⟩ := vector.mk_copy_result _ wfA
  have hla : (⟨a.m_end, a.m_capacity, A⟩ : vector T).live.length = a.m_end :=
    vector.live_length _ wfA
  have hwval : w = ⟨a.m_end, a.m_capacity, w.m_storage⟩ := by
    cases w; simp only at hwe hwc; subst hwe; subst hwc; rfl
  have halt := Store.read_lt hA
  have ha2 : a.m_end ≤ a.m_capacity := wfA.2.1
  have hA1 : (st.new_arr a.m_capacity).1.read a.m_storage = .ok A :=
    Store.read_new_old _ _ _ _ hA
  have hp : (st.new_arr a.m_capacity).2 = st.arrays.length := rfl
  have hlen : (⟨a.m_end, a.m_capacity, A⟩ : vector T).live.length
      ≤ (new_array T a.m_capacity).length := by rw [new_array_length, hla]; exact ha2
  have hws1 : w.m_storage = (⟨a.m_end, a.m_capacity, A⟩ : vector T).live ++
      (new_array T a.m_capacity).drop (⟨a.m_end, a.m_capacity, A⟩ : vector T).live.length := by
    rw [hws, hla]
  refine ⟨(st.new_arr a.m_capacity).1.write (st.new_arr a.m_capacity).2 w.m_storage,
    ⟨a.m_end, a.m_capacity, (st.new_arr a.m_capacity).2⟩, w.m_storage, ?_, ?_, ?_, ?_, ?_⟩
  · simp only [mk_copy, view_of_read hA1, vector.read_live_ok _ wfA, Store.read_new_fresh,
      vector.std_copy_front _ _ hlen, bind, Except.bind, pure, Except.pure, hws1]
  · rw [Store.read_write_ne _ _ _ _ (by rw [hp]; omega)]; exact hA1
  · apply Store.read_write_same
    rw [hp]; simp [Store.new_arr]
  · show (st.new_arr a.m_capacity).2 ≠ a.m_storage
    rw [hp]; omega
  · rw [hw]; exact congrArg _ hwval

/-- Writing through `operator[]` of one object leaves the array of an object
with another storage address as it was. -/
theorem index_set_frame (st : Store T) (u v : vector_obj) (U V : List T) (i : Nat) (x : T)
    (hU : st.read u.m_storage = .ok U) (hV : st.read v.m_storage = .ok V)
    (hne : u.m_storage ≠ v.m_storage) (hi : i < U.length) :
    ∃ st1 : Store T, index_set st u i x = .ok st1 ∧
      st1.read u.m_storage = .ok (U.set i x) ∧ st1.read v.m_storage = .ok V := by
  refine ⟨st.write u.m_storage (U.set i x), ?_, ?_, ?_⟩
  · simp only [index_set, hU, store_ok x hi, bind, Except.bind, pure, Except.pure]
  · exact Store.read_write_same _ _ _ (Store.read_lt hU)
  · rw [Store.read_write_ne _ _ _ _ hne]; exact hV

end vector_obj

namespace vector_obj
variable {T : Type}

theorem view_inv {st : Store T} {o : vector_obj} {v : vector T} (h : o.view st = .ok v) :
    st.read o.m_storage = .ok v.m_storage ∧ v.m_end = o.m_end ∧ v.m_capacity = o.m_capacity := by
  unfold view at h
  cases hr : st.read o.m_storage with
  | error e => simp [hr, bind, Except.bind] at h
  | ok a =>
    simp only [hr, bind, Except.bind, pure, Except.pure, Except.ok.injEq] at h
    subst h
    exact ⟨rfl, rfl, rfl⟩

end vector_obj

namespace vector
variable {T : Type}

/-- C17 (as the code behaves): copy assignment `d = s` returns normally with size
and capacity both equal to the size of `s` and with the live elements of `s`, in
order, whatever the capacity of `d` was, for `s` another vector, `d` itself or
an initializer list `L`.  A source that is another object (its array at another
address) denotes the same vector after the call; when the source is `d` itself
its size and live elements are kept and its capacity becomes its size. -/
theorem C17_copy_assign [Element T] (d s : vector T) (L : List T) (st : Store T)
    (dobj sobj : vector_obj) (hd : d.wf) (hs : s.wf)
    (hdv : dobj.view st = .ok d) (hsv : sobj.view st = .ok s)
    (hne : dobj.m_storage ≠ sobj.m_storage) :
    (∃ w : vector T, copy_assign d s false = .ok w ∧ w.size = s.size ∧ w.capacity = s.size ∧
      w.live = s.live ∧
      ∃ (st1 : Store T) (d1 : vector_obj), vector_obj.copy_assign st dobj sobj false
        = .ok (st1, d1) ∧ d1.view st1 = .ok w ∧ sobj.view st1 = .ok s) ∧
    (∃ w : vector T, copy_assign d d true = .ok w ∧ w.size = d.size ∧ w.capacity = d.size ∧
      w.live = d.live) ∧
    (∃ w : vector T, ilist_assign d L = .ok w ∧ w.size = L.length ∧ w.capacity = L.length ∧
      w.live = L) := by
  obtain ⟨hdr, hde, hdc⟩ := vector_obj.view_inv hdv
  obtain ⟨hsr, hse, hsc⟩ := vector_obj.view_inv hsv
  have hd' : (⟨dobj.m_end, dobj.m_capacity, d.m_storage⟩ : vector T) = d := by
    cases d; simp only at hde hdc; subst hde; subst hdc; rfl
  have hs' : (⟨sobj.m_end, sobj.m_capacity, s.m_storage⟩ : vector T) = s := by
    cases s; simp only at hse hsc; subst hse; subst hsc; rfl
  refine ⟨?_, ?_, ?_⟩
  · obtain ⟨w, hw, _, he, hc, hl, _⟩ := copy_assign_result d s hd hs
    obtain ⟨st1, d1, D1, h1, h2, h3, _, h5⟩ := vector_obj.obj_copy_assign_result st sobj dobj
      s.m_storage d.m_storage hsr hdr (Ne.symm hne) (by rw [hs']; exact hs) (by rw [hd']; exact hd)
    rw [hd', hs', hw] at h5
    refine ⟨w, hw, he, hc, hl, st1, d1, h1, ?_, ?_⟩
    · rw [vector_obj.view_of_read h3]; exact h5.symm
    · rw [vector_obj.view_of_read h2, hs']
  · refine ⟨_, self_assign_result d, rfl, rfl, ?_⟩
    show List.take d.m_end d.m_storage = d.live
    rfl
  · obtain ⟨w, hw, he, hc, hl, _⟩ := ilist_assign_result d L hd
    exact ⟨w, hw, he, hc, hl⟩

/-- C17 as written fails for `d = d`: the vector `{9,8}` with capacity 4 is the
source of its own assignment and comes out with capacity 2. -/
theorem C17_counterexample :
    ∃ w : vector Int, copy_assign (⟨2, 4, [9, 8, 7, 6]⟩ : vector Int) ⟨2, 4, [9, 8, 7, 6]⟩ true
        = .ok w ∧ w.capacity = 2 ∧ (⟨2, 4, [9, 8, 7, 6]⟩ : vector Int).capacity = 4 ∧
      w ≠ ⟨2, 4, [9, 8, 7, 6]⟩ :=
  ⟨⟨2, 2, [9, 8, 7, 6]⟩, by decide⟩

/-- C17 (as the code behaves) at `d = {9,8}` with capacity 4 (array at address
1), `s = {1,2,3}` (array at address 0) and the list `{7}`. -/
theorem C17_copy_assign_witness :
    (⟨2, 4, [9, 8, 7, 6]⟩ : vector Int).wf ∧ (⟨3, 3, [1, 2, 3]⟩ : vector Int).wf ∧
    (⟨2, 4, 1⟩ : vector_obj).view (⟨[some [1, 2, 3], some [9, 8, 7, 6]]⟩ : Store Int)
      = .ok ⟨2, 4, [9, 8, 7, 6]⟩ ∧
    (⟨3, 3, 0⟩ : vector_obj).view (⟨[some [1, 2, 3], some [9, 8, 7, 6]]⟩ : Store Int)
      = .ok ⟨3, 3, [1, 2, 3]⟩ ∧
    (⟨2, 4, 1⟩ : vector_obj).m_storage ≠ (⟨3, 3, 0⟩ : vector_obj).m_storage ∧
    ((∃ w : vector Int, copy_assign (⟨2, 4, [9, 8, 7, 6]⟩ : vector Int) ⟨3, 3, [1, 2, 3]⟩ false
        = .ok w ∧ w.size = (⟨3, 3, [1, 2, 3]⟩ : vector Int).size ∧
      w.capacity = (⟨3, 3, [1, 2, 3]⟩ : vector Int).size ∧
      w.live = (⟨3, 3, [1, 2, 3]⟩ : vector Int).live ∧
      ∃ (st1 : Store Int) (d1 : vector_obj), vector_obj.copy_assign
          (⟨[some [1, 2, 3], some [9, 8, 7, 6]]⟩ : Store Int) ⟨2, 4, 1⟩ ⟨3, 3, 0⟩ false
        = .ok (st1, d1) ∧ d1.view st1 = .ok w ∧
        (⟨3, 3, 0⟩ : vector_obj).view st1 = .ok ⟨3, 3, [1, 2, 3]⟩) ∧
    (∃ w : vector Int, copy_assign (⟨2, 4, [9, 8, 7, 6]⟩ : vector Int) ⟨2, 4, [9, 8, 7, 6]⟩ true
        = .ok w ∧ w.size = (⟨2, 4, [9, 8, 7, 6]⟩ : vector Int).size ∧
      w.capacity = (⟨2, 4, [9, 8, 7, 6]⟩ : vector Int).size ∧
      w.live = (⟨2, 4, [9, 8, 7, 6]⟩ : vector Int).live) ∧
    (∃ w : vector Int, ilist_assign (⟨2, 4, [9, 8, 7, 6]⟩ : vector Int) [7] = .ok w ∧
      w.size = ([7] : List Int).length ∧ w.capacity = ([7] : List Int).length ∧
      w.live = [7])) :=
  ⟨by decide, by decide, by decide, by decide, by decide,
    C17_copy_assign ⟨2, 4, [9, 8, 7, 6]⟩ ⟨3, 3, [1, 2, 3]⟩ [7]
      ⟨[some [1, 2, 3], some [9, 8, 7, 6]]⟩ ⟨2, 4, 1⟩ ⟨3, 3, 0⟩
      (by decide) (by decide) (by decide) (by decide) (by decide)⟩

end vector

namespace vector
variable {T : Type}

theorem index_ok (v : vector T) (i : Nat) (hwf : v.wf) (hi : i < v.m_end) :
    ∃ x : T, v.index i = .ok x ∧ v.live[i]? = some x := by
  have hl : i < v.m_storage.length := by have := hwf.1; have := hwf.2.1; omega
  refine ⟨v.m_storage.get ⟨i, hl⟩, ?_, ?_⟩
  · simp only [index, load_ok hl]
  · rw [live_getElem? v i hi]; exact (some_get_eq hl rfl).symm

/-- The loop of `operator==` on two vectors with the same live elements, entered
at index `i`, answers `true`. -/
theorem op_eq_loop_same [DecidableEq T] (lhs rhs : vector T) (hl : lhs.wf) (hr : rhs.wf)
    (he : lhs.m_end = rhs.m_end) (hlive : lhs.live = rhs.live)
    (hmax : (lhs.m_end : Int) ≤ INT_MAX) :
    ∀ (fuel i : Nat), i ≤ lhs.m_end → lhs.m_end - i ≤ fuel →
      op_eq_loop lhs rhs fuel (i : Int) = .ok true := by
  have h3 := hl.2.2
  have h2 := hl.2.1
  unfold INT_MAX at hmax
  intro fuel
  induction fuel with
  | zero =>
    intro i hi hf
    have : i = lhs.m_end := by omega
    subst this
    unfold op_eq_loop
    have hs : to_size ((lhs.m_end : Nat) : Int) = lhs.m_end := to_size_of_lt (by omega)
    simp [hs, size, pure, Except.pure]
  | succ fuel ih =>
    intro i hi hf
    have hs : to_size (i : Int) = i := to_size_of_lt (by omega)
    unfold op_eq_loop
    by_cases hlast : i = lhs.m_end
    · subst hlast
      simp [hs, size, pure, Except.pure]
    · have hlt : i < lhs.m_end := by omega
      obtain ⟨x, hx, hxl⟩ := index_ok lhs i hl hlt
      obtain ⟨y, hy, hyl⟩ := index_ok rhs i hr (by omega)
      have hxy : x = y := by
        rw [hlive, hyl] at hxl
        injection hxl with h; exact h.symm
      subst hxy
      have hne : ((i : Int) = INT_MAX) = False := by
        unfold INT_MAX; simp only [eq_iff_iff, iff_false]; omega
      have hnext : ((i : Int) + 1) = ((i + 1 : Nat) : Int) := by push_cast; rfl
      have hcond : to_size (i : Int) < lhs.size := by rw [hs]; exact hlt
      simp only [hcond, if_true, hs, hx, hy, bind, Except.bind, ne_eq, not_true_eq_false,
        if_false, hne, hnext, ih (i + 1) (by omega) (by omega)]
      split_ifs <;> rfl

theorem op_eq_same [DecidableEq T] (lhs rhs : vector T) (hl : lhs.wf) (hr : rhs.wf)
    (he : lhs.m_end = rhs.m_end) (hlive : lhs.live = rhs.live)
    (hmax : (lhs.m_end : Int) ≤ INT_MAX) : op_eq lhs rhs = .ok true := by
  have hsz : ¬ (lhs.size ≠ rhs.size) := by simp [size, he]
  simp only [op_eq, hsz, if_false]
  exact op_eq_loop_same lhs rhs hl hr he hlive hmax lhs.size 0 (Nat.zero_le _)
    (by show lhs.m_end - 0 ≤ lhs.m_end; omega)

/-- The copy constructor returns a vector `c` with the capacity of the source
(not its size), the size of the source and the same live elements in order;
when the size is within the range of the `int` counter of `operator==`,
`c == s` answers `true`. -/
theorem mk_copy_compare [Element T] [DecidableEq T] (s : vector T) (hs : s.wf) :
    ∃ c : vector T, mk_copy s = .ok c ∧ c.capacity = s.capacity ∧ c.size = s.size ∧
      c.live = s.live ∧ ((s.size : Int) ≤ INT_MAX → op_eq c s = .ok true) := by
  obtain ⟨c, hc, hcwf, he, hcap, hl, _⟩ := mk_copy_result s hs
  refine ⟨c, hc, hcap, he, hl, ?_⟩
  intro hmax
  exact op_eq_same c s hcwf hs he hl (by rw [he]; exact hmax)

end vector

namespace vector_obj
variable {T : Type}

/-- After a copy `b1` of `a` whose array lies at another address, a write to
`b1[i]` leaves `a` as it was and a write to `a[i]` leaves `b1` as it was. -/
theorem copy_independent (st1 : Store T) (a b1 : vector_obj) (A B1 : vector T) (i : Nat) (x : T)
    (hA : a.view st1 = .ok A) (hB : b1.view st1 = .ok B1)
    (hne : b1.m_storage ≠ a.m_storage) (hiA : i < A.m_storage.length)
    (hiB : i < B1.m_storage.length) :
    (∃ st2 : Store T, index_set st1 b1 i x = .ok st2 ∧ a.view st2 = .ok A ∧
      b1.view st2 = .ok { B1 with m_storage := B1.m_storage.set i x }) ∧
    (∃ st3 : Store T, index_set st1 a i x = .ok st3 ∧ b1.view st3 = .ok B1 ∧
      a.view st3 = .ok { A with m_storage := A.m_storage.set i x }) := by
  obtain ⟨hAr, hAe, hAc⟩ := view_inv hA
  obtain ⟨hBr, hBe, hBc⟩ := view_inv hB
  have hA' : (⟨a.m_end, a.m_capacity, A.m_storage⟩ : vector T) = A := by
    cases A; simp only at hAe hAc; subst hAe; subst hAc; rfl
  have hB' : (⟨b1.m_end, b1.m_capacity, B1.m_storage⟩ : vector T) = B1 := by
    cases B1; simp only at hBe hBc; subst hBe; subst hBc; rfl
  constructor
  · obtain ⟨st2, h1, h2, h3⟩ := index_set_frame st1 b1 a _ _ i x hBr hAr hne hiB
    refine ⟨st2, h1, ?_, ?_⟩
    · rw [view_of_read h3, hA']
    · rw [view_of_read h2, ← hBe, ← hBc]
  · obtain ⟨st3, h1, h2, h3⟩ := index_set_frame st1 a b1 _ _ i x hAr hBr (Ne.symm hne) hiA
    refine ⟨st3, h1, ?_, ?_⟩
    · rw [view_of_read h3, hB']
    · rw [view_of_read h2, ← hAe, ← hAc]

/-- C19: let `A` and `B` be two vectors whose arrays lie at different addresses.
After `B = A` (copy assignment), and likewise for a `B` copy-constructed from
`A`, `A` is as before; for every `i < size`, the write `B[i] = x` leaves `A` as
it was (every element, size and capacity), and the write `A[i] = x` leaves `B`
as it was. -/
theorem C19_copy_independence [Element T] (st : Store T) (a b : vector_obj) (A B : vector T)
    (i : Nat) (x : T) (hA : a.view st = .ok A) (hB : b.view st = .ok B)
    (hne : a.m_storage ≠ b.m_storage) (wfA : A.wf) (wfB : B.wf) (hi : i < A.size) :
    (∃ (st1 : Store T) (b1 : vector_obj) (B1 : vector T),
      copy_assign st b a false = .ok (st1, b1) ∧ b1.view st1 = .ok B1 ∧ a.view st1 = .ok A ∧
      B1.live = A.live ∧
      (∃ st2 : Store T, index_set st1 b1 i x = .ok st2 ∧ a.view st2 = .ok A ∧
        b1.view st2 = .ok { B1 with m_storage := B1.m_storage.set i x }) ∧
      (∃ st3 : Store T, index_set st1 a i x = .ok st3 ∧ b1.view st3 = .ok B1 ∧
        a.view st3 = .ok { A with m_storage := A.m_storage.set i x })) ∧
    (∃ (st1 : Store T) (b1 : vector_obj) (B1 : vector T),
      mk_copy st a = .ok (st1, b1) ∧ b1.view st1 = .ok B1 ∧ a.view st1 = .ok A ∧
      B1.live = A.live ∧
      (∃ st2 : Store T, index_set st1 b1 i x = .ok st2 ∧ a.view st2 = .ok A ∧
        b1.view st2 = .ok { B1 with m_storage := B1.m_storage.set i x }) ∧
      (∃ st3 : Store T, index_set st1 a i x = .ok st3 ∧ b1.view st3 = .ok B1 ∧
        a.view st3 = .ok { A with m_storage := A.m_storage.set i x })) := by
  obtain ⟨hAr, hAe, hAc⟩ := view_inv hA
  obtain ⟨hBr, hBe, hBc⟩ := view_inv hB
  have hA' : (⟨a.m_end, a.m_capacity, A.m_storage⟩ : vector T) = A := by
    cases A; simp only at hAe hAc; subst hAe; subst hAc; rfl
  have hB' : (⟨b.m_end, b.m_capacity, B.m_storage⟩ : vector T) = B := by
    cases B; simp only at hBe hBc; subst hBe; subst hBc; rfl
  have hiA : i < A.m_storage.length := by
    have := wfA.1; have := wfA.2.1; unfold vector.size at hi; omega
  constructor
  · obtain ⟨st1, b1, S1, h1, h2, h3, h4, h5⟩ := obj_copy_assign_result st a b A.m_storage
      B.m_storage hAr hBr hne (by rw [hA']; exact wfA) (by rw [hB']; exact wfB)
    rw [hA', hB'] at h5
    obtain ⟨w, hw, hwwf, hwe, _, hwl, _⟩ := vector.copy_assign_result B A wfB wfA
    rw [hw] at h5
    injection h5 with h5
    have hv1 : b1.view st1 = .ok w := by rw [view_of_read h3, h5]
    have hvA : a.view st1 = .ok A := by rw [view_of_read h2, hA']
    have hiB : i < w.m_storage.length := by
      have := hwwf.1; have := hwwf.2.1; unfold vector.size at hi; omega
    exact ⟨st1, b1, w, h1, hv1, hvA, hwl, copy_independent st1 a b1 A w i x hvA hv1 h4 hiA hiB⟩
  · obtain ⟨st1, b1, S1, h1, h2, h3, h4, h5⟩ := obj_mk_copy_result st a A.m_storage hAr
      (by rw [hA']; exact wfA)
    rw [hA'] at h5
    obtain ⟨w, hw, hwwf, hwe, _, hwl, _⟩ := vector.mk_copy_result A wfA
    rw [hw] at h5
    injection h5 with h5
    have hv1 : b1.view st1 = .ok w := by rw [view_of_read h3, h5]
    have hvA : a.view st1 = .ok A := by rw [view_of_read h2, hA']
    have hiB : i < w.m_storage.length := by
      have := hwwf.1; have := hwwf.2.1; unfold vector.size at hi; omega
    exact ⟨st1, b1, w, h1, hv1, hvA, hwl, copy_independent st1 a b1 A w i x hvA hv1 h4 hiA hiB⟩

/-- C19 at the driver's `B = C; B[1] = 100;` with `C = {1,2,3,4,5}` (array at
address 0) and a default-constructed `B` (array at address 1). -/
theorem C19_copy_independence_witness :
    (⟨5, 5, 0⟩ : vector_obj).view (⟨[some [1, 2, 3, 4, 5], some []]⟩ : Store Int)
      = .ok (⟨5, 5, [1, 2, 3, 4, 5]⟩ : vector Int) ∧
    (⟨0, 0, 1⟩ : vector_obj).view (⟨[some [1, 2, 3, 4, 5], some []]⟩ : Store Int)
      = .ok (⟨0, 0, []⟩ : vector Int) ∧
    (⟨5, 5, 0⟩ : vector_obj).m_storage ≠ (⟨0, 0, 1⟩ : vector_obj).m_storage ∧
    (⟨5, 5, [1, 2, 3, 4, 5]⟩ : vector Int).wf ∧ (⟨0, 0, []⟩ : vector Int).wf ∧
    1 < (⟨5, 5, [1, 2, 3, 4, 5]⟩ : vector Int).size ∧
    ((∃ (st1 : Store Int) (b1 : vector_obj) (B1 : vector Int),
      copy_assign (⟨[some [1, 2, 3, 4, 5], some []]⟩ : Store Int)
        (⟨0, 0, 1⟩ : vector_obj) (⟨5, 5, 0⟩ : vector_obj) false = .ok (st1, b1) ∧ b1.view st1 = .ok B1 ∧
      (⟨5, 5, 0⟩ : vector_obj).view st1 = .ok (⟨5, 5, [1, 2, 3, 4, 5]⟩ : vector Int) ∧
      B1.live = (⟨5, 5, [1, 2, 3, 4, 5]⟩ : vector Int).live ∧
      (∃ st2 : Store Int, index_set st1 b1 1 100 = .ok st2 ∧
        (⟨5, 5, 0⟩ : vector_obj).view st2 = .ok (⟨5, 5, [1, 2, 3, 4, 5]⟩ : vector Int) ∧
        b1.view st2 = .ok { B1 with m_storage := B1.m_storage.set 1 100 }) ∧
      (∃ st3 : Store Int, index_set st1 (⟨5, 5, 0⟩ : vector_obj) 1 100 = .ok st3 ∧ b1.view st3 = .ok B1 ∧
        (⟨5, 5, 0⟩ : vector_obj).view st3 = .ok { (⟨5, 5, [1, 2, 3, 4, 5]⟩ : vector Int) with
          m_storage := (⟨5, 5, [1, 2, 3, 4, 5]⟩ : vector Int).m_storage.set 1 100 })) ∧
    (∃ (st1 : Store Int) (b1 : vector_obj) (B1 : vector Int),
      mk_copy (⟨[some [1, 2, 3, 4, 5], some []]⟩ : Store Int)
        (⟨5, 5, 0⟩ : vector_obj) = .ok (st1, b1) ∧ b1.view st1 = .ok B1 ∧
      (⟨5, 5, 0⟩ : vector_obj).view st1 = .ok (⟨5, 5, [1, 2, 3, 4, 5]⟩ : vector Int) ∧
      B1.live = (⟨5, 5, [1, 2, 3, 4, 5]⟩ : vector Int).live ∧
      (∃ st2 : Store Int, index_set st1 b1 1 100 = .ok st2 ∧
        (⟨5, 5, 0⟩ : vector_obj).view st2 = .ok (⟨5, 5, [1, 2, 3, 4, 5]⟩ : vector Int) ∧
        b1.view st2 = .ok { B1 with m_storage := B1.m_storage.set 1 100 }) ∧
      (∃ st3 : Store Int, index_set st1 (⟨5, 5, 0⟩ : vector_obj) 1 100 = .ok st3 ∧ b1.view st3 = .ok B1 ∧
        (⟨5, 5, 0⟩ : vector_obj).view st3 = .ok { (⟨5, 5, [1, 2, 3, 4, 5]⟩ : vector Int) with
          m_storage := (⟨5, 5, [1, 2, 3, 4, 5]⟩ : vector Int).m_storage.set 1 100 }))) :=
  ⟨by decide, by decide, by decide, by decide, by decide, by decide,
    C19_copy_independence ⟨[some [1, 2, 3, 4, 5], some []]⟩ ⟨5, 5, 0⟩ ⟨0, 0, 1⟩
      ⟨5, 5, [1, 2, 3, 4, 5]⟩ ⟨0, 0, []⟩ 1 100
      (by decide) (by decide) (by decide) (by decide) (by decide) (by decide)⟩

end vector_obj

namespace vector
variable {T : Type}

theorem eraseIdx_reinsert (l : List T) (p : Nat) (x : T) (hx : l[p]? = some x) :
    (l.eraseIdx p).take p ++ [x] ++ (l.eraseIdx p).drop p = l := by
  have hp : p < l.length := by
    by_contra hc
    rw [List.getElem?_eq_none (by omega)] at hx
    cases hx
  apply List.ext_getElem?
  intro i
  simp only [List.getElem?_append, List.getElem?_take, List.getElem?_drop,
    List.getElem?_eraseIdx, List.length_take, List.length_append, List.length_eraseIdx,
    List.length_cons, List.length_nil, List.getElem?_cons]
  split_ifs <;> first | rfl | omega | (congr 1; omega) | skip
  all_goals (rw [← hx]; congr 1; omega)

/-- On a vector of at least two elements, `erase(begin() + p)` followed by
`insert(begin() + p, x)` with `x` the erased value gives back the live sequence
and the size; the capacity is the same too. -/
theorem erase_insert_roundtrip [Element T] (v : vector T) (p : Nat) (x : T) (hwf : v.wf)
    (hp : p < v.m_end) (h2 : 2 ≤ v.m_end) (hsz : v.m_end ≤ 2 ^ 63) (hx : v.live[p]? = some x) :
    ∃ (w u : vector T), v.erase ⟨(p : Int)⟩ = .ok (w, ⟨(p : Int)⟩) ∧
      w.insert ⟨(p : Int)⟩ x = .ok (u, ⟨(p : Int)⟩) ∧ u.live = v.live ∧ u.m_end = v.m_end ∧
      u.m_capacity = v.m_capacity := by
  obtain ⟨w, hw, hwwf, hwe, hwc, hwl, _⟩ := erase_result v p hwf hp
  have hcap := hwf.2.1
  obtain ⟨u, hu, _, hue, hul, _, huc, _⟩ := insert_result w p x hwwf (by omega) (by omega)
    (by omega)
  refine ⟨w, u, hw, hu, ?_, by omega, ?_⟩
  · rw [hul, hwl]; exact eraseIdx_reinsert _ _ _ hx
  · rw [huc (by omega), hwc]

/-- C11 (failing input): on the one-element vector `{5}`, `erase(begin())` leaves
an empty vector, and `insert(begin(), 5)` on it does not give back `{5}`: it
reads `m_storage[2 ^ 64 - 1]`, outside the array. -/
theorem C11_erase_insert_single :
    (⟨1, 1, [5]⟩ : vector Int).erase (⟨1, 1, [5]⟩ : vector Int).begin
      = .ok (⟨0, 1, [5]⟩, ⟨0⟩) ∧
    (⟨0, 1, [5]⟩ : vector Int).insert (⟨0, 1, [5]⟩ : vector Int).begin 5
      = .error (.out_of_bounds (2 ^ 64 - 1)) ∧
    ((⟨1, 1, [5]⟩ : vector Int).erase (⟨1, 1, [5]⟩ : vector Int).begin
      >>= fun r => r.1.insert r.1.begin 5) = .error (.out_of_bounds (2 ^ 64 - 1)) := by
  decide

end vector

namespace vector
variable {T : Type}

theorem load_no_timeout (a : List T) (i : Nat) : load a i ≠ .error .timeout := by
  unfold load
  split <;> simp

/-- The iteration bound of the loop of `operator==` is never the reason it stops. -/
theorem op_eq_loop_no_timeout [DecidableEq T] (lhs rhs : vector T) :
    ∀ (fuel : Nat) (i : Int), 0 ≤ i → i ≤ INT_MAX → lhs.size ≤ i.toNat + fuel →
      op_eq_loop lhs rhs fuel i ≠ .error .timeout := by
  intro fuel
  induction fuel with
  | zero =>
    intro i h0 hmax hf
    have hs : to_size i = i.toNat := by
      unfold INT_MAX at hmax; unfold to_size SIZE_MOD; omega
    have hc : ¬ (to_size i < lhs.size) := by rw [hs]; omega
    unfold op_eq_loop
    simp [hc, pure, Except.pure]
  | succ fuel ih =>
    intro i h0 hmax hf
    unfold op_eq_loop
    split
    · refine bind_no_timeout _ _ (load_no_timeout _ _) (fun x _ => ?_)
      refine bind_no_timeout _ _ (load_no_timeout _ _) (fun y _ => ?_)
      split
      · simp [pure, Except.pure]
      · split
        · simp
        · rename_i hne
          exact ih (i + 1) (by omega) (by unfold INT_MAX at hmax hne ⊢; omega) (by omega)
    · simp [pure, Except.pure]

/-- Adequacy of the iteration bound in `operator==`. -/
theorem op_eq_no_timeout [DecidableEq T] (lhs rhs : vector T) :
    op_eq lhs rhs ≠ .error .timeout := by
  unfold op_eq
  split
  · simp [pure, Except.pure]
  · exact op_eq_loop_no_timeout lhs rhs lhs.size 0 (Int.le_refl 0) (by unfold INT_MAX; omega)
      (by simp)

end vector

namespace MyForwardIterator

/-- C22: for a handle at slot address `a`, `++it` moves it to `a + 1` and returns
the moved handle; `it++` moves it to `a + 1` and returns a handle at `a`;
`--it` and `it--` do the same with `a - 1`; an increment followed by a
decrement (and a decrement followed by an increment), in either form, gives
back the handle. -/
theorem C22_iterator_steps (it : MyForwardIterator) :
    it.pre_inc = (⟨it.m_ptr + 1⟩, ⟨it.m_ptr + 1⟩) ∧
    it.post_inc = (⟨it.m_ptr⟩, ⟨it.m_ptr + 1⟩) ∧
    it.pre_dec = (⟨it.m_ptr - 1⟩, ⟨it.m_ptr - 1⟩) ∧
    it.post_dec = (⟨it.m_ptr⟩, ⟨it.m_ptr - 1⟩) ∧
    it.pre_inc.2.pre_dec.2 = it ∧ it.post_inc.2.post_dec.2 = it ∧
    it.pre_inc.2.post_dec.2 = it ∧ it.post_inc.2.pre_dec.2 = it ∧
    it.pre_dec.2.pre_inc.2 = it ∧ it.post_dec.2.post_inc.2 = it := by
  cases it with
  | mk a =>
    refine ⟨rfl, rfl, rfl, rfl, ?_, ?_, ?_, ?_, ?_, ?_⟩ <;>
      simp only [pre_inc, post_inc, pre_dec, post_dec, mk.injEq] <;> omega

/-- The identities of handle arithmetic on slot offsets taken as integers:
they describe `it + n`, `n + it`, `it - n` and `it - jt` as long as every handle
involved stays inside its array (see `add_in`). -/
theorem offset_arithmetic (it jt : MyForwardIterator) (n m : Int) :
    it.add n = add_left n it ∧
    (it.add n).sub n = it ∧ ((it.add n).sub n).eq it = true ∧
    (it.add n).add m = it.add (n + m) ∧ ((it.add n).add m).eq (it.add (n + m)) = true ∧
    (it.add n).diff it = n ∧
    (it.eq jt = true ↔ it.m_ptr = jt.m_ptr) ∧
    (it.eq jt = true ↔ it.diff jt = 0) ∧
    it.ne jt = !(it.eq jt) := by
  cases it with
  | mk a =>
    cases jt with
    | mk b =>
      refine ⟨?_, ?_, ?_, ?_, ?_, ?_, ?_, ?_, rfl⟩ <;>
        simp only [add, add_left, sub, diff, eq, mk.injEq, decide_eq_true_eq] <;> omega

end MyForwardIterator

namespace vector
variable {T : Type}

/-- Within the range of its `int` counter, the loop of `operator==` entered at
index `i` answers whether the live elements from `i` on agree. -/
theorem op_eq_loop_decides [DecidableEq T] (lhs rhs : vector T) (hl : lhs.wf) (hr : rhs.wf)
    (he : lhs.m_end = rhs.m_end) (hmax : (lhs.m_end : Int) ≤ INT_MAX) :
    ∀ (fuel i : Nat), i ≤ lhs.m_end → lhs.m_end - i ≤ fuel →
      op_eq_loop lhs rhs fuel (i : Int) = .ok (decide (lhs.live.drop i = rhs.live.drop i)) := by
  have h3 := hl.2.2
  have h2 := hl.2.1
  have hll := live_length lhs hl
  have hrl := live_length rhs hr
  unfold INT_MAX at hmax
  have hend : ∀ i, i = lhs.m_end →
      decide (lhs.live.drop i = rhs.live.drop i) = true := by
    intro i hi
    rw [List.drop_of_length_le (by omega), List.drop_of_length_le (by omega)]
    rfl
  intro fuel
  induction fuel with
  | zero =>
    intro i hi hf
    have hlast : i = lhs.m_end := by omega
    have hs : to_size (i : Int) = i := to_size_of_lt (by omega)
    unfold op_eq_loop
    have hc : ¬ (to_size (i : Int) < lhs.size) := by rw [hs]; unfold size; omega
    simp only [hc, if_false, pure, Except.pure, hend i hlast]
  | succ fuel ih =>
    intro i hi hf
    have hs : to_size (i : Int) = i := to_size_of_lt (by omega)
    unfold op_eq_loop
    by_cases hlast : i = lhs.m_end
    · have hc : ¬ (to_size (i : Int) < lhs.size) := by rw [hs]; unfold size; omega
      simp only [hc, if_false, pure, Except.pure, hend i hlast]
    · have hlt : i < lhs.m_end := by omega
      obtain ⟨x, hx, hxl⟩ := index_ok lhs i hl hlt
      obtain ⟨y, hy, hyl⟩ := index_ok rhs i hr (by omega)
      have hdl : lhs.live.drop i = x :: lhs.live.drop (i + 1) := by
        rw [List.drop_eq_getElem_cons (by omega)]
        congr 1
        have := List.getElem?_eq_getElem (l := lhs.live) (n := i) (by omega)
        rw [hxl] at this
        injection this with this
        exact this.symm
      have hdr : rhs.live.drop i = y :: rhs.live.drop (i + 1) := by
        rw [List.drop_eq_getElem_cons (by omega)]
        congr 1
        have := List.getElem?_eq_getElem (l := rhs.live) (n := i) (by omega)
        rw [hyl] at this
        injection this with this
        exact this.symm
      have hcond : to_size (i : Int) < lhs.size := by rw [hs]; exact hlt
      have hne : ¬ ((i : Int) = INT_MAX) := by unfold INT_MAX; omega
      have hnext : ((i : Int) + 1) = ((i + 1 : Nat) : Int) := by push_cast; rfl
      rw [if_pos hcond]
      simp only [hs, hx, hy, bind, Except.bind]
      by_cases hxy : x = y
      · subst hxy
        simp only [ne_eq, not_true_eq_false, if_false, hne, hnext,
          ih (i + 1) (by omega) (by omega), hdl, hdr, List.cons.injEq, true_and]
      · have hd : ¬ (lhs.live.drop i = rhs.live.drop i) := by
          rw [hdl, hdr]; intro h; injection h with h1 _; exact hxy h1
        simp only [ne_eq, hxy, not_false_eq_true, if_true, pure, Except.pure, hd, decide_False]

/-- For vectors of at most `INT_MAX` elements `operator==` answers whether the
live sequences are equal; capacities and unused slots play no part. -/
theorem op_eq_decides [DecidableEq T] (lhs rhs : vector T) (hl : lhs.wf) (hr : rhs.wf)
    (hmax : (lhs.m_end : Int) ≤ INT_MAX) :
    op_eq lhs rhs = .ok (decide (lhs.live = rhs.live)) := by
  have hll := live_length lhs hl
  have hrl := live_length rhs hr
  by_cases he : lhs.m_end = rhs.m_end
  · have hsz : ¬ (lhs.size ≠ rhs.size) := by simp [size, he]
    simp only [op_eq, hsz, if_false]
    have := op_eq_loop_decides lhs rhs hl hr he hmax lhs.size 0 (Nat.zero_le _)
      (by show lhs.m_end - 0 ≤ lhs.m_end; omega)
    simpa using this
  · have hsz : lhs.size ≠ rhs.size := he
    have hd : ¬ (lhs.live = rhs.live) := by
      intro h
      apply he
      rw [← hll, ← hrl, h]
    simp only [op_eq, hsz, ne_eq, not_false_eq_true, if_true, pure, Except.pure, hd, decide_False]

end vector

namespace vector
variable {T : Type}

/-- On vectors of more than `INT_MAX` elements that agree on their first `2 ^ 31`
elements, the loop of `operator==` ends by incrementing its `int` counter past
`INT_MAX`. -/
theorem op_eq_loop_overflow [DecidableEq T] (lhs rhs : vector T) (hl : lhs.wf) (hr : rhs.wf)
    (he : lhs.m_end = rhs.m_end) (hbig : 2 ^ 31 ≤ lhs.m_end)
    (hagree : ∀ j, j < 2 ^ 31 → lhs.live[j]? = rhs.live[j]?) :
    ∀ (fuel i : Nat), i < 2 ^ 31 → 2 ^ 31 - 1 - i < fuel →
      op_eq_loop lhs rhs fuel (i : Int) = .error .int_overflow := by
  have h3 := hl.2.2
  have h2 := hl.2.1
  intro fuel
  induction fuel with
  | zero => intro i hi hf; omega
  | succ fuel ih =>
    intro i hi hf
    have hs : to_size (i : Int) = i := to_size_of_lt (by omega)
    have hlt : i < lhs.m_end := by omega
    obtain ⟨x, hx, hxl⟩ := index_ok lhs i hl hlt
    obtain ⟨y, hy, hyl⟩ := index_ok rhs i hr (by omega)
    have hxy : x = y := by
      rw [hagree i hi, hyl] at hxl
      injection hxl with h; exact h.symm
    subst hxy
    have hcond : to_size (i : Int) < lhs.size := by rw [hs]; exact hlt
    have hnext : ((i : Int) + 1) = ((i + 1 : Nat) : Int) := by push_cast; rfl
    unfold op_eq_loop
    rw [if_pos hcond]
    simp only [hs, hx, hy, bind, Except.bind, ne_eq, not_true_eq_false, if_false]
    by_cases hlast : (i : Int) = INT_MAX
    · rw [if_pos hlast]
    · rw [if_neg hlast, hnext]
      unfold INT_MAX at hlast
      exact ih (i + 1) (by omega) (by omega)

theorem op_eq_overflow [DecidableEq T] (lhs rhs : vector T) (hl : lhs.wf) (hr : rhs.wf)
    (he : lhs.m_end = rhs.m_end) (hbig : 2 ^ 31 ≤ lhs.m_end)
    (hagree : ∀ j, j < 2 ^ 31 → lhs.live[j]? = rhs.live[j]?) :
    op_eq lhs rhs = .error .int_overflow ∧ op_ne lhs rhs = .error .int_overflow := by
  have hsz : ¬ (lhs.size ≠ rhs.size) := by simp [size, he]
  have h : op_eq lhs rhs = .error .int_overflow := by
    simp only [op_eq, hsz, if_false]
    exact op_eq_loop_overflow lhs rhs hl hr he hbig hagree lhs.size 0 (by omega)
      (by show 2 ^ 31 - 1 - 0 < lhs.m_end; omega)
  refine ⟨h, ?_⟩
  simp only [op_ne, h, bind, Except.bind]

/-- Whenever `operator==` gives an answer, `operator!=` gives the opposite one. -/
theorem op_ne_negates [DecidableEq T] (lhs rhs : vector T) (b : Bool)
    (h : op_eq lhs rhs = .ok b) : op_ne lhs rhs = .ok (!b) := by
  simp only [op_ne, h, bind, Except.bind]
  cases b <;> rfl

/-- C21 (failing input): two equal vectors of `2 ^ 31` zeros, and two vectors of
`2 ^ 31 + 1` elements that differ only in the last one.  The claim has `==`
answer `true` for the first pair and `false` for the second; the code compares
the indices up to `INT_MAX` and then increments its `int` counter past
`INT_MAX`, for both pairs, and `!=` ends the same way.  On small vectors the
answers are as claimed: `{1,2,3} == {1,2,3,4}` is `false`. -/
theorem C21_int_counter_overflow :
    op_eq (⟨2 ^ 31, 2 ^ 31, List.replicate (2 ^ 31) 0⟩ : vector Int)
        ⟨2 ^ 31, 2 ^ 31, List.replicate (2 ^ 31) 0⟩ = .error .int_overflow ∧
    op_ne (⟨2 ^ 31, 2 ^ 31, List.replicate (2 ^ 31) 0⟩ : vector Int)
        ⟨2 ^ 31, 2 ^ 31, List.replicate (2 ^ 31) 0⟩ = .error .int_overflow ∧
    op_eq (⟨2 ^ 31 + 1, 2 ^ 31 + 1, List.replicate (2 ^ 31) 0 ++ [1]⟩ : vector Int)
        ⟨2 ^ 31 + 1, 2 ^ 31 + 1, List.replicate (2 ^ 31) 0 ++ [2]⟩ = .error .int_overflow ∧
    op_ne (⟨2 ^ 31 + 1, 2 ^ 31 + 1, List.replicate (2 ^ 31) 0 ++ [1]⟩ : vector Int)
        ⟨2 ^ 31 + 1, 2 ^ 31 + 1, List.replicate (2 ^ 31) 0 ++ [2]⟩ = .error .int_overflow ∧
    op_eq (⟨3, 3, [1, 2, 3]⟩ : vector Int) ⟨4, 4, [1, 2, 3, 4]⟩ = .ok false ∧
    op_ne (⟨3, 3, [1, 2, 3]⟩ : vector Int) ⟨4, 4, [1, 2, 3, 4]⟩ = .ok true := by
  have hw1 : (⟨2 ^ 31, 2 ^ 31, List.replicate (2 ^ 31) 0⟩ : vector Int).wf :=
    ⟨by simp only [List.length_replicate]; exact Nat.le_refl _, Nat.le_refl _, by norm_num⟩
  have hw2 : ∀ z : Int,
      (⟨2 ^ 31 + 1, 2 ^ 31 + 1, List.replicate (2 ^ 31) 0 ++ [z]⟩ : vector Int).wf := fun z =>
    ⟨by simp only [List.length_append, List.length_replicate, List.length_singleton];
        exact Nat.le_refl _, Nat.le_refl _, by norm_num⟩
  have h1 := op_eq_overflow _ _ hw1 hw1 rfl (Nat.le_refl _) (fun _ _ => rfl)
  have h2 := op_eq_overflow _ _ (hw2 1) (hw2 2) rfl (Nat.le_succ _) (by
    intro j hj
    simp only [live, List.getElem?_take]
    rw [List.getElem?_append_left (by simp only [List.length_replicate]; exact hj),
      List.getElem?_append_left (by simp only [List.length_replicate]; exact hj)])
  exact ⟨h1.1, h1.2, h2.1, h2.2, by decide, by decide⟩

end vector

namespace vector
variable {T : Type}

/-- The growth trigger of the two block forms of `insert`, and the capacity they
pass to `reserve`, for a block of `k` elements with `2 * (capacity + k)`
representable. -/
theorem block_trigger (v : vector T) (k : Nat) (hsz : 2 * (v.m_capacity + k) < 2 ^ 64) :
    (to_size ((v.capacity : Int) + ((k : Nat) : Int)) > v.m_capacity ↔ 1 ≤ k) ∧
    (wrap (v.capacity + k) > v.m_capacity ↔ 1 ≤ k) ∧
    wrap (to_size ((v.m_capacity : Int) + ((k : Nat) : Int)) * 2) = (v.m_capacity + k) * 2 ∧
    wrap (wrap (v.m_capacity + k) * 2) = (v.m_capacity + k) * 2 := by
  have h1 : to_size ((v.m_capacity : Int) + ((k : Nat) : Int)) = v.m_capacity + k :=
    to_size_add _ _ (by omega)
  have h2 : wrap (v.m_capacity + k) = v.m_capacity + k := wrap_of_lt (by omega)
  have h3 : wrap ((v.m_capacity + k) * 2) = (v.m_capacity + k) * 2 := wrap_of_lt (by omega)
  refine ⟨?_, ?_, ?_, ?_⟩
  · show to_size ((v.m_capacity : Int) + ((k : Nat) : Int)) > v.m_capacity ↔ 1 ≤ k
    rw [h1]; omega
  · show wrap (v.m_capacity + k) > v.m_capacity ↔ 1 ≤ k
    rw [h2]; omega
  · rw [h1, h3]
  · rw [h2, h3]

/-- C26 as written fails: on `{1,2,3}` (capacity 3) with the block `{7,8}` the
trigger `capacity() + 2 > m_capacity` is true and both block forms of `insert`
return with capacity `(3 + 2) * 2 = 10`, not 3. -/
theorem C26_counterexample :
    to_size (((⟨3, 3, [1, 2, 3]⟩ : vector Int).capacity : Int)
      + ((([7, 8] : List Int).length : Nat) : Int)) > (⟨3, 3, [1, 2, 3]⟩ : vector Int).m_capacity ∧
    wrap ((⟨3, 3, [1, 2, 3]⟩ : vector Int).capacity + ([7, 8] : List Int).length)
      > (⟨3, 3, [1, 2, 3]⟩ : vector Int).m_capacity ∧
    (⟨3, 3, [1, 2, 3]⟩ : vector Int).insert_range ⟨1⟩ [7, 8]
      = .ok (⟨5, 10, [1, 7, 8, 2, 3, 0, 0, 0, 0, 0]⟩, ⟨1⟩) ∧
    (⟨3, 3, [1, 2, 3]⟩ : vector Int).insert_ilist ⟨1⟩ [7, 8]
      = .ok (⟨5, 10, [1, 7, 8, 2, 3, 0, 0, 0, 0, 0]⟩, ⟨1⟩) ∧
    (⟨5, 10, [1, 7, 8, 2, 3, 0, 0, 0, 0, 0]⟩ : vector Int).capacity
      ≠ (⟨3, 3, [1, 2, 3]⟩ : vector Int).capacity := by
  refine ⟨by decide, by decide, by decide, by decide, by decide⟩

/-- C26 (as the code behaves): on a non-empty vector, for `0 ≤ p ≤ size` and a
block `B` with `2 * (capacity + k)` representable, the trigger of both block
forms of `insert` is false exactly for the empty block; both forms return
normally, the capacity afterwards equals the capacity before exactly when the
block is empty and is strictly larger otherwise, and the new size never exceeds
the new capacity. -/
theorem C26_block_insert_capacity [Element T] (v : vector T) (p : Nat) (B : List T) (hwf : v.wf)
    (hne : 1 ≤ v.size) (hp : p ≤ v.size) (hsz : 2 * (v.capacity + B.length) < 2 ^ 64) :
    (¬ (to_size ((v.capacity : Int) + ((B.length : Nat) : Int)) > v.m_capacity) ↔ B.length = 0) ∧
    (¬ (wrap (v.capacity + B.length) > v.m_capacity) ↔ B.length = 0) ∧
    (∃ (w : vector T) (it : MyForwardIterator),
      v.insert_range (v.begin.add (p : Int)) B = .ok (w, it) ∧
      (w.capacity = v.capacity ↔ B.length = 0) ∧ (1 ≤ B.length → v.capacity < w.capacity) ∧
      w.size = v.size + B.length ∧ w.size ≤ w.capacity) ∧
    (∃ (w : vector T) (it : MyForwardIterator),
      v.insert_ilist (v.begin.add (p : Int)) B = .ok (w, it) ∧
      (w.capacity = v.capacity ↔ B.length = 0) ∧ (1 ≤ B.length → v.capacity < w.capacity) ∧
      w.size = v.size + B.length ∧ w.size ≤ w.capacity) := by
  obtain ⟨t1, t2, _, _⟩ := block_trigger v B.length hsz
  obtain ⟨w, hw, hwwf, hwe, _, hc1, hc2⟩ := insert_range_result v p B hwf hne hp hsz
  obtain ⟨u, hu, huwf, hue, _, hd1, hd2⟩ := insert_ilist_result v p B hwf hne hp hsz
  have hw2 := hwwf.2.1
  have hu2 := huwf.2.1
  refine ⟨by rw [t1]; omega, by rw [t2]; omega,
    ⟨w, _, by rw [begin_add]; exact hw, ?_, ?_, hwe, hw2⟩,
    ⟨u, _, by rw [begin_add]; exact hu, ?_, ?_, hue, hu2⟩⟩
  · show w.m_capacity = v.m_capacity ↔ B.length = 0
    constructor
    · intro h
      by_contra hk
      have := hc1 (by omega)
      omega
    · exact hc2
  · intro hk
    show v.m_capacity < w.m_capacity
    have := hc1 (by omega)
    omega
  · show u.m_capacity = v.m_capacity ↔ B.length = 0
    constructor
    · intro h
      by_contra hk
      have := hd1 (by omega)
      omega
    · exact hd2
  · intro hk
    show v.m_capacity < u.m_capacity
    have := hd1 (by omega)
    omega

/-- C26 (as the code behaves) at `{1,2,3}`, `p = 1`, block `{7,8}`. -/
theorem C26_block_insert_capacity_witness :
    (⟨3, 3, [1, 2, 3]⟩ : vector Int).wf ∧ 1 ≤ (⟨3, 3, [1, 2, 3]⟩ : vector Int).size ∧
    1 ≤ (⟨3, 3, [1, 2, 3]⟩ : vector Int).size ∧
    2 * ((⟨3, 3, [1, 2, 3]⟩ : vector Int).capacity + ([7, 8] : List Int).length) < 2 ^ 64 ∧
    (∃ (w : vector Int) (it : MyForwardIterator),
      (⟨3, 3, [1, 2, 3]⟩ : vector Int).insert_range
        ((⟨3, 3, [1, 2, 3]⟩ : vector Int).begin.add ((1 : Nat) : Int)) [7, 8] = .ok (w, it) ∧
      (w.capacity = (⟨3, 3, [1, 2, 3]⟩ : vector Int).capacity ↔ ([7, 8] : List Int).length = 0) ∧
      (1 ≤ ([7, 8] : List Int).length → (⟨3, 3, [1, 2, 3]⟩ : vector Int).capacity < w.capacity) ∧
      w.size = (⟨3, 3, [1, 2, 3]⟩ : vector Int).size + ([7, 8] : List Int).length ∧
      w.size ≤ w.capacity) :=
  ⟨by decide, by decide, by decide, by decide,
    (C26_block_insert_capacity ⟨3, 3, [1, 2, 3]⟩ 1 [7, 8] (by decide) (by decide) (by decide)
      (by decide)).2.2.1⟩

end vector

namespace vector
variable {T : Type}

/-- The array outcome recorded by `shift_loop_steps` is that of `shift_loop`. -/
theorem shift_loop_steps_snd (p : Nat) : ∀ (o n : Nat) (a : List T),
    (shift_loop_steps p o n a).2 = shift_loop p o n a
  | 0, n, a => by
    unfold shift_loop_steps shift_loop
    split_ifs <;> rfl
  | o + 1, n, a => by
    unfold shift_loop_steps shift_loop
    by_cases hg : o + 1 ≥ p
    · rw [if_pos hg, if_pos hg]
      cases hx : load a (o + 1) with
      | error e => simp only [bind, Except.bind]
      | ok x =>
        cases hs : store a n x with
        | error e => simp only [bind, Except.bind, hs]
        | ok a1 =>
          simp only [bind, Except.bind, hs, pure, Except.pure]
          exact shift_loop_steps_snd p o _ a1
    · rw [if_neg hg, if_neg hg]

end vector
namespace vector
variable {T : Type}

/-- Inside the array the loop executes its body `o + 1 - p` times, the `j`-th
time with destination `o + k - j` and source `o - j`. -/
theorem shift_loop_steps_ok (p k : Nat) : ∀ (o : Nat) (a : List T), p ≤ o + 1 →
    o + k < a.length → o + k < 2 ^ 64 →
    ∃ b : List T, shift_loop_steps p o (o + k) a
      = ((List.range (o + 1 - p)).map (fun j => (o + k - j, o - j)), .ok b)
  | 0, a, hp, hlen, _ => by
    have hl0 : 0 < a.length := by omega
    by_cases h0 : p = 0
    · subst h0
      refine ⟨a.set (0 + k) (a.get ⟨0, hl0⟩), ?_⟩
      simp only [shift_loop_steps, ge_iff_le, Nat.le_refl, if_true, load_ok hl0, bind,
        Except.bind, store_ok _ hlen, pure, Except.pure]
      rfl
    · refine ⟨a, ?_⟩
      have hg : ¬ (0 ≥ p) := by omega
      have hz : 0 + 1 - p = 0 := by omega
      simp only [shift_loop_steps, hg, if_false, pure, Except.pure, hz, List.range_zero,
        List.map_nil]
  | o + 1, a, hp, hlen, hmax => by
    by_cases hlast : p = o + 2
    · refine ⟨a, ?_⟩
      have hg : ¬ (o + 1 ≥ p) := by omega
      have hz : o + 1 + 1 - p = 0 := by omega
      simp only [shift_loop_steps, hg, if_false, pure, Except.pure, hz, List.range_zero,
        List.map_nil]
    · have hge : o + 1 ≥ p := by omega
      have hl : o + 1 < a.length := by omega
      have hdec : to_size (((o + 1 + k : Nat) : Int) - 1) = o + k := by
        rw [to_size_pred (by omega) (by omega)]; omega
      obtain ⟨b, hb⟩ := shift_loop_steps_ok p k o (a.set (o + 1 + k) (a.get ⟨o + 1, hl⟩))
        (by omega) (by simp; omega) (by omega)
      refine ⟨b, ?_⟩
      have hz : o + 1 + 1 - p = (o + 1 - p) + 1 := by omega
      simp only [shift_loop_steps, hge, if_true, load_ok hl, bind, Except.bind, store_ok _ hlen,
        pure, Except.pure, hdec, hb, hz, List.range_succ_eq_map, List.map_cons, List.map_map]
      refine Prod.ext ?_ rfl
      refine congrArg₂ List.cons (by simp) ?_
      apply List.map_congr_left
      intro j _
      simp only [Function.comp, Prod.mk.injEq]
      omega

/-- With `old_element` at or beyond the end of the array and not below
`position`, the first execution of the body leaves the array. -/
theorem shift_loop_steps_fault (p o n : Nat) (a : List T) (ho : 1 ≤ o) (hp : p ≤ o)
    (hlen : a.length ≤ o) :
    shift_loop_steps p o n a = ([(n, o)], .error (.out_of_bounds o)) := by
  obtain ⟨o, rfl⟩ : ∃ m, o = m + 1 := ⟨o - 1, by omega⟩
  have hnone : a[o + 1]? = none := List.getElem?_eq_none (by omega)
  have hg : o + 1 ≥ p := hp
  simp only [shift_loop_steps, hg, if_true, load, hnone, bind, Except.bind]

theorem to_size_lt (z : Int) : to_size z < 2 ^ 64 := by
  unfold to_size SIZE_MOD; omega

theorem to_size_neg_one : to_size ((0 : Int) - 1) = 2 ^ 64 - 1 := by
  unfold to_size SIZE_MOD; omega

theorem wrap_lt (n : Nat) : wrap n < 2 ^ 64 := by
  unfold wrap SIZE_MOD; omega

/-- On a vector of size 0 whose array has fewer than `2 ^ 64` slots the shift
loop faults at index `2 ^ 64 - 1`, whatever the position and destination. -/
theorem shift_loop_empty (v : vector T) (pos : Int) (n : Nat) (he : v.m_end = 0)
    (hlen : v.m_storage.length < 2 ^ 64) :
    shift_loop (to_size pos) (to_size ((v.m_end : Int) - 1)) n v.m_storage
      = .error (.out_of_bounds (2 ^ 64 - 1)) := by
  have h := shift_loop_steps_fault (to_size pos) (2 ^ 64 - 1) n v.m_storage (by norm_num)
    (by have := to_size_lt pos; omega) (by omega)
  rw [← shift_loop_steps_snd, he]
  have e : to_size (((0 : Nat) : Int) - 1) = 2 ^ 64 - 1 := to_size_neg_one
  rw [e, h]
  norm_num

end vector
namespace vector
variable {T : Type}

/-- The recorded steps of a shift of `n - p` elements by `k` slots: their number
and the bound on their indices. -/
theorem shift_steps_bounds (n p k d : Nat) (hn : 1 ≤ n) (hd : n + k ≤ d) :
    ((List.range (n - p)).map (fun j => (n - 1 + k - j, n - 1 - j))).length = n - p ∧
    ∀ e ∈ (List.range (n - p)).map (fun j => (n - 1 + k - j, n - 1 - j)), e.1 < d ∧ e.2 < d := by
  refine ⟨by simp, ?_⟩
  intro e he
  simp only [List.mem_map, List.mem_range] at he
  obtain ⟨j, _, rfl⟩ := he
  constructor <;> simp only <;> omega

/-- The shift loop on a grown, non-empty vector, with the arguments as the
`insert` overloads compute them. -/
theorem shift_steps_at (a : List T) (n p k o nw : Nat) (hn : 1 ≤ n) (hp : p ≤ n)
    (hlen : n + k ≤ a.length) (hmax : n + k < 2 ^ 64) (ho : o = n - 1) (hnw : nw = n - 1 + k) :
    ∃ b : List T, shift_loop_steps p o nw a
      = ((List.range (n - p)).map (fun j => (n - 1 + k - j, n - 1 - j)), .ok b) := by
  subst ho; subst hnw
  obtain ⟨b, hb⟩ := shift_loop_steps_ok p k (n - 1) a (by omega) (by omega) (by omega)
  have e : n - 1 + 1 - p = n - p := by omega
  rw [e] at hb
  exact ⟨b, hb⟩

/-- After `reserve` with a representable capacity the array still has fewer than
`2 ^ 64` slots. -/
theorem reserve_small [Element T] (v : vector T) (n : Nat) (hwf : v.wf)
    (hlen : v.m_storage.length < 2 ^ 64) (hn : n < 2 ^ 64) :
    ∃ v1 : vector T, v.reserve n = .ok v1 ∧ v1.m_end = v.m_end ∧
      v1.m_storage.length < 2 ^ 64 := by
  obtain ⟨w, hw, he, _, hg, hs⟩ := reserve_result v n hwf
  refine ⟨w, hw, he, ?_⟩
  by_cases h : v.m_capacity < n
  · rw [(hg h).2]; exact hn
  · rw [hs (by omega)]; exact hlen

end vector
namespace vector
variable {T : Type}

end vector

namespace vector
variable {T : Type}

theorem mk_sized_wf [Element T] (n : Nat) (hn : n < 2 ^ 64) :
    ∃ w : vector T, mk_sized n = .ok w ∧ w.wf ∧ w.m_end = n ∧ w.m_capacity = n :=
  ⟨_, mk_sized_ok n, ⟨by simp, Nat.le_refl _, hn⟩, rfl, rfl⟩

theorem mk_ilist_wf [Element T] (il : List T) (hn : il.length < 2 ^ 64) :
    ∃ w : vector T, mk_ilist il = .ok w ∧ w.wf ∧ w.m_end = il.length ∧
      w.m_capacity = il.length :=
  ⟨_, mk_ilist_ok il, ⟨Nat.le_refl _, Nat.le_refl _, hn⟩, rfl, rfl⟩

theorem mk_range_result [Element T] (block : List T) (hlen : block.length < 2 ^ 64) :
    ∃ w : vector T, mk_range block = .ok w ∧ w.wf ∧ w.m_end = block.length ∧
      w.m_capacity = block.length ∧ w.live = block := by
  have hsz : to_size (block.length : Int) = block.length := to_size_of_lt hlen
  have hc : block.length ≤ (new_array T block.length).length := by rw [new_array_length]
  refine ⟨⟨block.length, block.length, block ++ (new_array T block.length).drop block.length⟩,
    ?_, ⟨?_, Nat.le_refl _, hlen⟩, rfl, rfl, take_copy_front _ _⟩
  · simp only [mk_range, hsz, std_copy_front _ _ hc, bind, Except.bind, pure, Except.pure]
  · show block.length ≤ _
    simp

theorem pop_back_wf (v : vector T) (hwf : v.wf) : v.pop_back.1.wf := by
  obtain ⟨h0, h1⟩ := pop_back_result v hwf
  by_cases h : v.m_end = 0
  · rw [h0 h]; exact hwf
  · rw [h1 h]
    exact ⟨hwf.1, by have := hwf.2.1; show v.m_end - 1 ≤ v.m_capacity; omega, hwf.2.2⟩

theorem clear_wf (v : vector T) (hwf : v.wf) : v.clear.wf :=
  ⟨hwf.1, Nat.zero_le _, hwf.2.2⟩

theorem reserve_wf [Element T] (v : vector T) (n : Nat) (hwf : v.wf) (hn : n < 2 ^ 64) :
    ∃ w : vector T, v.reserve n = .ok w ∧ w.wf := by
  obtain ⟨w, hw, he, _, hg, hs⟩ := reserve_result v n hwf
  refine ⟨w, hw, ?_⟩
  by_cases h : v.m_capacity < n
  · obtain ⟨hc, hl⟩ := hg h
    have := hwf.2.1
    exact ⟨by omega, by omega, by omega⟩
  · rw [hs (by omega)]; exact hwf

theorem assign_fill_wf [Element T] (v : vector T) (n : Nat) (x : T) (hwf : v.wf)
    (hn : n < 2 ^ 64) : ∃ w : vector T, v.assign_fill n x = .ok w ∧ w.wf := by
  obtain ⟨w, hw, he, _, hc, hl⟩ := assign_fill_result v n x hwf
  have := hwf.2.2
  exact ⟨w, hw, hl, by omega, by omega⟩

theorem assign_ilist_wf [Element T] (v : vector T) (il : List T) (hwf : v.wf)
    (hn : il.length < 2 ^ 64) : ∃ w : vector T, v.assign_ilist il = .ok w ∧ w.wf := by
  obtain ⟨w, hw, he, _, hc, hl⟩ := assign_ilist_result v il hwf
  have := hwf.2.2
  exact ⟨w, hw, hl, by omega, by omega⟩

theorem assign_range_wf [Element T] (v : vector T) (block : List T) (hwf : v.wf)
    (hn : block.length < 2 ^ 64) : ∃ w : vector T, v.assign_range block = .ok w ∧ w.wf := by
  obtain ⟨w, hw, he, _, hc, hl⟩ := assign_range_result v block hwf hn
  have := hwf.2.2
  exact ⟨w, hw, hl, by omega, by omega⟩

theorem self_assign_wf [Element T] (v : vector T) (hwf : v.wf) :
    ∃ w : vector T, copy_assign v v true = .ok w ∧ w.wf := by
  have h1 := hwf.1
  have h2 := hwf.2.1
  have h3 := hwf.2.2
  exact ⟨_, self_assign_result v, by show v.m_end ≤ v.m_storage.length; omega, Nat.le_refl _,
    by show v.m_end < 2 ^ 64; omega⟩

theorem ilist_assign_wf [Element T] (v : vector T) (il : List T) (hwf : v.wf)
    (hn : il.length < 2 ^ 64) : ∃ w : vector T, ilist_assign v il = .ok w ∧ w.wf := by
  obtain ⟨w, hw, he, hc, _, hl⟩ := ilist_assign_result v il hwf
  exact ⟨w, hw, hl, by omega, by omega⟩

theorem index_set_wf (v : vector T) (pos : Nat) (x : T) (hwf : v.wf) (hp : pos < v.m_end) :
    ∃ w : vector T, v.index_set pos x = .ok w ∧ w.wf ∧ w.m_end = v.m_end ∧
      w.m_capacity = v.m_capacity := by
  have h1 := hwf.1
  have h2 := hwf.2.1
  have hl : pos < v.m_storage.length := by omega
  refine ⟨⟨v.m_end, v.m_capacity, v.m_storage.set pos x⟩, ?_, ⟨?_, h2, hwf.2.2⟩, rfl, rfl⟩
  · simp only [index_set, store_ok x hl, bind, Except.bind, pure, Except.pure]
  · show v.m_capacity ≤ (v.m_storage.set pos x).length
    simp only [List.length_set]; exact h1

/-- Every reachable state is well-formed: the capacity is within the array, the
size within the capacity. -/
theorem reachable_wf [Element T] (v : vector T) (h : reachable v) : v.wf := by
  induction h with
  | of_sized n w hn hop =>
    obtain ⟨u, hu, hw, _⟩ := mk_sized_wf (T := T) n hn
    rw [hu] at hop; rw [← Except.ok.inj hop]; exact hw
  | of_range block w hn hop =>
    obtain ⟨u, hu, hw, _⟩ := mk_range_result block hn
    rw [hu] at hop; rw [← Except.ok.inj hop]; exact hw
  | of_copy s w _ hop ih =>
    obtain ⟨u, hu, hw, _⟩ := mk_copy_result s ih
    rw [hu] at hop; rw [← Except.ok.inj hop]; exact hw
  | of_ilist il w hn hop =>
    obtain ⟨u, hu, hw, _⟩ := mk_ilist_wf il hn
    rw [hu] at hop; rw [← Except.ok.inj hop]; exact hw
  | by_push_back v w x _ hsz hop ih =>
    obtain ⟨u, hu, hw, _⟩ := push_back_result v x ih hsz
    rw [hu] at hop; rw [← Except.ok.inj hop]; exact hw
  | by_pop_back v _ ih => exact pop_back_wf v ih
  | by_insert v w p x it _ hne hp hsz hop ih =>
    obtain ⟨u, hu, hw, _⟩ := insert_result v p x ih hne hp hsz
    rw [hu] at hop; rw [← (Prod.mk.inj (Except.ok.inj hop)).1]; exact hw
  | by_insert_range v w p block it _ hne hp hsz hop ih =>
    obtain ⟨u, hu, hw, _⟩ := insert_range_result v p block ih hne hp hsz
    rw [hu] at hop; rw [← (Prod.mk.inj (Except.ok.inj hop)).1]; exact hw
  | by_insert_ilist v w p il it _ hne hp hsz hop ih =>
    obtain ⟨u, hu, hw, _⟩ := insert_ilist_result v p il ih hne hp hsz
    rw [hu] at hop; rw [← (Prod.mk.inj (Except.ok.inj hop)).1]; exact hw
  | by_erase v w p it _ hp hop ih =>
    obtain ⟨u, hu, hw, _⟩ := erase_result v p ih hp
    rw [hu] at hop; rw [← (Prod.mk.inj (Except.ok.inj hop)).1]; exact hw
  | by_erase_range v w f l it _ hfl hl hop ih =>
    obtain ⟨u, hu, hw, _⟩ := erase_range_result v f l ih hfl hl
    rw [hu] at hop; rw [← (Prod.mk.inj (Except.ok.inj hop)).1]; exact hw
  | by_clear v _ ih => exact clear_wf v ih
  | by_reserve v w n _ hn hop ih =>
    obtain ⟨u, hu, hw⟩ := reserve_wf v n ih hn
    rw [hu] at hop; rw [← Except.ok.inj hop]; exact hw
  | by_shrink_to_fit v w _ hop ih =>
    obtain ⟨u, hu, hw, _⟩ := shrink_to_fit_result v ih
    rw [hu] at hop; rw [← Except.ok.inj hop]; exact hw
  | by_assign_fill v w n x _ hn hop ih =>
    obtain ⟨u, hu, hw⟩ := assign_fill_wf v n x ih hn
    rw [hu] at hop; rw [← Except.ok.inj hop]; exact hw
  | by_assign_ilist v w il _ hn hop ih =>
    obtain ⟨u, hu, hw⟩ := assign_ilist_wf v il ih hn
    rw [hu] at hop; rw [← Except.ok.inj hop]; exact hw
  | by_assign_range v w block _ hn hop ih =>
    obtain ⟨u, hu, hw⟩ := assign_range_wf v block ih hn
    rw [hu] at hop; rw [← Except.ok.inj hop]; exact hw
  | by_copy_assign v s w _ _ hop ihv ihs =>
    obtain ⟨u, hu, hw, _⟩ := copy_assign_result v s ihv ihs
    rw [hu] at hop; rw [← Except.ok.inj hop]; exact hw
  | by_self_assign v w _ hop ih =>
    obtain ⟨u, hu, hw⟩ := self_assign_wf v ih
    rw [hu] at hop; rw [← Except.ok.inj hop]; exact hw
  | by_ilist_assign v w il _ hn hop ih =>
    obtain ⟨u, hu, hw⟩ := ilist_assign_wf v il ih hn
    rw [hu] at hop; rw [← Except.ok.inj hop]; exact hw
  | by_index_set v w pos x _ hp hop ih =>
    obtain ⟨u, hu, hw, _⟩ := index_set_wf v pos x ih hp
    rw [hu] at hop; rw [← Except.ok.inj hop]; exact hw

end vector

namespace vector
variable {T : Type}

theorem wf_bounds (w : vector T) (h : w.wf) : w.wf ∧ 0 ≤ w.size ∧ w.size ≤ w.capacity :=
  ⟨h, Nat.zero_le _, h.2.1⟩

end vector

namespace vector
variable {T : Type}

/-- C27 as written fails: `{1,2,3}` built from an initializer list and then
`pop_back()` is the state with size 2, capacity 3 and array `1,2,3`; the unused
slot 2 holds 3, not `int{}` = 0. -/
theorem C27_counterexample :
    reachable (⟨2, 3, [1, 2, 3]⟩ : vector Int) ∧
    (mk_ilist [1, 2, 3] : Except Fault (vector Int)) = .ok ⟨3, 3, [1, 2, 3]⟩ ∧
    (⟨3, 3, [1, 2, 3]⟩ : vector Int).pop_back = (⟨2, 3, [1, 2, 3]⟩, .ok ()) ∧
    (⟨2, 3, [1, 2, 3]⟩ : vector Int).size ≤ 2 ∧ 2 < (⟨2, 3, [1, 2, 3]⟩ : vector Int).capacity ∧
    (⟨2, 3, [1, 2, 3]⟩ : vector Int).index 2 = .ok 3 ∧ (3 : Int) ≠ Element.init :=
  ⟨reachable.by_pop_back ⟨3, 3, [1, 2, 3]⟩
      (reachable.of_ilist [1, 2, 3] ⟨3, 3, [1, 2, 3]⟩ (by decide) (by decide)),
    by decide, by decide, by decide, by decide, by decide, by decide⟩

end vector

namespace vector_obj

/-- C1 (failing input): `v.push_back(v[0])` on the full vector `{1,2,3}` (its
array at address 0).  The claim has the call return with `{1,2,3,1}`, capacity
6; the code calls `reserve(6)`, which releases the array at address 0, and then
evaluates `m_storage[m_end] = value` with `value` still referring to slot 0 of
the released array.  The same call on `{1,2,3}` with capacity 4 (no `reserve`),
and `push_back(x)` on the full vector for an `x = 7` stored elsewhere (address
1), return what the claim says. -/
theorem C1_push_back_own_element :
    vector_obj.push_back (⟨[some [1, 2, 3]]⟩ : Store Int) ⟨3, 3, 0⟩ ⟨0, 0⟩
      = .error (.dangling 0) ∧
    vector_obj.push_back (⟨[some [1, 2, 3, 0]]⟩ : Store Int) ⟨3, 4, 0⟩ ⟨0, 0⟩
      = .ok (⟨[some [1, 2, 3, 1]]⟩, ⟨4, 4, 0⟩) ∧
    (∃ (st1 : Store Int) (o1 : vector_obj) (w : vector Int),
      vector_obj.push_back (⟨[some [1, 2, 3], some [7]]⟩ : Store Int) ⟨3, 3, 0⟩ ⟨1, 0⟩
        = .ok (st1, o1) ∧
      o1.view st1 = .ok w ∧ w.live = [1, 2, 3, 7] ∧ w.size = 4 ∧ w.capacity = 6) :=
  ⟨by decide, by decide,
    ⟨⟨[none, some [7], some [1, 2, 3, 7, 0, 0]]⟩, ⟨4, 6, 2⟩, ⟨4, 6, [1, 2, 3, 7, 0, 0]⟩,
      by decide, by decide, by decide, by decide, by decide⟩⟩

/-- C7 (failing input): `v.insert(v.begin(), v[2])` on `{1,2,3}` with capacity 4
(its array at address 0).  The claim has the live elements become `{3,1,2,3}`;
the code shifts the three elements up first, so slot 2 holds 2 when
`m_storage[position] = value_` reads it, and the result is `{2,1,2,3}`.  With
the value 3 stored elsewhere (address 1) the result is `{3,1,2,3}`; on the full
vector `{1,2,3}` the same call reads the array released by `reserve`. -/
theorem C7_insert_own_element :
    vector_obj.insert (⟨[some [1, 2, 3, 0]]⟩ : Store Int) ⟨3, 4, 0⟩ ⟨0⟩ ⟨0, 2⟩
      = .ok (⟨[some [2, 1, 2, 3]]⟩, ⟨4, 4, 0⟩, ⟨0⟩) ∧
    (⟨4, 4, [2, 1, 2, 3]⟩ : vector Int).live
      ≠ (⟨3, 4, [1, 2, 3, 0]⟩ : vector Int).live.take 0 ++ [3]
        ++ (⟨3, 4, [1, 2, 3, 0]⟩ : vector Int).live.drop 0 ∧
    vector_obj.insert (⟨[some [1, 2, 3, 0], some [3]]⟩ : Store Int) ⟨3, 4, 0⟩ ⟨0⟩ ⟨1, 0⟩
      = .ok (⟨[some [3, 1, 2, 3], some [3]]⟩, ⟨4, 4, 0⟩, ⟨0⟩) ∧
    vector_obj.insert (⟨[some [1, 2, 3]]⟩ : Store Int) ⟨3, 3, 0⟩ ⟨0⟩ ⟨0, 2⟩
      = .error (.dangling 0) := by
  refine ⟨by decide, by decide, by decide, by decide⟩

/-- C20 (failing input): `v.assign(5, v[0])` on `{1,2,3}` with capacity 3 (its
array at address 0).  The claim has the call leave five copies of 1; the code
allocates the new array, releases the old one by `delete[] m_storage` and then
runs `std::fill`, which reads `value_` in slot 0 of the released array.  The
call `v.assign(2, v[1])`, which keeps the array, and `v.assign(5, x)` for an
`x = 9` stored elsewhere (address 1) leave what the claim says. -/
theorem C20_assign_own_element :
    vector_obj.assign_fill (⟨[some [1, 2, 3]]⟩ : Store Int) ⟨3, 3, 0⟩ 5 ⟨0, 0⟩
      = .error (.dangling 0) ∧
    vector_obj.assign_fill (⟨[some [1, 2, 3]]⟩ : Store Int) ⟨3, 3, 0⟩ 2 ⟨0, 1⟩
      = .ok (⟨[some [2, 2, 3]]⟩, ⟨2, 3, 0⟩) ∧
    vector_obj.assign_fill (⟨[some [1, 2, 3], some [9]]⟩ : Store Int) ⟨3, 3, 0⟩ 5 ⟨1, 0⟩
      = .ok (⟨[none, some [9], some [9, 9, 9, 9, 9]]⟩, ⟨5, 5, 2⟩) := by
  refine ⟨by decide, by decide, by decide⟩

end vector_obj

namespace vector
variable {T : Type}

/-- C18 (failing input): the copy `c` of a vector `s` of `2 ^ 31` zeros.  The
constructor returns `c` with the capacity, the size and the live elements of
`s`, but `c == s` does not hold: `operator==` compares the first `2 ^ 31`
elements and then increments its `int` counter past `INT_MAX`. -/
theorem C18_copy_then_compare :
    ∃ c : vector Int,
      mk_copy (⟨2 ^ 31, 2 ^ 31, List.replicate (2 ^ 31) 0⟩ : vector Int) = .ok c ∧
      c.capacity = 2 ^ 31 ∧ c.size = 2 ^ 31 ∧
      c.live = (⟨2 ^ 31, 2 ^ 31, List.replicate (2 ^ 31) 0⟩ : vector Int).live ∧
      op_eq c ⟨2 ^ 31, 2 ^ 31, List.replicate (2 ^ 31) 0⟩ = .error .int_overflow := by
  have hw : (⟨2 ^ 31, 2 ^ 31, List.replicate (2 ^ 31) 0⟩ : vector Int).wf :=
    ⟨by simp only [List.length_replicate]; exact Nat.le_refl _, Nat.le_refl _, by norm_num⟩
  obtain ⟨c, hc, hcwf, he, hcap, hl, _⟩ := mk_copy_result _ hw
  refine ⟨c, hc, hcap, he, hl, ?_⟩
  exact (op_eq_overflow c _ hcwf hw he (by rw [he])
    (fun j _ => by rw [hl])).1

end vector

namespace MyForwardIterator

/-- C23 as written fails: from the handle at slot 0 of an array of 3 elements
the offset `n = 2 ^ 62` leaves the array, so `it + n` is not a handle and
`(it + n) - it` does not evaluate to `n`; and for `n = m = 2 ^ 62` the sum
`n + m` in `it + (n + m)` is not a value of `difference_type`. -/
theorem C23_counterexample :
    add_in 3 ⟨0⟩ (2 ^ 62) = .error (.out_of_bounds (2 ^ 62)) ∧
    add_left_in 3 (2 ^ 62) ⟨0⟩ = .error (.out_of_bounds (2 ^ 62)) ∧
    (add_in 3 ⟨0⟩ (2 ^ 62) >>= fun h => diff_in 3 h ⟨0⟩) ≠ .ok (2 ^ 62) ∧
    (add_in 3 ⟨0⟩ (2 ^ 62) >>= fun h => sub_in 3 h (2 ^ 62)) ≠ .ok ⟨0⟩ ∧
    ptrdiff_add (2 ^ 62) (2 ^ 62) = .error .int_overflow := by
  refine ⟨by decide, by decide, by decide, by decide, by decide⟩

/-- C23 (as the code behaves): for handles `it`, `jt` into an array of `len`
elements (`len < 2 ^ 63`) and offsets `n`, `m` such that `it + n` and
`(it + n) + m` are again handles into that array (offsets `0 … len`): `it + n`
and `n + it` are the same handle; `(it + n) - n` is `it`; `(it + n) + m` is
`it + (n + m)`, the sum `n + m` being a value of `difference_type`; the
distance `(it + n) - it` is `n`; two handles compare equal exactly when their
slot addresses are equal, that is exactly when their distance is `0`; `!=` is
the negation of `==`. -/
theorem C23_handle_arithmetic (len : Nat) (it jt : MyForwardIterator) (n m : Int)
    (hlen : (len : Int) < 2 ^ 63)
    (hit : 0 ≤ it.m_ptr ∧ it.m_ptr ≤ len) (hjt : 0 ≤ jt.m_ptr ∧ jt.m_ptr ≤ len)
    (hn : 0 ≤ it.m_ptr + n ∧ it.m_ptr + n ≤ len)
    (hm : 0 ≤ it.m_ptr + n + m ∧ it.m_ptr + n + m ≤ len) :
    add_in len it n = .ok ⟨it.m_ptr + n⟩ ∧ add_left_in len n it = add_in len it n ∧
    (add_in len it n >>= fun h => sub_in len h n) = .ok it ∧
    (add_in len it n >>= fun h => add_in len h m) = .ok ⟨it.m_ptr + n + m⟩ ∧
    (ptrdiff_add n m >>= fun k => add_in len it k)
      = (add_in len it n >>= fun h => add_in len h m) ∧
    (add_in len it n >>= fun h => diff_in len h it) = .ok n ∧
    (it.eq jt = true ↔ it.m_ptr = jt.m_ptr) ∧
    (it.eq jt = true ↔ diff_in len it jt = .ok 0) ∧
    it.ne jt = !(it.eq jt) := by
  cases it with
  | mk a =>
    cases jt with
    | mk b =>
      simp only at hit hjt hn hm
      have h1 : add_in len ⟨a⟩ n = .ok ⟨a + n⟩ := by
        simp only [add_in, hn, and_self, if_true]
      have h2 : add_left_in len n ⟨a⟩ = .ok ⟨a + n⟩ := by
        have e : n + a = a + n := by omega
        simp only [add_left_in, e, hn, and_self, if_true]
      have h3 : sub_in len ⟨a + n⟩ n = .ok ⟨a⟩ := by
        have e : a + n - n = a := by omega
        simp only [sub_in, e, hit, and_self, if_true]
      have h4 : add_in len ⟨a + n⟩ m = .ok ⟨a + n + m⟩ := by
        simp only [add_in, hm, and_self, if_true]
      have h5 : ptrdiff_add n m = .ok (n + m) := by
        have : -(2 ^ 63) ≤ n + m ∧ n + m < 2 ^ 63 := by omega
        simp only [ptrdiff_add, this, and_self, if_true]
      have h6 : add_in len ⟨a⟩ (n + m) = .ok ⟨a + n + m⟩ := by
        have e : a + (n + m) = a + n + m := by omega
        simp only [add_in, e, hm, and_self, if_true]
      have h7 : diff_in len ⟨a + n⟩ ⟨a⟩ = .ok n := by
        have e : a + n - a = n := by omega
        simp only [diff_in, hn, hit, and_self, not_true_eq_false, if_false, e]
      have h8 : diff_in len ⟨a⟩ ⟨b⟩ = .ok (a - b) := by
        simp only [diff_in, hit, hjt, and_self, not_true_eq_false, if_false]
      refine ⟨h1, by rw [h1, h2], ?_, ?_, ?_, ?_, ?_, ?_, rfl⟩
      · simp only [h1, bind, Except.bind, h3]
      · simp only [h1, bind, Except.bind, h4]
      · simp only [h1, h5, bind, Except.bind, h4, h6]
      · simp only [h1, bind, Except.bind, h7]
      · simp only [eq, decide_eq_true_eq]
      · rw [h8]
        simp only [eq, decide_eq_true_eq, Except.ok.injEq]
        omega

/-- C23 (as the code behaves) at an array of 5 elements, `it` at slot 1, `jt` at
slot 3, `n = 3`, `m = -2`. -/
theorem C23_handle_arithmetic_witness :
    ((5 : Nat) : Int) < 2 ^ 63 ∧
    (0 ≤ (⟨1⟩ : MyForwardIterator).m_ptr ∧ (⟨1⟩ : MyForwardIterator).m_ptr ≤ (5 : Nat)) ∧
    (0 ≤ (⟨3⟩ : MyForwardIterator).m_ptr ∧ (⟨3⟩ : MyForwardIterator).m_ptr ≤ (5 : Nat)) ∧
    (0 ≤ (⟨1⟩ : MyForwardIterator).m_ptr + 3 ∧ (⟨1⟩ : MyForwardIterator).m_ptr + 3 ≤ (5 : Nat)) ∧
    (0 ≤ (⟨1⟩ : MyForwardIterator).m_ptr + 3 + (-2) ∧
      (⟨1⟩ : MyForwardIterator).m_ptr + 3 + (-2) ≤ (5 : Nat)) ∧
    (add_in 5 ⟨1⟩ 3 = .ok ⟨(⟨1⟩ : MyForwardIterator).m_ptr + 3⟩ ∧
      add_left_in 5 3 ⟨1⟩ = add_in 5 ⟨1⟩ 3 ∧
      (add_in 5 ⟨1⟩ 3 >>= fun h => sub_in 5 h 3) = .ok ⟨1⟩ ∧
      (add_in 5 ⟨1⟩ 3 >>= fun h => add_in 5 h (-2))
        = .ok ⟨(⟨1⟩ : MyForwardIterator).m_ptr + 3 + (-2)⟩ ∧
      (ptrdiff_add 3 (-2) >>= fun k => add_in 5 ⟨1⟩ k)
        = (add_in 5 ⟨1⟩ 3 >>= fun h => add_in 5 h (-2)) ∧
      (add_in 5 ⟨1⟩ 3 >>= fun h => diff_in 5 h ⟨1⟩) = .ok 3 ∧
      ((⟨1⟩ : MyForwardIterator).eq ⟨3⟩ = true
        ↔ (⟨1⟩ : MyForwardIterator).m_ptr = (⟨3⟩ : MyForwardIterator).m_ptr) ∧
      ((⟨1⟩ : MyForwardIterator).eq ⟨3⟩ = true ↔ diff_in 5 ⟨1⟩ ⟨3⟩ = .ok 0) ∧
      (⟨1⟩ : MyForwardIterator).ne ⟨3⟩ = !((⟨1⟩ : MyForwardIterator).eq ⟨3⟩)) ∧
    (add_in 5 ⟨1⟩ 3 >>= fun h => add_in 5 h (-2)) = .ok ⟨2⟩ :=
  ⟨by decide, by decide, by decide, by decide, by decide,
    C23_handle_arithmetic 5 ⟨1⟩ ⟨3⟩ 3 (-2) (by decide) (by decide) (by decide) (by decide)
      (by decide),
    by decide⟩

end MyForwardIterator

namespace vector
variable {T : Type}

/-- On a well-formed vector of size 0 whose array has fewer than `2 ^ 64` slots,
each of the three `insert` overloads, at any position, ends in its shift loop
with the read of `m_storage[2 ^ 64 - 1]`. -/
theorem insert_empty_fault [Element T] (v : vector T) (pos : Int) (x : T) (B : List T)
    (hwf : v.wf) (h0 : v.size = 0) (hlen : v.m_storage.length < 2 ^ 64) :
    v.insert ⟨pos⟩ x = .error (.out_of_bounds (2 ^ 64 - 1)) ∧
    v.insert_range ⟨pos⟩ B = .error (.out_of_bounds (2 ^ 64 - 1)) ∧
    v.insert_ilist ⟨pos⟩ B = .error (.out_of_bounds (2 ^ 64 - 1)) := by
  have he : v.m_end = 0 := h0
  have hdiff : (⟨pos⟩ : MyForwardIterator).diff v.begin = pos := by
    simp [MyForwardIterator.diff, begin]
  refine ⟨?_, ?_, ?_⟩
  · unfold insert
    simp only [hdiff]
    by_cases hf : v.full = true
    · obtain ⟨v1, hv1, he1, hl1⟩ := reserve_small v
        (if v.m_capacity = 0 then wrap (v.m_capacity + 1) else wrap (v.m_capacity * 2)) hwf hlen
        (by split_ifs <;> exact wrap_lt _)
      rw [if_pos hf, hv1]
      simp only [bind, Except.bind, shift_loop_empty v1 pos _ (by omega) hl1]
    · rw [if_neg hf]
      simp only [bind, Except.bind, pure, Except.pure, shift_loop_empty v pos _ he hlen]
  · unfold insert_range
    simp only [hdiff]
    by_cases hf : to_size ((v.capacity : Int) + ((B.length : Nat) : Int)) > v.m_capacity
    · obtain ⟨v1, hv1, he1, hl1⟩ := reserve_small v
        (wrap (to_size ((v.m_capacity : Int) + ((B.length : Nat) : Int)) * 2)) hwf hlen
        (wrap_lt _)
      rw [if_pos hf, hv1]
      simp only [bind, Except.bind, shift_loop_empty v1 pos _ (by omega) hl1]
    · rw [if_neg hf]
      simp only [bind, Except.bind, pure, Except.pure, shift_loop_empty v pos _ he hlen]
  · unfold insert_ilist
    simp only [hdiff]
    by_cases hf : wrap (v.capacity + B.length) > v.m_capacity
    · obtain ⟨v1, hv1, he1, hl1⟩ := reserve_small v
        (wrap (wrap (v.m_capacity + B.length) * 2)) hwf hlen (wrap_lt _)
      rw [if_pos hf, hv1]
      simp only [bind, Except.bind, shift_loop_empty v1 pos _ (by omega) hl1]
    · rw [if_neg hf]
      simp only [bind, Except.bind, pure, Except.pure, shift_loop_empty v pos _ he hlen]

/-- C24 (failing input, and where the claim holds): `0 ≤ size ≤ capacity`
(together with the capacity lying within the allocated array) holds for the
result of the sized, range, copy and initializer-list constructors, and these
modifiers return normally on a well-formed vector `v` with a state for which it
holds again: `push_back`, `pop_back` (also when it throws), `erase` at
`p < size` and of `[f, l)` with `f ≤ l ≤ size`, `clear`, `reserve`,
`shrink_to_fit`, the three `assign` forms, copy assignment from another vector
`s`, from `v` itself and from a list, and the three `insert` forms when `v` is
not empty (`0 ≤ p ≤ size`).  Values and blocks are held outside the vector,
counts are values of `unsigned long`, `push_back` and `insert` take
`size < 2 ^ 63`, the block forms `2 * (capacity + k) < 2 ^ 64`.  On a vector of
size 0 (last part) no `insert` form returns a state: for every position the
shift loop reads `m_storage[2 ^ 64 - 1]`. -/
theorem C24_size_within_capacity [Element T] (v s : vector T) (x : T) (n p f l : Nat)
    (B : List T) (hv : v.wf) (hs : s.wf) (hn : n < 2 ^ 64) (hB : B.length < 2 ^ 64) :
    (∃ w : vector T, mk_sized n = .ok w ∧ w.wf ∧ 0 ≤ w.size ∧ w.size ≤ w.capacity) ∧
    (∃ w : vector T, mk_range B = .ok w ∧ w.wf ∧ 0 ≤ w.size ∧ w.size ≤ w.capacity) ∧
    (∃ w : vector T, mk_copy s = .ok w ∧ w.wf ∧ 0 ≤ w.size ∧ w.size ≤ w.capacity) ∧
    (∃ w : vector T, mk_ilist B = .ok w ∧ w.wf ∧ 0 ≤ w.size ∧ w.size ≤ w.capacity) ∧
    (v.size < 2 ^ 63 →
      ∃ w : vector T, v.push_back x = .ok w ∧ w.wf ∧ 0 ≤ w.size ∧ w.size ≤ w.capacity) ∧
    (v.pop_back.1.wf ∧ 0 ≤ v.pop_back.1.size ∧ v.pop_back.1.size ≤ v.pop_back.1.capacity) ∧
    (1 ≤ v.size → p ≤ v.size → v.size < 2 ^ 63 →
      ∃ (w : vector T) (it : MyForwardIterator), v.insert (v.begin.add (p : Int)) x = .ok (w, it) ∧
        w.wf ∧ 0 ≤ w.size ∧ w.size ≤ w.capacity) ∧
    (1 ≤ v.size → p ≤ v.size → 2 * (v.capacity + B.length) < 2 ^ 64 →
      (∃ (w : vector T) (it : MyForwardIterator),
        v.insert_range (v.begin.add (p : Int)) B = .ok (w, it) ∧
        w.wf ∧ 0 ≤ w.size ∧ w.size ≤ w.capacity) ∧
      (∃ (w : vector T) (it : MyForwardIterator),
        v.insert_ilist (v.begin.add (p : Int)) B = .ok (w, it) ∧
        w.wf ∧ 0 ≤ w.size ∧ w.size ≤ w.capacity)) ∧
    (p < v.size →
      ∃ (w : vector T) (it : MyForwardIterator), v.erase (v.begin.add (p : Int)) = .ok (w, it) ∧
        w.wf ∧ 0 ≤ w.size ∧ w.size ≤ w.capacity) ∧
    (f ≤ l → l ≤ v.size →
      ∃ (w : vector T) (it : MyForwardIterator),
        v.erase_range (v.begin.add (f : Int)) (v.begin.add (l : Int)) = .ok (w, it) ∧
        w.wf ∧ 0 ≤ w.size ∧ w.size ≤ w.capacity) ∧
    (v.clear.wf ∧ 0 ≤ v.clear.size ∧ v.clear.size ≤ v.clear.capacity) ∧
    (∃ w : vector T, v.reserve n = .ok w ∧ w.wf ∧ 0 ≤ w.size ∧ w.size ≤ w.capacity) ∧
    (∃ w : vector T, v.shrink_to_fit = .ok w ∧ w.wf ∧ 0 ≤ w.size ∧ w.size ≤ w.capacity) ∧
    (∃ w : vector T, v.assign_fill n x = .ok w ∧ w.wf ∧ 0 ≤ w.size ∧ w.size ≤ w.capacity) ∧
    (∃ w : vector T, v.assign_ilist B = .ok w ∧ w.wf ∧ 0 ≤ w.size ∧ w.size ≤ w.capacity) ∧
    (∃ w : vector T, v.assign_range B = .ok w ∧ w.wf ∧ 0 ≤ w.size ∧ w.size ≤ w.capacity) ∧
    (∃ w : vector T, copy_assign v s false = .ok w ∧ w.wf ∧ 0 ≤ w.size ∧
      w.size ≤ w.capacity) ∧
    (∃ w : vector T, copy_assign v v true = .ok w ∧ w.wf ∧ 0 ≤ w.size ∧
      w.size ≤ w.capacity) ∧
    (∃ w : vector T, ilist_assign v B = .ok w ∧ w.wf ∧ 0 ≤ w.size ∧ w.size ≤ w.capacity) ∧
    (v.size = 0 → v.m_storage.length < 2 ^ 64 → ∀ pos : Int,
      v.insert ⟨pos⟩ x = .error (.out_of_bounds (2 ^ 64 - 1)) ∧
      v.insert_range ⟨pos⟩ B = .error (.out_of_bounds (2 ^ 64 - 1)) ∧
      v.insert_ilist ⟨pos⟩ B = .error (.out_of_bounds (2 ^ 64 - 1))) := by
  refine ⟨?_, ?_, ?_, ?_, ?_, ?_, ?_, ?_, ?_, ?_, ?_, ?_, ?_, ?_, ?_, ?_, ?_, ?_, ?_, ?_⟩
  · obtain ⟨w, hw, hwf, _⟩ := mk_sized_wf (T := T) n hn
    exact ⟨w, hw, wf_bounds w hwf⟩
  · obtain ⟨w, hw, hwf, _⟩ := mk_range_result B hB
    exact ⟨w, hw, wf_bounds w hwf⟩
  · obtain ⟨w, hw, hwf, _⟩ := mk_copy_result s hs
    exact ⟨w, hw, wf_bounds w hwf⟩
  · obtain ⟨w, hw, hwf, _⟩ := mk_ilist_wf B hB
    exact ⟨w, hw, wf_bounds w hwf⟩
  · intro hsz
    obtain ⟨w, hw, hwf, _⟩ := push_back_result v x hv hsz
    exact ⟨w, hw, wf_bounds w hwf⟩
  · exact wf_bounds _ (pop_back_wf v hv)
  · intro hne hp hsz
    obtain ⟨w, hw, hwf, _⟩ := insert_result v p x hv hne hp hsz
    exact ⟨w, _, by rw [begin_add]; exact hw, wf_bounds w hwf⟩
  · intro hne hp hsz
    obtain ⟨w, hw, hwf, _⟩ := insert_range_result v p B hv hne hp hsz
    obtain ⟨u, hu, huf, _⟩ := insert_ilist_result v p B hv hne hp hsz
    exact ⟨⟨w, _, by rw [begin_add]; exact hw, wf_bounds w hwf⟩,
      ⟨u, _, by rw [begin_add]; exact hu, wf_bounds u huf⟩⟩
  · intro hp
    obtain ⟨w, hw, hwf, _⟩ := erase_result v p hv hp
    exact ⟨w, _, by rw [begin_add]; exact hw, wf_bounds w hwf⟩
  · intro hfl hl
    obtain ⟨w, hw, hwf, _⟩ := erase_range_result v f l hv hfl hl
    exact ⟨w, _, by rw [begin_add, begin_add]; exact hw, wf_bounds w hwf⟩
  · exact wf_bounds _ (clear_wf v hv)
  · obtain ⟨w, hw, hwf⟩ := reserve_wf v n hv hn
    exact ⟨w, hw, wf_bounds w hwf⟩
  · obtain ⟨w, hw, hwf, _⟩ := shrink_to_fit_result v hv
    exact ⟨w, hw, wf_bounds w hwf⟩
  · obtain ⟨w, hw, hwf⟩ := assign_fill_wf v n x hv hn
    exact ⟨w, hw, wf_bounds w hwf⟩
  · obtain ⟨w, hw, hwf⟩ := assign_ilist_wf v B hv hB
    exact ⟨w, hw, wf_bounds w hwf⟩
  · obtain ⟨w, hw, hwf⟩ := assign_range_wf v B hv hB
    exact ⟨w, hw, wf_bounds w hwf⟩
  · obtain ⟨w, hw, hwf, _⟩ := copy_assign_result v s hv hs
    exact ⟨w, hw, wf_bounds w hwf⟩
  · obtain ⟨w, hw, hwf⟩ := self_assign_wf v hv
    exact ⟨w, hw, wf_bounds w hwf⟩
  · obtain ⟨w, hw, hwf⟩ := ilist_assign_wf v B hv hB
    exact ⟨w, hw, wf_bounds w hwf⟩
  · intro h0 hl pos
    exact insert_empty_fault v pos x B hv h0 hl

/-- C24 at `v = {1,2,3}` with capacity 4, `s = {9,8}`, `B = {7,8}`, `n = 6`,
`p = 1`, `[f, l) = [0, 2)`: the `push_back`, `insert`, block `insert`, `erase`
and range `erase` parts with their conditions discharged, and the states the
code computes for some of the calls; and at the same vector after `clear()`
(size 0, capacity 4), where the three `insert` forms at `begin()` fault. -/
theorem C24_size_within_capacity_witness :
    (⟨3, 4, [1, 2, 3, 0]⟩ : vector Int).wf ∧ (⟨2, 2, [9, 8]⟩ : vector Int).wf ∧
    (6 : Nat) < 2 ^ 64 ∧ ([7, 8] : List Int).length < 2 ^ 64 ∧
    (⟨3, 4, [1, 2, 3, 0]⟩ : vector Int).size < 2 ^ 63 ∧
    1 ≤ (⟨3, 4, [1, 2, 3, 0]⟩ : vector Int).size ∧ 1 ≤ (⟨3, 4, [1, 2, 3, 0]⟩ : vector Int).size ∧
    2 * ((⟨3, 4, [1, 2, 3, 0]⟩ : vector Int).capacity + ([7, 8] : List Int).length) < 2 ^ 64 ∧
    1 < (⟨3, 4, [1, 2, 3, 0]⟩ : vector Int).size ∧ 0 ≤ 2 ∧
    2 ≤ (⟨3, 4, [1, 2, 3, 0]⟩ : vector Int).size ∧
    (∃ w : vector Int, (⟨3, 4, [1, 2, 3, 0]⟩ : vector Int).push_back 5 = .ok w ∧ w.wf ∧
      0 ≤ w.size ∧ w.size ≤ w.capacity) ∧
    (∃ (w : vector Int) (it : MyForwardIterator), (⟨3, 4, [1, 2, 3, 0]⟩ : vector Int).insert
        ((⟨3, 4, [1, 2, 3, 0]⟩ : vector Int).begin.add ((1 : Nat) : Int)) 5 = .ok (w, it) ∧
      w.wf ∧ 0 ≤ w.size ∧ w.size ≤ w.capacity) ∧
    (∃ (w : vector Int) (it : MyForwardIterator), (⟨3, 4, [1, 2, 3, 0]⟩ : vector Int).insert_range
        ((⟨3, 4, [1, 2, 3, 0]⟩ : vector Int).begin.add ((1 : Nat) : Int)) [7, 8] = .ok (w, it) ∧
      w.wf ∧ 0 ≤ w.size ∧ w.size ≤ w.capacity) ∧
    (∃ (w : vector Int) (it : MyForwardIterator), (⟨3, 4, [1, 2, 3, 0]⟩ : vector Int).erase
        ((⟨3, 4, [1, 2, 3, 0]⟩ : vector Int).begin.add ((1 : Nat) : Int)) = .ok (w, it) ∧
      w.wf ∧ 0 ≤ w.size ∧ w.size ≤ w.capacity) ∧
    (∃ (w : vector Int) (it : MyForwardIterator), (⟨3, 4, [1, 2, 3, 0]⟩ : vector Int).erase_range
        ((⟨3, 4, [1, 2, 3, 0]⟩ : vector Int).begin.add ((0 : Nat) : Int))
        ((⟨3, 4, [1, 2, 3, 0]⟩ : vector Int).begin.add ((2 : Nat) : Int)) = .ok (w, it) ∧
      w.wf ∧ 0 ≤ w.size ∧ w.size ≤ w.capacity) ∧
    (∃ w : vector Int, copy_assign (⟨3, 4, [1, 2, 3, 0]⟩ : vector Int) ⟨2, 2, [9, 8]⟩ false
        = .ok w ∧ w.wf ∧ 0 ≤ w.size ∧ w.size ≤ w.capacity) ∧
    (⟨3, 4, [1, 2, 3, 0]⟩ : vector Int).push_back 5 = .ok ⟨4, 4, [1, 2, 3, 5]⟩ ∧
    (⟨3, 4, [1, 2, 3, 0]⟩ : vector Int).pop_back = (⟨2, 4, [1, 2, 3, 0]⟩, .ok ()) ∧
    (⟨3, 4, [1, 2, 3, 0]⟩ : vector Int).shrink_to_fit = .ok ⟨3, 3, [1, 2, 3]⟩ ∧
    (⟨3, 4, [1, 2, 3, 0]⟩ : vector Int).clear = ⟨0, 4, [1, 2, 3, 0]⟩ ∧
    (⟨0, 4, [1, 2, 3, 0]⟩ : vector Int).wf ∧ (⟨2, 2, [9, 8]⟩ : vector Int).wf ∧
    (⟨0, 4, [1, 2, 3, 0]⟩ : vector Int).size = 0 ∧
    (⟨0, 4, [1, 2, 3, 0]⟩ : vector Int).m_storage.length < 2 ^ 64 ∧
    ((⟨0, 4, [1, 2, 3, 0]⟩ : vector Int).insert ⟨0⟩ 5 = .error (.out_of_bounds (2 ^ 64 - 1)) ∧
      (⟨0, 4, [1, 2, 3, 0]⟩ : vector Int).insert_range ⟨0⟩ [7, 8]
        = .error (.out_of_bounds (2 ^ 64 - 1)) ∧
      (⟨0, 4, [1, 2, 3, 0]⟩ : vector Int).insert_ilist ⟨0⟩ [7, 8]
        = .error (.out_of_bounds (2 ^ 64 - 1))) :=
  ⟨by decide, by decide, by decide, by decide, by decide, by decide, by decide, by decide,
    by decide, by decide, by decide,
    (C24_size_within_capacity ⟨3, 4, [1, 2, 3, 0]⟩ ⟨2, 2, [9, 8]⟩ 5 6 1 0 2 [7, 8]
      (by decide) (by decide) (by decide) (by decide)).2.2.2.2.1 (by decide),
    (C24_size_within_capacity ⟨3, 4, [1, 2, 3, 0]⟩ ⟨2, 2, [9, 8]⟩ 5 6 1 0 2 [7, 8]
      (by decide) (by decide) (by decide) (by decide)).2.2.2.2.2.2.1
      (by decide) (by decide) (by decide),
    ((C24_size_within_capacity ⟨3, 4, [1, 2, 3, 0]⟩ ⟨2, 2, [9, 8]⟩ 5 6 1 0 2 [7, 8]
      (by decide) (by decide) (by decide) (by decide)).2.2.2.2.2.2.2.1
      (by decide) (by decide) (by decide)).1,
    (C24_size_within_capacity ⟨3, 4, [1, 2, 3, 0]⟩ ⟨2, 2, [9, 8]⟩ 5 6 1 0 2 [7, 8]
      (by decide) (by decide) (by decide) (by decide)).2.2.2.2.2.2.2.2.1 (by decide),
    (C24_size_within_capacity ⟨3, 4, [1, 2, 3, 0]⟩ ⟨2, 2, [9, 8]⟩ 5 6 1 0 2 [7, 8]
      (by decide) (by decide) (by decide) (by decide)).2.2.2.2.2.2.2.2.2.1
      (by decide) (by decide),
    (C24_size_within_capacity ⟨3, 4, [1, 2, 3, 0]⟩ ⟨2, 2, [9, 8]⟩ 5 6 1 0 2 [7, 8]
      (by decide) (by decide) (by decide) (by decide)).2.2.2.2.2.2.2.2.2.2.2.2.2.2.2.2.1,
    by decide, by decide, by decide, by decide,
    by decide, by decide, by decide, by decide,
    (C24_size_within_capacity ⟨0, 4, [1, 2, 3, 0]⟩ ⟨2, 2, [9, 8]⟩ 5 6 1 0 2 [7, 8]
      (by decide) (by decide) (by decide) (by decide)).2.2.2.2.2.2.2.2.2.2.2.2.2.2.2.2.2.2.2
      (by decide) (by decide) 0⟩

/-- C25 (failing input, and where the claim holds): for a block `B` of `k`
elements held outside the vector, with `2 * (capacity + k)` representable.  On
a vector of size 0, whatever its capacity and also for `k = 0`, neither block
form of `insert` returns: after the growth step the shift loop reads
`m_storage[2 ^ 64 - 1]`, so there is no capacity "after the insert".  On a
non-empty vector, for `0 ≤ p ≤ size`, both forms return normally with capacity
`2 * (c + k)` when `k ≥ 1`, whatever the size was, and with capacity `c` when
`k = 0`. -/
theorem C25_block_insert_growth [Element T] (v : vector T) (p : Nat) (pos : Int) (B : List T)
    (hwf : v.wf) (hlen : v.m_storage.length < 2 ^ 64)
    (hsz : 2 * (v.capacity + B.length) < 2 ^ 64) :
    (v.size = 0 →
      v.insert_range ⟨pos⟩ B = .error (.out_of_bounds (2 ^ 64 - 1)) ∧
      v.insert_ilist ⟨pos⟩ B = .error (.out_of_bounds (2 ^ 64 - 1))) ∧
    (1 ≤ v.size → p ≤ v.size →
      (∃ (w : vector T) (it : MyForwardIterator),
        v.insert_range (v.begin.add (p : Int)) B = .ok (w, it) ∧
        (1 ≤ B.length → w.capacity = 2 * (v.capacity + B.length)) ∧
        (B.length = 0 → w.capacity = v.capacity)) ∧
      (∃ (w : vector T) (it : MyForwardIterator),
        v.insert_ilist (v.begin.add (p : Int)) B = .ok (w, it) ∧
        (1 ≤ B.length → w.capacity = 2 * (v.capacity + B.length)) ∧
        (B.length = 0 → w.capacity = v.capacity))) := by
  refine ⟨?_, ?_⟩
  · intro h0
    cases B with
    | nil => exact (insert_empty_fault v pos Element.init [] hwf h0 hlen).2
    | cons b rest => exact (insert_empty_fault v pos b (b :: rest) hwf h0 hlen).2
  · intro hne hp
    obtain ⟨w, hw, _, _, _, hc1, hc2⟩ := insert_range_result v p B hwf hne hp hsz
    obtain ⟨u, hu, _, _, _, hd1, hd2⟩ := insert_ilist_result v p B hwf hne hp hsz
    exact ⟨⟨w, _, by rw [begin_add]; exact hw, hc1, hc2⟩,
      ⟨u, _, by rw [begin_add]; exact hu, hd1, hd2⟩⟩

/-- C25 at the empty vector with capacity 4 and the block `{7,8}` (two elements
would fit), where both forms fault, also for the empty block; and at the vector
`{5}` with capacity 4, `p = 1`, where both forms leave capacity
`2 * (4 + 2) = 12`. -/
theorem C25_block_insert_growth_witness :
    (⟨0, 4, [0, 0, 0, 0]⟩ : vector Int).wf ∧
    (⟨0, 4, [0, 0, 0, 0]⟩ : vector Int).m_storage.length < 2 ^ 64 ∧
    2 * ((⟨0, 4, [0, 0, 0, 0]⟩ : vector Int).capacity + ([7, 8] : List Int).length) < 2 ^ 64 ∧
    (⟨0, 4, [0, 0, 0, 0]⟩ : vector Int).size = 0 ∧
    (⟨0, 4, [0, 0, 0, 0]⟩ : vector Int).size + ([7, 8] : List Int).length
      ≤ (⟨0, 4, [0, 0, 0, 0]⟩ : vector Int).capacity ∧
    ((⟨0, 4, [0, 0, 0, 0]⟩ : vector Int).insert_range ⟨0⟩ [7, 8]
        = .error (.out_of_bounds (2 ^ 64 - 1)) ∧
      (⟨0, 4, [0, 0, 0, 0]⟩ : vector Int).insert_ilist ⟨0⟩ [7, 8]
        = .error (.out_of_bounds (2 ^ 64 - 1))) ∧
    (⟨0, 4, [0, 0, 0, 0]⟩ : vector Int).insert_range ⟨0⟩ []
      = .error (.out_of_bounds (2 ^ 64 - 1)) ∧
    (⟨0, 4, [0, 0, 0, 0]⟩ : vector Int).insert_ilist ⟨0⟩ []
      = .error (.out_of_bounds (2 ^ 64 - 1)) ∧
    (⟨1, 4, [5, 0, 0, 0]⟩ : vector Int).wf ∧
    (⟨1, 4, [5, 0, 0, 0]⟩ : vector Int).m_storage.length < 2 ^ 64 ∧
    2 * ((⟨1, 4, [5, 0, 0, 0]⟩ : vector Int).capacity + ([7, 8] : List Int).length) < 2 ^ 64 ∧
    1 ≤ (⟨1, 4, [5, 0, 0, 0]⟩ : vector Int).size ∧
    (∃ (w : vector Int) (it : MyForwardIterator),
      (⟨1, 4, [5, 0, 0, 0]⟩ : vector Int).insert_range
        ((⟨1, 4, [5, 0, 0, 0]⟩ : vector Int).begin.add ((1 : Nat) : Int)) [7, 8] = .ok (w, it) ∧
      (1 ≤ ([7, 8] : List Int).length → w.capacity
        = 2 * ((⟨1, 4, [5, 0, 0, 0]⟩ : vector Int).capacity + ([7, 8] : List Int).length)) ∧
      (([7, 8] : List Int).length = 0 → w.capacity
        = (⟨1, 4, [5, 0, 0, 0]⟩ : vector Int).capacity)) ∧
    (∃ w : vector Int, (⟨1, 4, [5, 0, 0, 0]⟩ : vector Int).insert_range ⟨1⟩ [7, 8]
        = .ok (w, ⟨1⟩) ∧ w.live = [5, 7, 8] ∧ w.capacity = 12) ∧
    (∃ w : vector Int, (⟨1, 4, [5, 0, 0, 0]⟩ : vector Int).insert_ilist ⟨1⟩ [7, 8]
        = .ok (w, ⟨1⟩) ∧ w.live = [5, 7, 8] ∧ w.capacity = 12) ∧
    (⟨1, 4, [5, 0, 0, 0]⟩ : vector Int).insert_range ⟨1⟩ []
      = .ok (⟨1, 4, [5, 0, 0, 0]⟩, ⟨1⟩) :=
  ⟨by decide, by decide, by decide, by decide, by decide,
    (C25_block_insert_growth ⟨0, 4, [0, 0, 0, 0]⟩ 0 0 [7, 8] (by decide) (by decide)
      (by decide)).1 (by decide),
    by decide, by decide, by decide, by decide, by decide, by decide,
    ((C25_block_insert_growth ⟨1, 4, [5, 0, 0, 0]⟩ 1 0 [7, 8] (by decide) (by decide)
      (by decide)).2 (by decide) (by decide)).1,
    ⟨⟨3, 12, [5, 7, 8, 0, 0, 0, 0, 0, 0, 0, 0, 0]⟩, by decide, by decide, by decide⟩,
    ⟨⟨3, 12, [5, 7, 8, 0, 0, 0, 0, 0, 0, 0, 0, 0]⟩, by decide, by decide, by decide⟩,
    by decide⟩

/-- C27 (as the code behaves): in every reachable state the indices in
`[size, capacity)` lie inside the allocated array, but no operation resets a
slot it stops using.  `clear()` and `pop_back()` only change the size and leave
the array as it was, so every old live element stays where it was after
`clear()` and the removed element stays in the slot at the new size after
`pop_back()`; `erase` at `p < size` leaves the removed element in the slot at
the new size as well.  All these states are again reachable. -/
theorem C27_unused_slots [Element T] (v : vector T) (h : reachable v) :
    (v.size ≤ v.capacity ∧ v.capacity ≤ v.m_storage.length) ∧
    (reachable v.clear ∧ v.clear.size = 0 ∧ v.clear.capacity = v.capacity ∧
      v.clear.m_storage = v.m_storage ∧
      ∀ i, i < v.size → v.clear.m_storage[i]? = v.live[i]?) ∧
    (1 ≤ v.size →
      reachable v.pop_back.1 ∧ v.pop_back.1.size = v.size - 1 ∧
      v.pop_back.1.capacity = v.capacity ∧ v.pop_back.1.m_storage = v.m_storage ∧
      ∃ x : T, v.live[v.size - 1]? = some x ∧
        v.pop_back.1.m_storage[v.pop_back.1.size]? = some x) ∧
    (∀ p, p < v.size →
      ∃ (w : vector T) (it : MyForwardIterator) (x : T),
        v.erase (v.begin.add (p : Int)) = .ok (w, it) ∧ reachable w ∧
        w.size = v.size - 1 ∧ w.capacity = v.capacity ∧
        v.live[p]? = some x ∧ w.m_storage[w.size]? = some x) := by
  have hwf := reachable_wf v h
  have h1 := hwf.1
  have h2 : v.m_end ≤ v.m_capacity := hwf.2.1
  refine ⟨⟨h2, h1⟩, ⟨reachable.by_clear v h, rfl, rfl, rfl, ?_⟩, ?_, ?_⟩
  · intro i hi
    have hi1 : i < v.m_end := hi
    show v.m_storage[i]? = (v.m_storage.take v.m_end)[i]?
    rw [List.getElem?_take, if_pos hi1]
  · intro hne
    have hn : v.m_end ≠ 0 := by
      have : 1 ≤ v.m_end := hne
      omega
    have hp := (pop_back_result v hwf).2 hn
    obtain ⟨x, hx, hxl⟩ := index_ok v (v.m_end - 1) hwf (by omega)
    refine ⟨reachable.by_pop_back v h, ?_, ?_, ?_, x, hxl, ?_⟩
    · rw [hp]; rfl
    · rw [hp]; rfl
    · rw [hp]
    · rw [hp]
      show v.m_storage[v.m_end - 1]? = some x
      rw [← hxl, live_getElem? v _ (by omega)]
  · intro p hp
    have hp1 : p < v.m_end := hp
    obtain ⟨w, hw, _, hwe, hwc, _, hslot⟩ := erase_result v p hwf hp1
    obtain ⟨x, _, hxl⟩ := index_ok v p hwf hp1
    refine ⟨w, _, x, by rw [begin_add]; exact hw,
      reachable.by_erase v w p _ h hp hw, hwe, hwc, hxl, ?_⟩
    show w.m_storage[w.m_end]? = some x
    rw [hwe, hslot, ← hxl, live_getElem? v _ hp1]

/-- C27 (as the code behaves) at `{1,2,3}` built from an initializer list. -/
theorem C27_unused_slots_witness :
    reachable (⟨3, 3, [1, 2, 3]⟩ : vector Int) ∧
    1 ≤ (⟨3, 3, [1, 2, 3]⟩ : vector Int).size ∧
    (reachable (⟨3, 3, [1, 2, 3]⟩ : vector Int).pop_back.1 ∧
      (⟨3, 3, [1, 2, 3]⟩ : vector Int).pop_back.1.size
        = (⟨3, 3, [1, 2, 3]⟩ : vector Int).size - 1 ∧
      (⟨3, 3, [1, 2, 3]⟩ : vector Int).pop_back.1.capacity
        = (⟨3, 3, [1, 2, 3]⟩ : vector Int).capacity ∧
      (⟨3, 3, [1, 2, 3]⟩ : vector Int).pop_back.1.m_storage
        = (⟨3, 3, [1, 2, 3]⟩ : vector Int).m_storage ∧
      ∃ x : Int, (⟨3, 3, [1, 2, 3]⟩ : vector Int).live[
          (⟨3, 3, [1, 2, 3]⟩ : vector Int).size - 1]? = some x ∧
        (⟨3, 3, [1, 2, 3]⟩ : vector Int).pop_back.1.m_storage[
          (⟨3, 3, [1, 2, 3]⟩ : vector Int).pop_back.1.size]? = some x) ∧
    (⟨3, 3, [1, 2, 3]⟩ : vector Int).pop_back.1.m_storage[2]? = some 3 ∧
    (⟨3, 3, [1, 2, 3]⟩ : vector Int).erase ⟨0⟩ = .ok (⟨2, 3, [2, 3, 1]⟩, ⟨0⟩) :=
  ⟨reachable.of_ilist [1, 2, 3] ⟨3, 3, [1, 2, 3]⟩ (by decide) (by decide), by decide,
    (C27_unused_slots ⟨3, 3, [1, 2, 3]⟩
      (reachable.of_ilist [1, 2, 3] ⟨3, 3, [1, 2, 3]⟩ (by decide) (by decide))).2.2.1
      (by decide),
    by decide, by decide⟩

end vector

namespace vector
variable {T : Type}

/-- The shift loop on a grown, non-empty vector: the record of its body
executions, the array it returns, and that array slot by slot. -/
theorem shift_both (a : List T) (n p k o nw : Nat) (hn : 1 ≤ n) (hp : p ≤ n)
    (hlen : n + k ≤ a.length) (hmax : n + k < 2 ^ 64) (ho : o = n - 1) (hnw : nw = n - 1 + k) :
    ∃ b : List T,
      shift_loop_steps p o nw a
        = ((List.range (n - p)).map (fun j => (n - 1 + k - j, n - 1 - j)), .ok b) ∧
      shift_loop p o nw a = .ok b ∧ b.length = a.length ∧
      ∀ i, b[i]? = if p + k ≤ i ∧ i ≤ n - 1 + k then a[i - k]? else a[i]? := by
  obtain ⟨b, hb⟩ := shift_steps_at a n p k o nw hn hp hlen hmax ho hnw
  have hs : shift_loop p o nw a = .ok b := by rw [← shift_loop_steps_snd, hb]
  subst ho; subst hnw
  obtain ⟨b1, hb1, hbl, hbi⟩ := shift_loop_ok p k (n - 1) a (by omega) (by omega) (by omega)
  have e : b1 = b := by rw [hb1] at hs; exact Except.ok.inj hs
  subst e
  exact ⟨b1, hb, hb1, hbl, hbi⟩

/-- C28: the backward shift loop as the three `insert` overloads run it.  On a
well-formed vector of size `n ≥ 1` (sizes representable) and `0 ≤ p ≤ n`, each
overload first reaches, by its growth step, a state `v1` with room for the new
elements; on the array of `v1` the loop `shift_loop` returns an array `b`, and
the overload returns the state built from `b` (the value stored at `p`, or the
block written from `p` on).  `b` differs from the array of `v1` exactly in the
slots `p + k … n - 1 + k`, which hold the old slots `p … n - 1` (`k` = 1 or the
block length): `n - p` copies.  The record `shift_loop_steps` of the same run
lists exactly `n - p` executions of the assignment, the `j`-th with destination
`n - 1 + k - j` and source `n - 1 - j` (so the last source index is 0 when
`p = 0`, where the loop leaves through `break`), all below the capacity.  On a
vector of size 0 the value `old_m_end - 1` is `2 ^ 64 - 1`, the guard
`old_element >= position` holds for every position, the record is the single
read of index `2 ^ 64 - 1`, outside the array, and all three overloads end
there. -/
theorem C28_shift_loop_bounds [Element T] (v : vector T) (pos : Int) (p : Nat) (x : T)
    (B : List T) (hwf : v.wf) (hlen : v.m_storage.length < 2 ^ 64) :
    (1 ≤ v.size → p ≤ v.size → v.size < 2 ^ 63 → 2 * (v.capacity + B.length) < 2 ^ 64 →
      (∃ (v1 : vector T) (tr : List (Nat × Nat)) (b : List T),
        (if v.full then v.reserve (if v.m_capacity = 0 then wrap (v.m_capacity + 1)
          else wrap (v.m_capacity * 2)) else pure v) = .ok v1 ∧
        shift_loop_steps (to_size (p : Int)) (to_size ((v1.m_end : Int) - 1))
          (to_size ((wrap (v1.m_end + 1) : Int) - 1)) v1.m_storage = (tr, .ok b) ∧
        shift_loop (to_size (p : Int)) (to_size ((v1.m_end : Int) - 1))
          (to_size ((wrap (v1.m_end + 1) : Int) - 1)) v1.m_storage = .ok b ∧
        v.insert ⟨(p : Int)⟩ x = .ok (⟨v.size + 1, v1.capacity, b.set p x⟩, ⟨(p : Int)⟩) ∧
        (∀ i, b[i]? = if p + 1 ≤ i ∧ i ≤ v.size - 1 + 1 then v1.m_storage[i - 1]?
          else v1.m_storage[i]?) ∧
        tr = (List.range (v.size - p)).map (fun j => (v.size - 1 + 1 - j, v.size - 1 - j)) ∧
        tr.length = v.size - p ∧ ∀ e ∈ tr, e.1 < v1.capacity ∧ e.2 < v1.capacity) ∧
      (∃ (v1 : vector T) (tr : List (Nat × Nat)) (b d : List T),
        (if to_size ((v.capacity : Int) + ((B.length : Nat) : Int)) > v.m_capacity then
          v.reserve (wrap (to_size ((v.m_capacity : Int) + ((B.length : Nat) : Int)) * 2))
          else pure v) = .ok v1 ∧
        shift_loop_steps (to_size (p : Int)) (to_size ((v1.m_end : Int) - 1))
          (to_size ((to_size ((v1.m_end : Int) + ((B.length : Nat) : Int)) : Int) - 1))
          v1.m_storage = (tr, .ok b) ∧
        shift_loop (to_size (p : Int)) (to_size ((v1.m_end : Int) - 1))
          (to_size ((to_size ((v1.m_end : Int) + ((B.length : Nat) : Int)) : Int) - 1))
          v1.m_storage = .ok b ∧
        write_range ((p : Int) + ((B.length : Nat) : Int)) (p : Int) B b = .ok d ∧
        v.insert_range ⟨(p : Int)⟩ B = .ok (⟨v.size + B.length, v1.capacity, d⟩, ⟨(p : Int)⟩) ∧
        (∀ i, b[i]? = if p + B.length ≤ i ∧ i ≤ v.size - 1 + B.length
          then v1.m_storage[i - B.length]? else v1.m_storage[i]?) ∧
        tr = (List.range (v.size - p)).map
          (fun j => (v.size - 1 + B.length - j, v.size - 1 - j)) ∧
        tr.length = v.size - p ∧ ∀ e ∈ tr, e.1 < v1.capacity ∧ e.2 < v1.capacity) ∧
      (∃ (v1 : vector T) (tr : List (Nat × Nat)) (b d : List T),
        (if wrap (v.capacity + B.length) > v.m_capacity then
          v.reserve (wrap (wrap (v.m_capacity + B.length) * 2)) else pure v) = .ok v1 ∧
        shift_loop_steps (to_size (p : Int)) (to_size ((v1.m_end : Int) - 1))
          (to_size ((wrap (v1.m_end + B.length) : Int) - 1)) v1.m_storage = (tr, .ok b) ∧
        shift_loop (to_size (p : Int)) (to_size ((v1.m_end : Int) - 1))
          (to_size ((wrap (v1.m_end + B.length) : Int) - 1)) v1.m_storage = .ok b ∧
        write_ilist (wrap (to_size (p : Int) + B.length)) (p : Int) B b = .ok d ∧
        v.insert_ilist ⟨(p : Int)⟩ B = .ok (⟨v.size + B.length, v1.capacity, d⟩, ⟨(p : Int)⟩) ∧
        (∀ i, b[i]? = if p + B.length ≤ i ∧ i ≤ v.size - 1 + B.length
          then v1.m_storage[i - B.length]? else v1.m_storage[i]?) ∧
        tr = (List.range (v.size - p)).map
          (fun j => (v.size - 1 + B.length - j, v.size - 1 - j)) ∧
        tr.length = v.size - p ∧ ∀ e ∈ tr, e.1 < v1.capacity ∧ e.2 < v1.capacity)) ∧
    (v.size = 0 →
      to_size ((v.size : Int) - 1) = 2 ^ 64 - 1 ∧
      to_size ((v.size : Int) - 1) ≥ to_size pos ∧
      (∀ (n : Nat) (a : List T), a.length < 2 ^ 64 →
        shift_loop_steps (to_size pos) (to_size ((v.size : Int) - 1)) n a
          = ([(n, 2 ^ 64 - 1)], .error (.out_of_bounds (2 ^ 64 - 1))) ∧
        shift_loop (to_size pos) (to_size ((v.size : Int) - 1)) n a
          = .error (.out_of_bounds (2 ^ 64 - 1))) ∧
      v.insert ⟨pos⟩ x = .error (.out_of_bounds (2 ^ 64 - 1)) ∧
      v.insert_range ⟨pos⟩ B = .error (.out_of_bounds (2 ^ 64 - 1)) ∧
      v.insert_ilist ⟨pos⟩ B = .error (.out_of_bounds (2 ^ 64 - 1))) := by
  refine ⟨?_, ?_⟩
  · intro hne hp hsz hcap
    have hn : 1 ≤ v.m_end := hne
    have hp1 : p ≤ v.m_end := hp
    have hsz1 : v.m_end < 2 ^ 63 := hsz
    have hcap1 : 2 * (v.m_capacity + B.length) < 2 ^ 64 := hcap
    have hv2 := hwf.2.1
    have hv3 := hwf.2.2
    have hps : to_size (p : Int) = p := to_size_of_lt (by omega)
    have hpos : (⟨(p : Int)⟩ : MyForwardIterator).diff v.begin = (p : Int) := by
      simp [MyForwardIterator.diff, begin]
    refine ⟨?_, ?_, ?_⟩
    · obtain ⟨v1, hres, hsame, hwf1, he1, _, hroom, _, _⟩ := grow_if_full v hwf hsz
      have h1 := hwf1.1
      have h12 := hwf1.2.1
      have h13 := hwf1.2.2
      have hw : wrap (v1.m_end + 1) = v1.m_end + 1 := wrap_of_lt (by omega)
      have hold : to_size ((v1.m_end : Int) - 1) = v1.m_end - 1 :=
        to_size_pred (by omega) (by omega)
      have hnew : to_size (((v1.m_end + 1 : Nat) : Int) - 1) = v1.m_end - 1 + 1 := by
        rw [to_size_natCast_pred_succ _ (by omega)]; omega
      obtain ⟨b, hb, hs, hbl, hbi⟩ := shift_both v1.m_storage v.m_end p 1 (v1.m_end - 1)
        (v1.m_end - 1 + 1) hn hp1 (by omega) (by omega) (by omega) (by omega)
      obtain ⟨hlen1, hbd⟩ := shift_steps_bounds v.m_end p 1 v1.m_capacity hn
        (by show v.m_end + _ ≤ v1.m_capacity; omega)
      have hst : p < b.length := by omega
      have hgrow : (if v.full then v.reserve (if v.m_capacity = 0 then wrap (v.m_capacity + 1)
          else wrap (v.m_capacity * 2)) else pure v) = .ok v1 := by
        by_cases hf : v.full = true
        · rw [if_pos hf]; exact hres hf
        · rw [if_neg hf, hsame hf]; rfl
      refine ⟨v1, _, b, hgrow, by rw [hps, hold, hw, hnew]; exact hb,
        by rw [hps, hold, hw, hnew]; exact hs, ?_, hbi, rfl, hlen1, hbd⟩
      unfold insert
      simp only [hpos]
      by_cases hf : v.full = true
      · rw [if_pos hf, hres hf]
        simp only [bind, Except.bind, hw, hold, hnew, hps, hs, storeI_natCast,
          store_ok x hst, pure, Except.pure, MyForwardIterator.add, begin]
        simp [size, capacity, he1]
      · rw [if_neg hf, ← hsame hf]
        simp only [bind, Except.bind, hw, hold, hnew, hps, hs, storeI_natCast,
          store_ok x hst, pure, Except.pure, MyForwardIterator.add, begin]
        simp [size, capacity, he1]
    · obtain ⟨v1, hres, hsame, hwf1, he1, _, hroom, _, _⟩ := block_grow v B.length hwf hcap
      obtain ⟨t1, _, t3, _⟩ := block_trigger v B.length hcap
      have h1 := hwf1.1
      have h12 := hwf1.2.1
      have h13 := hwf1.2.2
      have hcapk1 : to_size ((v.m_capacity : Int) + ((B.length : Nat) : Int))
          = v.m_capacity + B.length := to_size_add _ _ (by omega)
      have hcapk : to_size ((v.capacity : Int) + ((B.length : Nat) : Int))
          = v.m_capacity + B.length := hcapk1
      have hnewcap : wrap ((v.m_capacity + B.length) * 2) = 2 * (v.m_capacity + B.length) := by
        rw [wrap_of_lt (by omega)]; omega
      have hend : to_size ((v1.m_end : Int) + ((B.length : Nat) : Int))
          = v1.m_end + B.length := to_size_add _ _ (by omega)
      have hold : to_size ((v1.m_end : Int) - 1) = v1.m_end - 1 :=
        to_size_pred (by omega) (by omega)
      have hnew : to_size (((v1.m_end + B.length : Nat) : Int) - 1)
          = v1.m_end - 1 + B.length := by
        rw [to_size_pred (by omega) (by omega)]; omega
      obtain ⟨b, hb, hs, hbl, hbi⟩ := shift_both v1.m_storage v.m_end p B.length (v1.m_end - 1)
        (v1.m_end - 1 + B.length) hn hp1 (by omega) (by omega) (by omega) (by omega)
      obtain ⟨d, hd, hdl, hdi⟩ := write_range_ok B p (p : Int)
        ((p : Int) + ((B.length : Nat) : Int)) b rfl rfl (by omega)
      obtain ⟨hlen1, hbd⟩ := shift_steps_bounds v.m_end p B.length v1.m_capacity hn
        (by show v.m_end + _ ≤ v1.m_capacity; omega)
      have hgrow : (if to_size ((v.capacity : Int) + ((B.length : Nat) : Int)) > v.m_capacity
          then v.reserve (wrap (to_size ((v.m_capacity : Int) + ((B.length : Nat) : Int)) * 2))
          else pure v) = .ok v1 := by
        by_cases hk : 1 ≤ B.length
        · rw [if_pos (t1.2 hk), t3]
          have e : (v.m_capacity + B.length) * 2 = 2 * (v.m_capacity + B.length) := by omega
          rw [e]; exact hres (by omega)
        · rw [if_neg (fun h => hk (t1.1 h)), hsame (by omega)]; rfl
      refine ⟨v1, _, b, d, hgrow, by rw [hps, hold, hend, hnew]; exact hb,
        by rw [hps, hold, hend, hnew]; exact hs, hd, ?_, hbi, rfl, hlen1, hbd⟩
      unfold insert_range
      simp only [hpos, hcapk, hcapk1, hnewcap]
      by_cases hk : 0 < B.length
      · have hcond : v.m_capacity + B.length > v.m_capacity := by omega
        rw [if_pos hcond, hres hk]
        simp only [bind, Except.bind, hend, hold, hnew, hps, hs, hd, pure, Except.pure,
          MyForwardIterator.add, begin]
        simp [size, capacity, he1]
      · have hcond : ¬ (v.m_capacity + B.length > v.m_capacity) := by omega
        rw [if_neg hcond, ← hsame (by omega)]
        simp only [bind, Except.bind, hend, hold, hnew, hps, hs, hd, pure, Except.pure,
          MyForwardIterator.add, begin]
        simp [size, capacity, he1]
    · obtain ⟨v1, hres, hsame, hwf1, he1, _, hroom, _, _⟩ := block_grow v B.length hwf hcap
      obtain ⟨_, t2, _, t4⟩ := block_trigger v B.length hcap
      have h1 := hwf1.1
      have h12 := hwf1.2.1
      have h13 := hwf1.2.2
      have hcapk : wrap (v.capacity + B.length) = v.m_capacity + B.length :=
        wrap_of_lt (by show v.m_capacity + _ < _; omega)
      have hcapk1 : wrap (v.m_capacity + B.length) = v.m_capacity + B.length :=
        wrap_of_lt (by omega)
      have hnewcap : wrap ((v.m_capacity + B.length) * 2) = 2 * (v.m_capacity + B.length) := by
        rw [wrap_of_lt (by omega)]; omega
      have hend : wrap (v1.m_end + B.length) = v1.m_end + B.length := wrap_of_lt (by omega)
      have hold : to_size ((v1.m_end : Int) - 1) = v1.m_end - 1 :=
        to_size_pred (by omega) (by omega)
      have hnew : to_size (((v1.m_end + B.length : Nat) : Int) - 1)
          = v1.m_end - 1 + B.length := by
        rw [to_size_pred (by omega) (by omega)]; omega
      have hstop : wrap (p + B.length) = p + B.length := wrap_of_lt (by omega)
      obtain ⟨b, hb, hs, hbl, hbi⟩ := shift_both v1.m_storage v.m_end p B.length (v1.m_end - 1)
        (v1.m_end - 1 + B.length) hn hp1 (by omega) (by omega) (by omega) (by omega)
      obtain ⟨d, hd, hdl, hdi⟩ := write_ilist_ok B p (p : Int) (p + B.length) b rfl rfl
        (by omega) (by omega)
      obtain ⟨hlen1, hbd⟩ := shift_steps_bounds v.m_end p B.length v1.m_capacity hn
        (by show v.m_end + _ ≤ v1.m_capacity; omega)
      have hgrow : (if wrap (v.capacity + B.length) > v.m_capacity then
          v.reserve (wrap (wrap (v.m_capacity + B.length) * 2)) else pure v) = .ok v1 := by
        by_cases hk : 1 ≤ B.length
        · rw [if_pos (t2.2 hk), t4]
          have e : (v.m_capacity + B.length) * 2 = 2 * (v.m_capacity + B.length) := by omega
          rw [e]; exact hres (by omega)
        · rw [if_neg (fun h => hk (t2.1 h)), hsame (by omega)]; rfl
      refine ⟨v1, _, b, d, hgrow, by rw [hps, hold, hend, hnew]; exact hb,
        by rw [hps, hold, hend, hnew]; exact hs, by rw [hps, hstop]; exact hd, ?_, hbi, rfl,
        hlen1, hbd⟩
      unfold insert_ilist
      simp only [hpos, hcapk, hcapk1, hnewcap]
      by_cases hk : 0 < B.length
      · have hcond : v.m_capacity + B.length > v.m_capacity := by omega
        rw [if_pos hcond, hres hk]
        simp only [bind, Except.bind, hend, hold, hnew, hps, hstop, hs, hd, pure, Except.pure,
          MyForwardIterator.add, begin]
        simp [size, capacity, he1]
      · have hcond : ¬ (v.m_capacity + B.length > v.m_capacity) := by omega
        rw [if_neg hcond, ← hsame (by omega)]
        simp only [bind, Except.bind, hend, hold, hnew, hps, hstop, hs, hd, pure, Except.pure,
          MyForwardIterator.add, begin]
        simp [size, capacity, he1]
  · intro h0
    have he : v.m_end = 0 := h0
    have hm1 : to_size ((v.size : Int) - 1) = 2 ^ 64 - 1 := by
      show to_size ((v.m_end : Int) - 1) = 2 ^ 64 - 1
      rw [he]; exact to_size_neg_one
    have hpl := to_size_lt pos
    obtain ⟨f1, f2, f3⟩ := insert_empty_fault v pos x B hwf h0 hlen
    refine ⟨hm1, by rw [hm1]; omega, ?_, f1, f2, f3⟩
    intro n a ha
    rw [hm1]
    have h := shift_loop_steps_fault (to_size pos) (2 ^ 64 - 1) n a (by norm_num) (by omega)
      (by omega)
    have h2 : shift_loop (to_size pos) (2 ^ 64 - 1) n a
        = .error (.out_of_bounds (2 ^ 64 - 1)) := by
      rw [← shift_loop_steps_snd, h]; norm_num
    refine ⟨?_, h2⟩
    rw [h]; norm_num

end vector
namespace vector
variable {T : Type}

/-- C28 at `{1,2,3}` with capacity 4, `p = 1` and the value 9 (the loop copies
slot 2 to slot 3 and slot 1 to slot 2, and `insert` returns `{1,9,2,3}`), and at
the default-constructed vector, where the three overloads read index
`2 ^ 64 - 1`. -/
theorem C28_shift_loop_bounds_witness :
    (⟨3, 4, [1, 2, 3, 0]⟩ : vector Int).wf ∧ (⟨3, 4, [1, 2, 3, 0]⟩ : vector Int).m_storage.length < 2 ^ 64 ∧
    1 ≤ (⟨3, 4, [1, 2, 3, 0]⟩ : vector Int).size ∧ 1 ≤ (⟨3, 4, [1, 2, 3, 0]⟩ : vector Int).size ∧ (⟨3, 4, [1, 2, 3, 0]⟩ : vector Int).size < 2 ^ 63 ∧
    2 * ((⟨3, 4, [1, 2, 3, 0]⟩ : vector Int).capacity + ([7, 8] : List Int).length) < 2 ^ 64 ∧
    (∃ (v1 : vector Int) (tr : List (Nat × Nat)) (b : List Int),
      (if (⟨3, 4, [1, 2, 3, 0]⟩ : vector Int).full then (⟨3, 4, [1, 2, 3, 0]⟩ : vector Int).reserve (if (⟨3, 4, [1, 2, 3, 0]⟩ : vector Int).m_capacity = 0 then wrap ((⟨3, 4, [1, 2, 3, 0]⟩ : vector Int).m_capacity + 1)
        else wrap ((⟨3, 4, [1, 2, 3, 0]⟩ : vector Int).m_capacity * 2)) else pure (⟨3, 4, [1, 2, 3, 0]⟩ : vector Int)) = .ok v1 ∧
      shift_loop_steps (to_size ((1 : Nat) : Int)) (to_size ((v1.m_end : Int) - 1))
        (to_size ((wrap (v1.m_end + 1) : Int) - 1)) v1.m_storage = (tr, .ok b) ∧
      shift_loop (to_size ((1 : Nat) : Int)) (to_size ((v1.m_end : Int) - 1))
        (to_size ((wrap (v1.m_end + 1) : Int) - 1)) v1.m_storage = .ok b ∧
      (⟨3, 4, [1, 2, 3, 0]⟩ : vector Int).insert ⟨((1 : Nat) : Int)⟩ 9
        = .ok (⟨(⟨3, 4, [1, 2, 3, 0]⟩ : vector Int).size + 1, v1.capacity, b.set 1 9⟩, ⟨((1 : Nat) : Int)⟩) ∧
      (∀ i, b[i]? = if 1 + 1 ≤ i ∧ i ≤ (⟨3, 4, [1, 2, 3, 0]⟩ : vector Int).size - 1 + 1 then v1.m_storage[i - 1]?
        else v1.m_storage[i]?) ∧
      tr = (List.range ((⟨3, 4, [1, 2, 3, 0]⟩ : vector Int).size - 1)).map (fun j => ((⟨3, 4, [1, 2, 3, 0]⟩ : vector Int).size - 1 + 1 - j, (⟨3, 4, [1, 2, 3, 0]⟩ : vector Int).size - 1 - j)) ∧
      tr.length = (⟨3, 4, [1, 2, 3, 0]⟩ : vector Int).size - 1 ∧ ∀ e ∈ tr, e.1 < v1.capacity ∧ e.2 < v1.capacity) ∧
    shift_loop_steps 1 2 3 ([1, 2, 3, 0] : List Int)
      = ([(3, 2), (2, 1)], .ok [1, 2, 2, 3]) ∧
    shift_loop 1 2 3 ([1, 2, 3, 0] : List Int) = .ok [1, 2, 2, 3] ∧
    (⟨3, 4, [1, 2, 3, 0]⟩ : vector Int).insert ⟨1⟩ 9 = .ok (⟨4, 4, [1, 9, 2, 3]⟩, ⟨1⟩) ∧
    (⟨0, 0, []⟩ : vector Int).wf ∧ (⟨0, 0, []⟩ : vector Int).m_storage.length < 2 ^ 64 ∧ (⟨0, 0, []⟩ : vector Int).size = 0 ∧
    (⟨0, 0, []⟩ : vector Int).insert ⟨0⟩ 9 = .error (.out_of_bounds (2 ^ 64 - 1)) ∧
    (⟨0, 0, []⟩ : vector Int).insert_range ⟨0⟩ [7, 8] = .error (.out_of_bounds (2 ^ 64 - 1)) ∧
    (⟨0, 0, []⟩ : vector Int).insert_ilist ⟨0⟩ [7, 8] = .error (.out_of_bounds (2 ^ 64 - 1)) :=
  ⟨by decide, by decide, by decide, by decide, by decide, by decide,
    ((C28_shift_loop_bounds ⟨3, 4, [1, 2, 3, 0]⟩ 1 1 9 [7, 8] (by decide) (by decide)).1
      (by decide) (by decide) (by decide) (by decide)).1,
    by decide, by decide, by decide, by decide, by decide, by decide,
    ((C28_shift_loop_bounds ⟨0, 0, []⟩ 0 0 9 [7, 8] (by decide) (by decide)).2
      (by decide)).2.2.2.1,
    ((C28_shift_loop_bounds ⟨0, 0, []⟩ 0 0 9 [7, 8] (by decide) (by decide)).2
      (by decide)).2.2.2.2.1,
    ((C28_shift_loop_bounds ⟨0, 0, []⟩ 0 0 9 [7, 8] (by decide) (by decide)).2
      (by decide)).2.2.2.2.2⟩

end vector

namespace Store
variable {T : Type}

theorem read_delete_same (st : Store T) (p : Nat) :
    (st.delete_arr p).read p = .error (.dangling p) := by
  unfold read delete_arr
  by_cases h : p < st.arrays.length
  · simp [List.getElem?_set, h]
  · simp [List.getElem?_eq_none (show (st.arrays.set p none).length ≤ p by simp; omega)]

theorem deref_inv {st : Store T} {r : const_reference} {x : T} (h : st.deref r = .ok x) :
    ∃ R : List T, st.read r.m_array = .ok R ∧ load R r.m_index = .ok x := by
  unfold deref at h
  exact vector.bind_ok_inv h

theorem deref_of_read {st : Store T} {r : const_reference} {R : List T} {x : T}
    (hR : st.read r.m_array = .ok R) (hx : load R r.m_index = .ok x) : st.deref r = .ok x := by
  simp only [deref, hR, bind, Except.bind, hx]

end Store

namespace vector_obj
variable {T : Type}

/-- The store-level `reserve` on an object whose array is `A` computes what
`vector.reserve` computes on the vector it denotes; arrays at other addresses
are left as they were, and when it grows, the old array is released. -/
theorem obj_reserve_result [Element T] (st : Store T) (o : vector_obj) (A : List T) (n : Nat)
    (hA : st.read o.m_storage = .ok A)
    (wfA : (⟨o.m_end, o.m_capacity, A⟩ : vector T).wf) :
    ∃ (st1 : Store T) (o1 : vector_obj) (A1 : List T),
      reserve st o n = .ok (st1, o1) ∧ st1.read o1.m_storage = .ok A1 ∧
      vector.reserve ⟨o.m_end, o.m_capacity, A⟩ n = .ok ⟨o1.m_end, o1.m_capacity, A1⟩ ∧
      (∀ (q : Nat) (B : List T), q ≠ o.m_storage → st.read q = .ok B → st1.read q = .ok B) ∧
      (o.m_capacity < n → st1.read o.m_storage = .error (.dangling o.m_storage) ∧
        o1.m_storage = st.arrays.length) ∧
      (n ≤ o.m_capacity → st1 = st ∧ o1 = o) := by
  have halt := Store.read_lt hA
  by_cases h : o.m_capacity < n
  · have hgrow := vector.reserve_grow (⟨o.m_end, o.m_capacity, A⟩ : vector T) n wfA h
    have hla : (⟨o.m_end, o.m_capacity, A⟩ : vector T).live.length = o.m_end :=
      vector.live_length _ wfA
    have ha2 : o.m_end ≤ o.m_capacity := wfA.2.1
    have hA1 : (st.new_arr n).1.read o.m_storage = .ok A := Store.read_new_old _ _ _ _ hA
    have hp : (st.new_arr n).2 = st.arrays.length := rfl
    have hlen : (⟨o.m_end, o.m_capacity, A⟩ : vector T).live.length
        ≤ (new_array T n).length := by rw [new_array_length, hla]; omega
    have hpl : (st.new_arr n).2 < (st.new_arr n).1.arrays.length := by
      rw [hp]; simp [Store.new_arr]
    refine ⟨((st.new_arr n).1.write (st.new_arr n).2
        ((⟨o.m_end, o.m_capacity, A⟩ : vector T).live ++ (new_array T n).drop o.m_end)).delete_arr
          o.m_storage,
      ⟨o.m_end, n, (st.new_arr n).2⟩, _, ?_, ?_, hgrow, ?_, ?_, fun h' => by omega⟩
    · have hg : n > o.m_capacity := h
      simp only [reserve, hg, if_true, view_of_read hA1, vector.read_live_ok _ wfA,
        Store.read_new_fresh, vector.std_copy_front _ _ hlen, bind, Except.bind, pure,
        Except.pure, hla]
    · show Store.read _ (st.new_arr n).2 = _
      rw [Store.read_delete_ne _ _ _ (by rw [hp]; omega)]
      exact Store.read_write_same _ _ _ hpl
    · intro q B hq hB
      have hql := Store.read_lt hB
      rw [Store.read_delete_ne _ _ _ (Ne.symm hq),
        Store.read_write_ne _ _ _ _ (by rw [hp]; omega)]
      exact Store.read_new_old _ _ _ _ hB
    · intro _
      exact ⟨Store.read_delete_same _ _, rfl⟩
  · have hg : ¬ (n > o.m_capacity) := h
    refine ⟨st, o, A, ?_, hA, vector.reserve_noop _ n (by show n ≤ o.m_capacity; omega),
      fun q B _ hB => hB, fun h' => absurd h' h, fun _ => ⟨rfl, rfl⟩⟩
    simp only [reserve, hg, if_false, pure, Except.pure]

end vector_obj
namespace vector_obj
variable {T : Type}

/-- For an argument that refers to an object outside the vector's array, the
store-level `push_back` computes what the by-value `vector.push_back` computes
on the vector the object denotes. -/
theorem obj_push_back_value [Element T] (st : Store T) (o : vector_obj) (A : List T)
    (r : const_reference) (x : T)
    (hA : st.read o.m_storage = .ok A)
    (wfA : (⟨o.m_end, o.m_capacity, A⟩ : vector T).wf) (hsz : o.m_end < 2 ^ 63)
    (hx : st.deref r = .ok x) (hne : r.m_array ≠ o.m_storage) :
    ∃ (st1 : Store T) (o1 : vector_obj) (A1 : List T),
      push_back st o r = .ok (st1, o1) ∧ st1.read o1.m_storage = .ok A1 ∧
      vector.push_back ⟨o.m_end, o.m_capacity, A⟩ x = .ok ⟨o1.m_end, o1.m_capacity, A1⟩ := by
  obtain ⟨R, hR, hxR⟩ := Store.deref_inv hx
  obtain ⟨w, hw, _⟩ := vector.push_back_result (⟨o.m_end, o.m_capacity, A⟩ : vector T) x wfA hsz
  by_cases hfull : o.m_end = o.m_capacity
  · obtain ⟨st1, o1, A1, hres, hread, hval, hframe, _, _⟩ := obj_reserve_result st o A
      (if o.m_capacity = 0 then wrap (o.m_capacity + 1) else wrap (o.m_capacity * 2)) hA wfA
    have hf : (⟨o.m_end, o.m_capacity, A⟩ : vector T).full = true := by
      simp [vector.full, hfull]
    have hv : vector.push_back (⟨o.m_end, o.m_capacity, A⟩ : vector T) x
        = (store A1 o1.m_end x >>= fun a =>
            pure (⟨wrap (o1.m_end + 1), o1.m_capacity, a⟩ : vector T)) := by
      unfold vector.push_back
      rw [if_pos hf]
      simp only [hval, bind, Except.bind]
    rw [hv] at hw
    obtain ⟨a1, ha1, _⟩ := vector.bind_ok_inv hw
    refine ⟨st1.write o1.m_storage a1, { o1 with m_end := wrap (o1.m_end + 1) }, a1, ?_,
      Store.read_write_same _ _ _ (Store.read_lt hread), ?_⟩
    · unfold push_back
      rw [if_pos hfull]
      simp only [hres, bind, Except.bind, Store.deref_of_read (hframe _ _ hne hR) hxR, hread, ha1,
        pure, Except.pure]
    · rw [hv]
      simp only [ha1, bind, Except.bind, pure, Except.pure]
  · have hf : ¬ ((⟨o.m_end, o.m_capacity, A⟩ : vector T).full = true) := by
      simp [vector.full, hfull]
    have hv : vector.push_back (⟨o.m_end, o.m_capacity, A⟩ : vector T) x
        = (store A o.m_end x >>= fun a =>
            pure (⟨wrap (o.m_end + 1), o.m_capacity, a⟩ : vector T)) := by
      unfold vector.push_back
      rw [if_neg hf]
      simp only [bind, Except.bind, pure, Except.pure]
    rw [hv] at hw
    obtain ⟨a1, ha1, _⟩ := vector.bind_ok_inv hw
    refine ⟨st.write o.m_storage a1, { o with m_end := wrap (o.m_end + 1) }, a1, ?_,
      Store.read_write_same _ _ _ (Store.read_lt hA), ?_⟩
    · unfold push_back
      rw [if_neg hfull]
      simp only [bind, Except.bind, hx, hA, ha1, pure, Except.pure]
    · rw [hv]
      simp only [ha1, bind, Except.bind, pure, Except.pure]

/-- On every full vector, `push_back` of a reference to one of its own elements
reads the array that `reserve` has released. -/
theorem obj_push_back_own_full [Element T] (st : Store T) (o : vector_obj) (A : List T)
    (r : const_reference)
    (hA : st.read o.m_storage = .ok A)
    (wfA : (⟨o.m_end, o.m_capacity, A⟩ : vector T).wf) (hsz : o.m_end < 2 ^ 63)
    (hfull : o.m_end = o.m_capacity) (hr : r.m_array = o.m_storage) :
    push_back st o r = .error (.dangling o.m_storage) := by
  have hc2 := vector.grow_capacity o.m_capacity (by omega)
  obtain ⟨st1, o1, A1, hres, hread, hval, hframe, hdang, _⟩ := obj_reserve_result st o A
    (if o.m_capacity = 0 then wrap (o.m_capacity + 1) else wrap (o.m_capacity * 2)) hA wfA
  have hd := (hdang (by rw [hc2]; omega)).1
  unfold push_back
  rw [if_pos hfull]
  simp only [hres, bind, Except.bind, Store.deref, hr, hd]

end vector_obj
namespace vector_obj
variable {T : Type}

/-- For an argument that refers to an object outside the vector's array, the
store-level `insert` returns what the by-value `vector.insert` returns on the
vector the object denotes. -/
theorem obj_insert_value [Element T] (st : Store T) (o : vector_obj) (A : List T)
    (r : const_reference) (x : T) (pos : MyForwardIterator) (w : vector T)
    (it : MyForwardIterator)
    (hA : st.read o.m_storage = .ok A)
    (wfA : (⟨o.m_end, o.m_capacity, A⟩ : vector T).wf)
    (hx : st.deref r = .ok x) (hne : r.m_array ≠ o.m_storage)
    (hw : vector.insert ⟨o.m_end, o.m_capacity, A⟩ pos x = .ok (w, it)) :
    ∃ (st1 : Store T) (o1 : vector_obj) (A1 : List T),
      insert st o pos r = .ok (st1, o1, it) ∧ st1.read o1.m_storage = .ok A1 ∧
      w = ⟨o1.m_end, o1.m_capacity, A1⟩ := by
  obtain ⟨R, hR, hxR⟩ := Store.deref_inv hx
  have hRl := Store.read_lt hR
  have key : ∀ (st1 : Store T) (o1 : vector_obj) (A1 : List T),
      st1.read o1.m_storage = .ok A1 → st1.read r.m_array = .ok R →
      r.m_array ≠ o1.m_storage →
      (vector.shift_loop (to_size (pos.diff ⟨0⟩)) (to_size ((o1.m_end : Int) - 1))
          (to_size ((wrap (o1.m_end + 1) : Int) - 1)) A1 >>= fun a =>
        storeI a (pos.diff ⟨0⟩) x >>= fun a1 =>
          (pure ((⟨wrap (o1.m_end + 1), o1.m_capacity, a1⟩ : vector T),
            (⟨0⟩ : MyForwardIterator).add (pos.diff ⟨0⟩)) :
            Except Fault (vector T × MyForwardIterator))) = .ok (w, it) →
      ∃ (st2 : Store T) (A2 : List T),
        (st1.read o1.m_storage >>= fun a =>
          vector.shift_loop (to_size (pos.diff ⟨0⟩)) (to_size ((o1.m_end : Int) - 1))
            (to_size ((wrap (o1.m_end + 1) : Int) - 1)) a >>= fun b =>
          (st1.write o1.m_storage b).deref r >>= fun y =>
          storeI b (pos.diff ⟨0⟩) y >>= fun a1 =>
          (pure ((st1.write o1.m_storage b).write o1.m_storage a1,
            (⟨wrap (o1.m_end + 1), o1.m_capacity, o1.m_storage⟩ : vector_obj),
            (⟨0⟩ : MyForwardIterator).add (pos.diff ⟨0⟩)) :
            Except Fault (Store T × vector_obj × MyForwardIterator)))
          = .ok (st2, ⟨wrap (o1.m_end + 1), o1.m_capacity, o1.m_storage⟩, it) ∧
        st2.read o1.m_storage = .ok A2 ∧
        w = ⟨wrap (o1.m_end + 1), o1.m_capacity, A2⟩ := by
    intro st1 o1 A1 hread hR1 hne1 hval
    obtain ⟨b, hb, hrest⟩ := vector.bind_ok_inv hval
    obtain ⟨a1, ha1, hfin⟩ := vector.bind_ok_inv hrest
    have hpair := Except.ok.inj hfin
    have hwe := (Prod.mk.inj hpair).1
    have hite := (Prod.mk.inj hpair).2
    have hl1 := Store.read_lt hread
    have hd : (st1.write o1.m_storage b).deref r = .ok x :=
      Store.deref_of_read (by rw [Store.read_write_ne _ _ _ _ (Ne.symm hne1)]; exact hR1) hxR
    refine ⟨(st1.write o1.m_storage b).write o1.m_storage a1, a1, ?_, ?_, hwe.symm⟩
    · simp only [hread, bind, Except.bind, hb, hd, ha1, pure, Except.pure, hite]
    · apply Store.read_write_same
      simp only [Store.write, List.length_set]
      exact hl1
  by_cases hfull : o.m_end = o.m_capacity
  · obtain ⟨st1, o1, A1, hres, hread, hval, hframe, hdang, hsame⟩ := obj_reserve_result st o A
      (if o.m_capacity = 0 then wrap (o.m_capacity + 1) else wrap (o.m_capacity * 2)) hA wfA
    have hf : (⟨o.m_end, o.m_capacity, A⟩ : vector T).full = true := by
      simp [vector.full, hfull]
    have hne1 : r.m_array ≠ o1.m_storage := by
      by_cases hg : o.m_capacity
          < (if o.m_capacity = 0 then wrap (o.m_capacity + 1) else wrap (o.m_capacity * 2))
      · rw [(hdang hg).2]; omega
      · rw [(hsame (by omega)).2]; exact hne
    unfold vector.insert at hw
    rw [if_pos hf] at hw
    simp only [hval, bind, Except.bind, vector.begin] at hw
    obtain ⟨st2, A2, h1, h2, h3⟩ := key st1 o1 A1 hread (hframe _ _ hne hR) hne1
      (by simp only [bind, Except.bind]; exact hw)
    refine ⟨st2, ⟨wrap (o1.m_end + 1), o1.m_capacity, o1.m_storage⟩, A2, ?_, h2, h3⟩
    unfold insert
    rw [if_pos hfull]
    simp only [hres, bind, Except.bind]
    simp only [bind, Except.bind] at h1
    exact h1
  · have hf : ¬ ((⟨o.m_end, o.m_capacity, A⟩ : vector T).full = true) := by
      simp [vector.full, hfull]
    unfold vector.insert at hw
    rw [if_neg hf] at hw
    simp only [bind, Except.bind, pure, Except.pure, vector.begin] at hw
    obtain ⟨st2, A2, h1, h2, h3⟩ := key st o A hA hR hne
      (by simp only [bind, Except.bind, pure, Except.pure]; exact hw)
    refine ⟨st2, ⟨wrap (o.m_end + 1), o.m_capacity, o.m_storage⟩, A2, ?_, h2, h3⟩
    unfold insert
    rw [if_neg hfull]
    simp only [bind, Except.bind, pure, Except.pure]
    simp only [bind, Except.bind, pure, Except.pure] at h1
    exact h1

end vector_obj
namespace vector_obj
variable {T : Type}

/-- The loop of `std::fill` with a `value` outside the array it fills writes `n`
copies of it from slot `i` on and leaves the other arrays as they were. -/
theorem fill_loop_outside (p : Nat) (r : const_reference) (x : T) (hne : r.m_array ≠ p) :
    ∀ (n i : Nat) (st : Store T) (a : List T), st.read p = .ok a → st.deref r = .ok x →
      i + n ≤ a.length →
      ∃ st1 : Store T, fill_loop p r n i st = .ok st1 ∧
        st1.read p = .ok (a.take i ++ List.replicate n x ++ a.drop (i + n)) ∧
        ∀ (q : Nat) (B : List T), q ≠ p → st.read q = .ok B → st1.read q = .ok B
  | 0, i, st, a, ha, _, _ => by
    refine ⟨st, rfl, ?_, fun _ _ _ h => h⟩
    rw [ha]
    simp
  | n + 1, i, st, a, ha, hx, hlen => by
    obtain ⟨R, hR, hxR⟩ := Store.deref_inv hx
    have hi : i < a.length := by omega
    have hpl := Store.read_lt ha
    have ha1 : (st.write p (a.set i x)).read p = .ok (a.set i x) :=
      Store.read_write_same _ _ _ hpl
    have hx1 : (st.write p (a.set i x)).deref r = .ok x :=
      Store.deref_of_read (by rw [Store.read_write_ne _ _ _ _ (Ne.symm hne)]; exact hR) hxR
    obtain ⟨st1, h1, h2, h3⟩ := fill_loop_outside p r x hne n (i + 1) (st.write p (a.set i x))
      (a.set i x) ha1 hx1 (by simp only [List.length_set]; omega)
    refine ⟨st1, ?_, ?_, ?_⟩
    · simp only [fill_loop, hx, ha, store_ok x hi, bind, Except.bind, h1]
    · rw [h2]
      congr 1
      apply List.ext_getElem?
      intro j
      simp only [List.getElem?_append, List.getElem?_take, List.getElem?_drop,
        List.getElem?_set, List.length_take, List.length_append, List.length_replicate,
        List.length_set, List.getElem?_replicate]
      split_ifs <;> first | rfl | omega | (congr 1; omega)
    · intro q B hq hB
      exact h3 q B hq (by rw [Store.read_write_ne _ _ _ _ (Ne.symm hq)]; exact hB)

/-- For an argument that refers to an object outside the vector's array, the
store-level `assign(count_, value_)` computes what the by-value
`vector.assign_fill` computes on the vector the object denotes. -/
theorem obj_assign_fill_value [Element T] (st : Store T) (o : vector_obj) (A : List T)
    (r : const_reference) (x : T) (n : Nat)
    (hA : st.read o.m_storage = .ok A)
    (wfA : (⟨o.m_end, o.m_capacity, A⟩ : vector T).wf)
    (hx : st.deref r = .ok x) (hne : r.m_array ≠ o.m_storage) :
    ∃ (st1 : Store T) (o1 : vector_obj) (A1 : List T),
      assign_fill st o n r = .ok (st1, o1) ∧ st1.read o1.m_storage = .ok A1 ∧
      vector.assign_fill ⟨o.m_end, o.m_capacity, A⟩ n x
        = .ok ⟨o1.m_end, o1.m_capacity, A1⟩ := by
  obtain ⟨R, hR, hxR⟩ := Store.deref_inv hx
  have hRl := Store.read_lt hR
  have hAl := Store.read_lt hA
  have h1 : o.m_capacity ≤ A.length := wfA.1
  by_cases h : o.m_capacity < n
  · have hp : (st.new_arr n).2 = st.arrays.length := rfl
    have hnew : ((st.new_arr n).1.delete_arr o.m_storage).read (st.new_arr n).2
        = .ok (new_array T n) := by
      rw [Store.read_delete_ne _ _ _ (by rw [hp]; omega)]
      exact Store.read_new_fresh _ _
    have hR1 : ((st.new_arr n).1.delete_arr o.m_storage).read r.m_array = .ok R := by
      rw [Store.read_delete_ne _ _ _ (Ne.symm hne)]
      exact Store.read_new_old _ _ _ _ hR
    obtain ⟨st1, hf1, hf2, _⟩ := fill_loop_outside (st.new_arr n).2 r x (by rw [hp]; omega) n 0
      ((st.new_arr n).1.delete_arr o.m_storage) (new_array T n) hnew
      (Store.deref_of_read hR1 hxR) (by rw [new_array_length]; omega)
    have hc : 0 ≤ n ∧ n ≤ (new_array T n).length := by rw [new_array_length]; omega
    refine ⟨st1, ⟨n, n, (st.new_arr n).2⟩, _, ?_, hf2, ?_⟩
    · simp only [assign_fill, h, if_true, bind, Except.bind, hf1, pure, Except.pure]
    · simp only [vector.assign_fill, h, if_true, std_fill, hc, and_self, bind, Except.bind,
        pure, Except.pure, Nat.zero_add, Nat.sub_zero]
  · obtain ⟨st1, hf1, hf2, _⟩ := fill_loop_outside o.m_storage r x hne n 0 st A hA hx
      (by omega)
    have hc : 0 ≤ n ∧ n ≤ A.length := by omega
    refine ⟨st1, ⟨n, o.m_capacity, o.m_storage⟩, _, ?_, hf2, ?_⟩
    · simp only [assign_fill, h, if_false, bind, Except.bind, hf1, pure, Except.pure]
    · simp only [vector.assign_fill, h, if_false, std_fill, hc, and_self, if_true, bind,
        Except.bind, pure, Except.pure, Nat.zero_add, Nat.sub_zero]

/-- On every vector, `assign(count_, value_)` with `count_` above the capacity
and a reference to one of the vector's own elements reads the array that
`delete[] m_storage` has released. -/
theorem obj_assign_fill_own_grow [Element T] (st : Store T) (o : vector_obj)
    (r : const_reference) (n : Nat) (h : o.m_capacity < n) (hr : r.m_array = o.m_storage) :
    assign_fill st o n r = .error (.dangling o.m_storage) := by
  obtain ⟨m, rfl⟩ : ∃ m, n = m + 1 := ⟨n - 1, by omega⟩
  have hd : ((st.new_arr (m + 1)).1.delete_arr o.m_storage).deref r
      = .error (.dangling o.m_storage) := by
    simp only [Store.deref, hr, Store.read_delete_same, bind, Except.bind]
  simp only [assign_fill, h, if_true, fill_loop, hd, bind, Except.bind]

end vector_obj
end sc
